import Mathlib

/-!
Verification of dune-pdelab: ordering, constraints assembly and constraint-aware scatter.

A shallow embedding of
* `IntersectionType::get` and `LocalAssemblerBase::etadd` / `add_entry`
  (`gridoperator/common/assemblerutilities.hh`),
* `LexicographicOrderingImp::Base` (`gridfunctionspace/lexicographicordering.hh`),
* `ConstraintsAssemblerHelper::assemble` and its leaf visitors
  (`constraints/constraints.hh`),
together with the properties proved about them.
-/

namespace PDELab

/-! ## `IntersectionType` (assemblerutilities.hh, lines 73-90) -/

/-- The enum `IntersectionType::Type`. -/
inductive IntersectionType where
  | processor
  | skeleton
  | boundary
  | periodic
  deriving DecidableEq, Repr

namespace IntersectionType

/-- The numeric value of each enumerator (`processor = 0`, `skeleton = 1`,
`boundary = 2`, `periodic = 3`). -/
def toNat : IntersectionType → Nat
  | processor => 0
  | skeleton => 1
  | boundary => 2
  | periodic => 3

/-- The conversion `static_cast<Type>(n)`; only the values `0..3` ever reach it, the last
branch stands for the enumerator `3`. -/
def staticCast : Nat → IntersectionType
  | 0 => processor
  | 1 => skeleton
  | 2 => boundary
  | _ => periodic

/-- The function `IntersectionType::get`, on the two booleans `is.neighbor()` and
`is.boundary()`: `static_cast<Type>(1*is.neighbor() + 2*is.boundary())`. -/
def get (neighbor boundary : Bool) : IntersectionType :=
  staticCast (1 * neighbor.toNat + 2 * boundary.toNat)

end IntersectionType

/-! ## Lexicographic ordering (lexicographicordering.hh, lines 43-117) -/

namespace LexicographicOrderingImp

/-- The class `LexicographicOrderingImp::Base`: its only data member is the array
`SizeType childOffsets[Node::CHILDREN+1]`.  `SizeType` is a template parameter, the unsigned
integer type in which the children report their `size()`.  Its values are embedded as
natural numbers; the functions below take the width `w` of the type in bits and reduce every
sum modulo `2^w`, as the unsigned arithmetic of the type does. -/
structure Base where
  childOffsets : List Nat
  deriving DecidableEq, Repr

/-- The traversal `applyToTree(asImp(), CollectSizesVisitor(childOffsets+1))`: the visitor's
`beforeChild` runs once for every direct child, in index order, and stores
`sizes[childIndex] = child.size()` where `sizes = childOffsets+1`.  The children are given by
the list of their sizes; `child.size()` is a `SizeType`, so the entry is taken in the range
of the type. -/
def collectSizes (w : Nat) (childSizes : List Nat) (offs : List Nat) : List Nat :=
  (List.range childSizes.length).foldl
    (fun a childIndex => a.set (childIndex + 1) (childSizes.getD childIndex 0 % 2 ^ w)) offs

/-- The loop `for(child = 1; child < CHILDREN; ++child)
childOffsets[child+1] += childOffsets[child];`, the sum wrapping at `2^w`. -/
def convertToOffsets (w : Nat) (children : Nat) (offs : List Nat) : List Nat :=
  (List.range' 1 (children - 1)).foldl
    (fun a child => a.set (child + 1) ((a.getD (child + 1) 0 + a.getD child 0) % 2 ^ w)) offs

/-- The method `Base::update()`, for children of the given sizes. -/
def Base.update (w : Nat) (o : Base) (childSizes : List Nat) : Base :=
  { childOffsets :=
      convertToOffsets w childSizes.length (collectSizes w childSizes o.childOffsets) }

/-- The constructor `Base()`: `childOffsets[0] = 0; asImp().update();`.  The array is not
initialised before, `uninit` is its arbitrary content. -/
def Base.construct (w : Nat) (uninit : List Nat) (childSizes : List Nat) : Base :=
  Base.update w { childOffsets := uninit.set 0 0 } childSizes

/-- The state of the ordering after the constructor's `childOffsets[0] = 0` followed by a
sequence of `update()` calls, the `n`-th one seeing children of sizes `updates[n]`.  The
constructor itself is `afterUpdates w uninit [childSizes]`. -/
def Base.afterUpdates (w : Nat) (uninit : List Nat) (updates : List (List Nat)) : Base :=
  updates.foldl (Base.update w) { childOffsets := uninit.set 0 0 }

/-- The method `Base::subMap`: `childOffsets[child] + indexInChild`, a sum of two `SizeType`
values that wraps at `2^w`. -/
def Base.subMap (w : Nat) (o : Base) (child indexInChild : Nat) : Nat :=
  (o.childOffsets.getD child 0 + indexInChild) % 2 ^ w

/-- The method `Base::size`: `childOffsets[Node::CHILDREN]`. -/
def Base.size (o : Base) (children : Nat) : Nat :=
  o.childOffsets.getD children 0

/-- Sum of the sizes of the children before child `c`: `s_0 + ... + s_{c-1}`. -/
def prefixSum (childSizes : List Nat) (c : Nat) : Nat := (childSizes.take c).sum

end LexicographicOrderingImp

/-! ## Constraints container and the constraint-aware scatter
(assemblerutilities.hh, lines 266-475) -/

/-- A constraints container `CG`: a map from a global index (the constrained dof) to a map
from global indices (the contributed dofs) to weights.  Both maps are given by the list of
their entries in iteration order; `find` returns the first entry with the key. -/
abbrev ConstraintsContainer (T : Type) := List (Nat × List (Nat × T))

/-- The member `find` of the container: `none` stands for `end()`, `some row` for an iterator
whose `second` is `row`. -/
def ConstraintsContainer.find {T : Type} (cg : ConstraintsContainer T) (g : Nat) :
    Option (List (Nat × T)) :=
  List.lookup g cg

/-- A call made by `etadd` on the backend's `Accessor`: `accessor.add(i,j,t)` with local
indices, or `accessor.addGlobal(gi,gj,t)` with global indices. -/
inductive AccessorCall (T : Type) where
  | add (i j : Nat) (t : T)
  | addGlobal (gi gj : Nat) (t : T)
  deriving DecidableEq, Repr

namespace LocalAssemblerBase

variable {T : Type} [CommRing T] [DecidableEq T]

/-- The statement `if (t != 0.0) { if (foreign_dofs) accessor.addGlobal(gi,gj,t); else
accessor.add(i,j,t); }` (lines 348-354 and 376-382). -/
def etaddEmit (foreign_dofs : Bool) (i j gi gj : Nat) (t : T) : List (AccessorCall T) :=
  if t ≠ 0 then
    [if foreign_dofs then AccessorCall.addGlobal gi gj t else AccessorCall.add i j t]
  else []

/-- The inner `do ... while(true)` loop of `etadd` (lines 360-389) for a constrained column,
`gurit` being the entries from the iterator's position to `gucit->second.end()`: at the end
the loop breaks; otherwise `gj = gurit->first; uf = gurit->second; foreign_dofs = true;`, the
entry `localcontainer(i,j) * uf * vf` is added, and `++gurit`. -/
def etaddColumnLoop (m vf : T) (i j gi : Nat) : List (Nat × T) → List (AccessorCall T)
  | [] => []
  | (gj, uf) :: gurit =>
    etaddEmit true i j gi gj (m * uf * vf) ++ etaddColumnLoop m vf i j gi gurit

/-- One pass through the body of the outer `do ... while(true)` loop of `etadd` after the row
target `gi`, its weight `vf` and `foreign_dofs` have been set (lines 340-389).  `gucit` is the
result of `cu.find(gj)`.  For an unconstrained column the inner loop runs once with
`uf = 1`.  For a constrained column, lines 346-356 first add `localcontainer(i,j) * vf` at
`(gi,gj)` when the inner map is empty, then the inner loop runs over the inner map. -/
def etaddRowBody (m : T) (i j gi gj : Nat) (vf : T) (foreign_dofs : Bool)
    (gucit : Option (List (Nat × T))) : List (AccessorCall T) :=
  match gucit with
  | none => etaddEmit foreign_dofs i j gi gj (m * 1 * vf)
  | some urow =>
    (if urow.isEmpty then etaddEmit foreign_dofs i j gi gj (m * vf) else [])
      ++ etaddColumnLoop m vf i j gi urow

/-- The outer `do ... while(true)` loop of `etadd` (lines 323-396) for a constrained row,
`gvrit` being the entries from the iterator's position to `gvcit->second.end()`: at the end
the loop breaks (line 330); otherwise `gi = gvrit->first; vf = gvrit->second;
foreign_dofs = true;`, the body runs, and `++gvrit`. -/
def etaddRowLoop (m : T) (i j gj : Nat) (gucit : Option (List (Nat × T))) :
    List (Nat × T) → List (AccessorCall T)
  | [] => []
  | (gi, vf) :: gvrit =>
    etaddRowBody m i j gi gj vf true gucit ++ etaddRowLoop m i j gj gucit gvrit

/-- The body of the double loop of `etadd` for the local entry `(i,j)` (lines 307-396), with
`gi = lfsv.globalIndex(i)`, `gj = lfsu.globalIndex(j)` and `m = localcontainer(lfsv,i,lfsu,j)`.
For an unconstrained row the outer loop runs once with `vf = 1` and `foreign_dofs = false`. -/
def etaddEntry (cv cu : ConstraintsContainer T) (i j gi gj : Nat) (m : T) :
    List (AccessorCall T) :=
  match cv.find gi with
  | none => etaddRowBody m i j gi gj 1 false (cu.find gj)
  | some vrow => etaddRowLoop m i j gj (cu.find gj) vrow

/-- The accessor calls made by `etadd(lfsv, lfsu, localcontainer, globalcontainer)`, in
order.  A local function space is given by the list of its global indices
(`lfsv.size()` is the length, `lfsv.globalIndex(i)` the `i`-th entry). -/
def etaddCalls (cv cu : ConstraintsContainer T) (lfsv lfsu : List Nat) (m : Nat → Nat → T) :
    List (AccessorCall T) :=
  (List.range lfsv.length).flatMap fun i =>
    (List.range lfsu.length).flatMap fun j =>
      etaddEntry cv cu i j (lfsv.getD i 0) (lfsu.getD j 0) (m i j)

/-- Modelled from the spec: the backend's `Accessor` is not part of the sources.  Following
the spec ("entries targeting indices outside the local element's own DOF block are added via a
global-index accessor rather than the local accessor"), `add(i,j,t)` addresses the global
position `(lfsv.globalIndex(i), lfsu.globalIndex(j))` and `addGlobal(gi,gj,t)` the global
position `(gi,gj)`. -/
def accessorTarget (lfsv lfsu : List Nat) : AccessorCall T → Nat × Nat
  | AccessorCall.add i j _ => (lfsv.getD i 0, lfsu.getD j 0)
  | AccessorCall.addGlobal gi gj _ => (gi, gj)

/-- The value passed to an accessor call. -/
def accessorValue : AccessorCall T → T
  | AccessorCall.add _ _ t => t
  | AccessorCall.addGlobal _ _ t => t

/-- Modelled from the spec: the effect of one accessor call on the global matrix, which is
given as a function of the global row and column: the value is added at the call's target. -/
def accessorApply (lfsv lfsu : List Nat) (globalcontainer : Nat → Nat → T)
    (call : AccessorCall T) : Nat → Nat → T :=
  fun r c =>
    if accessorTarget lfsv lfsu call = (r, c) then globalcontainer r c + accessorValue call
    else globalcontainer r c

/-- The method `etadd`: the global matrix after all accessor calls. -/
def etadd (cv cu : ConstraintsContainer T) (lfsv lfsu : List Nat) (m : Nat → Nat → T)
    (globalcontainer : Nat → Nat → T) : Nat → Nat → T :=
  (etaddCalls cv cu lfsv lfsu m).foldl (accessorApply lfsv lfsu) globalcontainer

/-- The inner loop of `add_entry` (lines 451-466) for a constrained column: for every entry
of the inner map `gj = gurit->first; globalpattern.add_link(gi,gj);`. -/
def add_entryColumnLoop (gi : Nat) : List (Nat × T) → List (Nat × Nat)
  | [] => []
  | (gj, _) :: gurit => (gi, gj) :: add_entryColumnLoop gi gurit

/-- One pass through the body of the outer loop of `add_entry` (lines 442-466). -/
def add_entryRowBody (gi gj : Nat) (gucit : Option (List (Nat × T))) : List (Nat × Nat) :=
  match gucit with
  | none => [(gi, gj)]
  | some urow => (if urow.isEmpty then [(gi, gj)] else []) ++ add_entryColumnLoop gi urow

/-- The outer loop of `add_entry` (lines 435-473) for a constrained row. -/
def add_entryRowLoop (gj : Nat) (gucit : Option (List (Nat × T))) :
    List (Nat × T) → List (Nat × Nat)
  | [] => []
  | (gi, _) :: gvrit => add_entryRowBody gi gj gucit ++ add_entryRowLoop gj gucit gvrit

/-- The method `add_entry(globalpattern, gi, gj)`: the index pairs passed to
`globalpattern.add_link`, in order.  Line 423 links the diagonal, lines 428-433 link
`(gi,gj)` for a row with an empty inner map, then the double loop runs. -/
def add_entry (cv cu : ConstraintsContainer T) (gi gj : Nat) : List (Nat × Nat) :=
  (if gi = gj then [(gi, gj)] else []) ++
    match cv.find gi with
    | none => add_entryRowBody gi gj (cu.find gj)
    | some vrow =>
      (if vrow.isEmpty then [(gi, gj)] else []) ++ add_entryRowLoop gj (cu.find gj) vrow

/-- The expansion of a global index in the words of the spec: an unconstrained index expands
to itself with weight 1, a constrained index to the entries of its inner map. -/
def expansion (cg : ConstraintsContainer T) (g : Nat) : List (Nat × T) :=
  match cg.find g with
  | none => [(g, 1)]
  | some row => row

/-- The entry `(r,c)` of `S_V * m * S_U^T` in the words of the spec: the sum over the local
entries `(i,j)`, the row expansions `(r,w_v)` of `globalIndex_V(i)` and the column expansions
`(c,w_u)` of `globalIndex_U(j)` of `m(i,j) * w_v * w_u`. -/
def transformedEntry (cv cu : ConstraintsContainer T) (lfsv lfsu : List Nat)
    (m : Nat → Nat → T) (r c : Nat) : T :=
  ((List.range lfsv.length).map fun i =>
    ((List.range lfsu.length).map fun j =>
      ((expansion cv (lfsv.getD i 0)).map fun rw =>
        ((expansion cu (lfsu.getD j 0)).map fun cw =>
          if rw.1 = r ∧ cw.1 = c then m i j * rw.2 * cw.2 else 0).sum).sum).sum).sum

/-- What one accessor call adds at the global position `(r,c)`. -/
def contribution (lfsv lfsu : List Nat) (r c : Nat) (call : AccessorCall T) : T :=
  if accessorTarget lfsv lfsu call = (r, c) then accessorValue call else 0

end LocalAssemblerBase

/-- The local matrix `[[2,1],[1,3]]` of the pure Dirichlet scenario. -/
def scenarioMatrix : Nat → Nat → Int
  | 0, 0 => 2
  | 0, 1 => 1
  | 1, 0 => 1
  | 1, 1 => 3
  | _, _ => 0

/-! ## Constraints assembly (constraints.hh, lines 23-306 and 559-675) -/

/-- The static capability flags `C::doBoundary`, `C::doProcessor`, `C::doSkeleton` and
`C::doVolume` of a constraints type `C`. -/
structure ConstraintsFlags where
  doBoundary : Bool
  doProcessor : Bool
  doSkeleton : Bool
  doVolume : Bool
  deriving DecidableEq, Repr

/-- A leaf of the local function space tree: `name` identifies the leaf, `constraints` are the
flags of its `Traits::ConstraintsType`. -/
structure LeafSpace where
  name : Nat
  constraints : ConstraintsFlags
  deriving DecidableEq, Repr

/-- The tree of a `LocalFunctionSpace<GFS>`: a leaf, or a power/composite node with its
children in index order. -/
inductive LocalFunctionSpace where
  | leaf (lfs : LeafSpace)
  | node (children : List LocalFunctionSpace)

/-- A constraints parameter tree `P`: a leaf parameter object `f`, identified by a number, or
a `PowerConstraintsParameters`/`CompositeConstraintsParameters` node. -/
inductive ConstraintsParameters where
  | leaf (f : Nat)
  | node (children : List ConstraintsParameters)

/-- A codim-0 entity as the assembler sees it: its geometry type `type()` and its index
`is.index(e)` in the index set. -/
structure Entity where
  type : Nat
  index : Nat
  deriving DecidableEq, Repr

/-- An intersection: the values of `boundary()` and `neighbor()`, and the entity returned by
`outside()` (read only when `neighbor()` holds). -/
structure Intersection where
  boundary : Bool
  neighbor : Bool
  outside : Entity
  deriving DecidableEq, Repr

/-- An element of the grid view together with the intersections its intersection iterator
runs through, in order. -/
structure Element where
  entity : Entity
  intersections : List Intersection
  deriving DecidableEq, Repr

/-- The wrapper `IntersectionGeometry<Intersection>(*iit, intersection_index)`; `inside` is the
element whose intersection iterator produced it. -/
structure IntersectionGeometry where
  inside : Entity
  intersection : Intersection
  intersection_index : Nat
  deriving DecidableEq, Repr

/-- An invocation of a hook of a constraints object: `c.boundary(f,ig,lfs,trafo)`,
`c.processor(ig,lfs,trafo)`, `c.skeleton(ig,lfs_e,lfs_f,trafo_e,trafo_f)` or
`c.volume(eg,lfs,trafo)`. -/
inductive HookCall where
  | boundary (f : Nat) (ig : IntersectionGeometry) (lfs : LeafSpace)
  | processor (ig : IntersectionGeometry) (lfs : LeafSpace)
  | skeleton (ig : IntersectionGeometry) (lfs_e lfs_f : LeafSpace)
  | volume (eg : Entity) (lfs : LeafSpace)
  deriving DecidableEq, Repr

/-- The content of a local constraints map `CG cl;`: still `empty` as allocated, or as filled
by a hook call through its (first) transformation argument, or, for `cl_f` of the skeleton
hook, through its second one. -/
inductive LocalConstraints where
  | empty
  | filled (h : HookCall)
  | filledOutside (h : HookCall)
  deriving DecidableEq, Repr

/-- What a leaf visitor does to the outside world: it invokes a hook, or it writes a local
constraints map into the global container with `lfs.mwrite(cl,cg)`, `lfs` being bound to the
entity `boundTo`. -/
inductive ConstraintsEvent where
  | hook (h : HookCall)
  | mwrite (lfs : LeafSpace) (boundTo : Entity) (cl : LocalConstraints)
  deriving DecidableEq, Repr

/-- The three hooks that are called per intersection. -/
inductive HookKind where
  | boundary
  | processor
  | skeleton
  deriving DecidableEq, Repr

/-- The per-intersection hook an event invokes, if any. -/
def ConstraintsEvent.kind : ConstraintsEvent → Option HookKind
  | ConstraintsEvent.hook (HookCall.boundary _ _ _) => some HookKind.boundary
  | ConstraintsEvent.hook (HookCall.processor _ _) => some HookKind.processor
  | ConstraintsEvent.hook (HookCall.skeleton _ _ _) => some HookKind.skeleton
  | _ => none

mutual
/-- Modelled from the spec: the traversal `TypeTree::applyToTree(tree, visitor)` is not part
of the sources.  For a visitor that only defines `leaf` it runs depth-first, left-to-right
over the children and calls `visitor.leaf` on every leaf. -/
def applyToTree (leaf : LeafSpace → List ConstraintsEvent) :
    LocalFunctionSpace → List ConstraintsEvent
  | LocalFunctionSpace.leaf lfs => leaf lfs
  | LocalFunctionSpace.node children => applyToChildren leaf children
/-- The children of a node, visited in index order. -/
def applyToChildren (leaf : LeafSpace → List ConstraintsEvent) :
    List LocalFunctionSpace → List ConstraintsEvent
  | [] => []
  | child :: rest => applyToTree leaf child ++ applyToChildren leaf rest
end

mutual
/-- The leaf descendants of a local function space tree, from left to right. -/
def leafDescendants : LocalFunctionSpace → List LeafSpace
  | LocalFunctionSpace.leaf lfs => [lfs]
  | LocalFunctionSpace.node children => leafDescendantsOfChildren children
/-- The leaf descendants of a list of children. -/
def leafDescendantsOfChildren : List LocalFunctionSpace → List LeafSpace
  | [] => []
  | child :: rest => leafDescendants child ++ leafDescendantsOfChildren rest
end

/-- The leaf visitor shared by `BoundaryConstraintsForParametersLeaf::leaf` (lines 124-138)
and the leaf/leaf overload of `BoundaryConstraints::leaf` (lines 160-175), whose bodies are
the same: `CG cl;`, then `ConstraintsCallBoundary<C,C::doBoundary>::boundary(
lfs.constraints(),f,ig,lfs,cl)`, which calls `c.boundary(f,ig,lfs,cl)` only if `doBoundary`,
then `lfs.mwrite(cl,cg)`. -/
def BoundaryConstraintsForParametersLeaf.leaf (f : Nat) (ig : IntersectionGeometry)
    (lfs : LeafSpace) : List ConstraintsEvent :=
  if lfs.constraints.doBoundary then
    [ConstraintsEvent.hook (HookCall.boundary f ig lfs),
     ConstraintsEvent.mwrite lfs ig.inside (LocalConstraints.filled (HookCall.boundary f ig lfs))]
  else
    [ConstraintsEvent.mwrite lfs ig.inside LocalConstraints.empty]

/-- The two overloads of `BoundaryConstraints::leaf` for a leaf parameter `f` (lines 160-184):
on a leaf local function space the standard case; on a non-leaf one
`applyToTree(lfs, BoundaryConstraintsForParametersLeaf<F,IG,CG>(f,ig,cg))`. -/
def BoundaryConstraints.leaf (ig : IntersectionGeometry) (f : Nat) :
    LocalFunctionSpace → List ConstraintsEvent
  | LocalFunctionSpace.leaf lfs => BoundaryConstraintsForParametersLeaf.leaf f ig lfs
  | LocalFunctionSpace.node children =>
    applyToTree (BoundaryConstraintsForParametersLeaf.leaf f ig)
      (LocalFunctionSpace.node children)

mutual
/-- Modelled from the spec: `TypeTree::applyToTreePair(p, lfs_e, BoundaryConstraints(ig,cg))`;
the pair traversal is not part of the sources.  A pair in which the parameter is a leaf is
handed to the visitor's `leaf`; two inner nodes are descended child by child.  An inner
parameter node paired with a leaf space selects `BoundaryConstraintsBase::leaf`, whose
`dune_static_assert` rejects the program at compile time, so no call results. -/
def applyToTreePairBoundary (ig : IntersectionGeometry) :
    ConstraintsParameters → LocalFunctionSpace → List ConstraintsEvent
  | ConstraintsParameters.leaf f, lfs => BoundaryConstraints.leaf ig f lfs
  | ConstraintsParameters.node _, LocalFunctionSpace.leaf _ => []
  | ConstraintsParameters.node ps, LocalFunctionSpace.node children =>
    applyToChildrenPairBoundary ig ps children
/-- The children of two inner nodes, visited pairwise in index order. -/
def applyToChildrenPairBoundary (ig : IntersectionGeometry) :
    List ConstraintsParameters → List LocalFunctionSpace → List ConstraintsEvent
  | p :: ps, child :: rest =>
    applyToTreePairBoundary ig p child ++ applyToChildrenPairBoundary ig ps rest
  | _, _ => []
end

/-- The visitor `ProcessorConstraints::leaf` (lines 204-217). -/
def ProcessorConstraints.leaf (ig : IntersectionGeometry) (lfs : LeafSpace) :
    List ConstraintsEvent :=
  if lfs.constraints.doProcessor then
    [ConstraintsEvent.hook (HookCall.processor ig lfs),
     ConstraintsEvent.mwrite lfs ig.inside (LocalConstraints.filled (HookCall.processor ig lfs))]
  else
    [ConstraintsEvent.mwrite lfs ig.inside LocalConstraints.empty]

/-- The visitor `SkeletonConstraints::leaf` (lines 237-259) on a pair of leaves: `CG cl_e; CG
cl_f;`, then `c.skeleton(ig,lfs_e,lfs_f,cl_e,cl_f)` only if `doSkeleton`, then
`lfs_e.mwrite(cl_e,cg); lfs_f.mwrite(cl_f,cg);`.  `lfs_e` is bound to the inside element,
`lfs_f` to `outside()`. -/
def SkeletonConstraints.leaf (ig : IntersectionGeometry) (lfs_e lfs_f : LeafSpace) :
    List ConstraintsEvent :=
  if lfs_e.constraints.doSkeleton then
    [ConstraintsEvent.hook (HookCall.skeleton ig lfs_e lfs_f),
     ConstraintsEvent.mwrite lfs_e ig.inside
       (LocalConstraints.filled (HookCall.skeleton ig lfs_e lfs_f)),
     ConstraintsEvent.mwrite lfs_f ig.intersection.outside
       (LocalConstraints.filledOutside (HookCall.skeleton ig lfs_e lfs_f))]
  else
    [ConstraintsEvent.mwrite lfs_e ig.inside LocalConstraints.empty,
     ConstraintsEvent.mwrite lfs_f ig.intersection.outside LocalConstraints.empty]

/-- The visitor `VolumeConstraints::leaf` (lines 279-294). -/
def VolumeConstraints.leaf (eg : Entity) (lfs : LeafSpace) : List ConstraintsEvent :=
  if lfs.constraints.doVolume then
    [ConstraintsEvent.hook (HookCall.volume eg lfs),
     ConstraintsEvent.mwrite lfs eg (LocalConstraints.filled (HookCall.volume eg lfs))]
  else
    [ConstraintsEvent.mwrite lfs eg LocalConstraints.empty]

/-- The constant `const int chunk = 1<<28;`. -/
def chunk : Nat := 2 ^ 28

/-- The map `std::map<Dune::GeometryType,int> gtoffset`, as the list of its entries. -/
abbrev GtOffset := List (Nat × Nat)

/-- The read access `gtoffset[gt]`: `operator[]` of `std::map` returns the mapped value and,
when the key is absent, first inserts it with the value-initialised `int`, which is `0`. -/
def gtoffsetIndex (gtoffset : GtOffset) (gt : Nat) : Nat × GtOffset :=
  match List.lookup gt gtoffset with
  | some v => (v, gtoffset)
  | none => (0, gtoffset ++ [(gt, 0)])

/-- The local variables `gtoffset` and `offset` of `assemble`. -/
structure OffsetState where
  gtoffset : GtOffset
  offset : Nat
  deriving DecidableEq, Repr

/-- Lines 608-612: `if (gtoffset.find(it->type())==gtoffset.end()) { gtoffset[it->type()] =
offset; offset += chunk; }`. -/
def assignOffset (st : OffsetState) (gt : Nat) : OffsetState :=
  match List.lookup gt st.gtoffset with
  | some _ => st
  | none => { gtoffset := st.gtoffset ++ [(gt, st.offset)], offset := st.offset + chunk }

/-- What happens at one intersection: `idn` is the neighbour's id computed at line 645 (if
`neighbor()` holds), `events` the hook invocations and writes, in order. -/
structure IntersectionVisit where
  idn : Option Nat
  events : List ConstraintsEvent
  deriving DecidableEq, Repr

/-- What happens at one element: `id` is the id computed at line 614, `volume` the events of
the volume visitor, `intersections` the visits of its intersections, in order. -/
structure ElementVisit where
  id : Nat
  volume : List ConstraintsEvent
  intersections : List IntersectionVisit
  deriving DecidableEq, Repr

/-- The body of the intersection loop of `assemble` (lines 628-653) for the intersection
`iit` with index `intersection_index` of the element `inside` with id `id`.  `lfs_e` and
`lfs_f` are two instances of the same tree `lfs`, so the pair traversal of line 651 visits
every leaf paired with itself. -/
def visitIntersection (p : ConstraintsParameters) (lfs : LocalFunctionSpace) (inside : Entity)
    (id : Nat) (gtoffset : GtOffset) (intersection_index : Nat) (iit : Intersection) :
    GtOffset × IntersectionVisit :=
  let ig : IntersectionGeometry :=
    { inside := inside, intersection := iit, intersection_index := intersection_index }
  let boundaryEvents := if iit.boundary then applyToTreePairBoundary ig p lfs else []
  let processorEvents :=
    if (!iit.boundary) && (!iit.neighbor) then applyToTree (ProcessorConstraints.leaf ig) lfs
    else []
  if iit.neighbor then
    let r := gtoffsetIndex gtoffset iit.outside.type
    let idn := iit.outside.index + r.1
    let skeletonEvents :=
      if id > idn then applyToTree (fun l => SkeletonConstraints.leaf ig l l) lfs else []
    (r.2, { idn := some idn, events := boundaryEvents ++ processorEvents ++ skeletonEvents })
  else
    (gtoffset, { idn := none, events := boundaryEvents ++ processorEvents })

/-- The intersection loop of `assemble` (lines 624-654), from the intersection with index
`intersection_index` on. -/
def visitIntersections (p : ConstraintsParameters) (lfs : LocalFunctionSpace) (inside : Entity)
    (id : Nat) : GtOffset → Nat → List Intersection → GtOffset × List IntersectionVisit
  | gtoffset, _, [] => (gtoffset, [])
  | gtoffset, intersection_index, iit :: rest =>
    let r := visitIntersection p lfs inside id gtoffset intersection_index iit
    let rr := visitIntersections p lfs inside id r.1 (intersection_index + 1) rest
    (rr.1, r.2 :: rr.2)

/-- The body of the element loop of `assemble` (lines 607-654). -/
def visitElement (p : ConstraintsParameters) (lfs : LocalFunctionSpace) (st : OffsetState)
    (it : Element) : OffsetState × ElementVisit :=
  let st1 := assignOffset st it.entity.type
  let r := gtoffsetIndex st1.gtoffset it.entity.type
  let id := it.entity.index + r.1
  let rr := visitIntersections p lfs it.entity id r.2 0 it.intersections
  ({ gtoffset := rr.1, offset := st1.offset },
   { id := id, volume := applyToTree (VolumeConstraints.leaf it.entity) lfs,
     intersections := rr.2 })

/-- The element loop of `assemble` (lines 604-655) over the elements the iterator runs
through. -/
def assembleLoop (p : ConstraintsParameters) (lfs : LocalFunctionSpace) :
    OffsetState → List Element → OffsetState × List ElementVisit
  | st, [] => (st, [])
  | st, it :: rest =>
    let r := visitElement p lfs st it
    let rr := assembleLoop p lfs r.1 rest
    (rr.1, r.2 :: rr.2)

/-- The function `ConstraintsAssemblerHelper::assemble` (lines 577-655) on a grid view given
by its elements in iteration order: `offset = 0`, an empty `gtoffset`, then the loop.  The
result lists what happened at every element. -/
def assemble (p : ConstraintsParameters) (lfs : LocalFunctionSpace) (gridView : List Element) :
    List ElementVisit :=
  (assembleLoop p lfs { gtoffset := [], offset := 0 } gridView).2

/-- The final content of `gtoffset` when `assemble` returns. -/
def assembleOffsets (p : ConstraintsParameters) (lfs : LocalFunctionSpace)
    (gridView : List Element) : GtOffset :=
  (assembleLoop p lfs { gtoffset := [], offset := 0 } gridView).1.gtoffset

/-- All events of an element visit, in order. -/
def ElementVisit.events (v : ElementVisit) : List ConstraintsEvent :=
  v.volume ++ v.intersections.flatMap IntersectionVisit.events

/-- All hook invocations and writes of `assemble`, in order. -/
def assembleEvents (p : ConstraintsParameters) (lfs : LocalFunctionSpace)
    (gridView : List Element) : List ConstraintsEvent :=
  (assemble p lfs gridView).flatMap ElementVisit.events

/-- One `gtoffset` map extends another: every entry of the first is an entry of the
second. -/
def GtOffsetLe (m m' : GtOffset) : Prop :=
  ∀ gt v, List.lookup gt m = some v → List.lookup gt m' = some v

/-- The events of the boundary visitor at an intersection. -/
def boundaryEvents (p : ConstraintsParameters) (lfs : LocalFunctionSpace)
    (ig : IntersectionGeometry) : List ConstraintsEvent :=
  applyToTreePairBoundary ig p lfs

/-- The events of the processor visitor at an intersection. -/
def processorEvents (lfs : LocalFunctionSpace) (ig : IntersectionGeometry) :
    List ConstraintsEvent :=
  applyToTree (ProcessorConstraints.leaf ig) lfs

/-- The events of the skeleton visitor at an intersection. -/
def skeletonEvents (lfs : LocalFunctionSpace) (ig : IntersectionGeometry) :
    List ConstraintsEvent :=
  applyToTree (fun l => SkeletonConstraints.leaf ig l l) lfs

/-- An event is an invocation of the boundary hook. -/
def isBoundaryHook (ev : ConstraintsEvent) : Bool :=
  decide (ev.kind = some HookKind.boundary)

/-- An event is a write `lfs.mwrite(cl,cg)` into the global container. -/
def isMwrite : ConstraintsEvent → Bool
  | ConstraintsEvent.mwrite _ _ _ => true
  | _ => false

/-- The leaf space used in the scenarios: every hook is implemented. -/
def scenarioLeaf : LeafSpace :=
  { name := 0,
    constraints := { doBoundary := true, doProcessor := true, doSkeleton := true,
                     doVolume := true } }

/-- Two elements of different geometry types, each with index 0 in its type, sharing one
interior face. -/
def mixedGrid : List Element :=
  [{ entity := { type := 0, index := 0 },
     intersections := [{ boundary := false, neighbor := true,
                         outside := { type := 1, index := 0 } }] },
   { entity := { type := 1, index := 0 },
     intersections := [{ boundary := false, neighbor := true,
                         outside := { type := 0, index := 0 } }] }]

/-- A coefficient vector, read and written through `B::access(xg,i)` or `x[i]`: the function
from the flat index to the entry. -/
abbrev CoefficientVector (T : Type) := Nat → T

/-- The keys of a constraints container (the constrained dofs), in iteration order. -/
def ConstraintsContainer.keys {T : Type} (cg : ConstraintsContainer T) : List Nat :=
  cg.map Prod.fst

/-- No contributed index is itself a key of the container. -/
def ConstraintsContainer.ChainFree {T : Type} (cg : ConstraintsContainer T) : Prop :=
  ∀ cit ∈ cg, ∀ rit ∈ cit.2, rit.1 ∉ cg.keys

section Transforms

variable {T : Type} [CommRing T]

/-- The first loop nest of `constrain_residual` (constraints.hh, lines 834-836):
`B::access(xg,rit->first) += rit->second * B::access(xg,cit->first);` for every entry `rit`
of the inner map of every entry `cit`. -/
def constrain_residualScatter (cg : ConstraintsContainer T) (xg : CoefficientVector T) :
    CoefficientVector T :=
  cg.foldl (fun xg cit =>
    cit.2.foldl (fun xg rit => Function.update xg rit.1 (xg rit.1 + rit.2 * xg cit.1)) xg) xg

/-- The loop `B::access(xg,cit->first) = 0;` over all entries `cit` of a container
(constraints.hh, lines 840-841; assemblerutilities.hh, lines 164-165). -/
def zeroConstrained (cg : ConstraintsContainer T) (xg : CoefficientVector T) :
    CoefficientVector T :=
  cg.foldl (fun xg cit => Function.update xg cit.1 0) xg

/-- The function `constrain_residual(cg, xg)` (constraints.hh, lines 827-842): the scatter
loop, then the extra loop that zeroes the constrained dofs. -/
def constrain_residual (cg : ConstraintsContainer T) (xg : CoefficientVector T) :
    CoefficientVector T :=
  zeroConstrained cg (constrain_residualScatter cg xg)

/-- The function `copy_constrained_dofs(cg, xgin, xgout)` (constraints.hh, lines 853-860). -/
def copy_constrained_dofs (cg : ConstraintsContainer T) (xgin xgout : CoefficientVector T) :
    CoefficientVector T :=
  cg.foldl (fun xgout cit => Function.update xgout cit.1 (xgin cit.1)) xgout

namespace LocalAssemblerBase

/-- The inner loop of `forwardtransform` (lines 154-160) for one entry of the container:
`block(x[contributor]); block *= it->second; x[it->first] += block;`. -/
def forwardtransformRow (contributor : Nat) (x : CoefficientVector T)
    (contributed : List (Nat × T)) : CoefficientVector T :=
  contributed.foldl (fun x it => Function.update x it.1 (x it.1 + x contributor * it.2)) x

/-- The first loop of `forwardtransform` (lines 144-161). -/
def forwardtransformScatter (cv : ConstraintsContainer T) (x : CoefficientVector T) :
    CoefficientVector T :=
  cv.foldl (fun x cit => forwardtransformRow cit.1 x cit.2) x

/-- The method `forwardtransform(x, postrestrict)` (lines 140-166) for the test-space
constraints `cv`. -/
def forwardtransform (cv : ConstraintsContainer T) (x : CoefficientVector T)
    (postrestrict : Bool) : CoefficientVector T :=
  if postrestrict then zeroConstrained cv (forwardtransformScatter cv x)
  else forwardtransformScatter cv x

/-- The inner loop of `backtransform` (lines 189-195) for one entry of the container:
`block(x[it->first]); block *= it->second; x[contributor] += block;`. -/
def backtransformRow (contributor : Nat) (x : CoefficientVector T)
    (contributed : List (Nat × T)) : CoefficientVector T :=
  contributed.foldl
    (fun x it => Function.update x contributor (x contributor + x it.1 * it.2)) x

/-- The method `backtransform(x, prerestrict)` (lines 172-197): for every entry, `if
(prerestrict) x[contributor] = 0.;`, then the inner loop. -/
def backtransform (cv : ConstraintsContainer T) (x : CoefficientVector T)
    (prerestrict : Bool) : CoefficientVector T :=
  cv.foldl (fun x cit =>
    backtransformRow cit.1 (if prerestrict then Function.update x cit.1 0 else x) cit.2) x

/-- A call on the matrix backend `B` made by `handle_dirichlet_constraints`. -/
inductive BackendCall where
  | flush
  | clear_row (i : Nat) (diagonal_entry : Nat)
  | finalize
  deriving DecidableEq, Repr

/-- The method `set_trivial_row(i, cv_i, globalcontainer)` (lines 480-489):
`B::clear_row(i,globalcontainer,1);`. -/
def set_trivial_row (i : Nat) (_cv_i : List (Nat × T)) : List BackendCall :=
  [BackendCall.clear_row i 1]

/-- The method `handle_dirichlet_constraints(globalcontainer)` (lines 491-499): the calls it
makes on the backend, in order. -/
def handle_dirichlet_constraints (cv : ConstraintsContainer T) : List BackendCall :=
  [BackendCall.flush] ++ cv.flatMap (fun cit => set_trivial_row cit.1 cit.2)
    ++ [BackendCall.finalize]

end LocalAssemblerBase

/-- The sum, in the words of the spec, of `weight(c,d) * x[c]` over the keys `c` of the
container and the entries of their inner maps with contributed index `d`. -/
def contributionsTo (cg : ConstraintsContainer T) (x : CoefficientVector T) (d : Nat) : T :=
  (cg.map fun cit => (cit.2.map fun rit => if rit.1 = d then rit.2 * x cit.1 else 0).sum).sum

/-- The weighted sum of the `x`-values of the dofs in an inner map. -/
def weightedSum (x : CoefficientVector T) (contributed : List (Nat × T)) : T :=
  (contributed.map fun rit => rit.2 * x rit.1).sum

/-- A vector satisfies the constraints: every constrained dof equals the weighted sum of the
values of the dofs in its inner map. -/
def SatisfiesConstraints (cg : ConstraintsContainer T) (x : CoefficientVector T) : Prop :=
  ∀ cit ∈ cg, x cit.1 = weightedSum x cit.2

/-- The sum `sum_k u[k] * v[k]` over the entries `k < n` of two vectors of size `n`. -/
def dotProduct (n : Nat) (u v : CoefficientVector T) : T :=
  (Finset.range n).sum fun k => u k * v k

/-- All indices of a container address entries of a vector of size `n`. -/
def ConstraintsContainer.Within (cg : ConstraintsContainer T) (n : Nat) : Prop :=
  ∀ cit ∈ cg, cit.1 < n ∧ ∀ rit ∈ cit.2, rit.1 < n

/-- The pairs (key, entry of its inner map) of a container, in iteration order. -/
def ConstraintsContainer.entries (cg : ConstraintsContainer T) : List (Nat × Nat × T) :=
  cg.flatMap fun cit => cit.2.map fun rit => (cit.1, rit)

end Transforms

/-! ## Instationary grid operator space
(instationarygridoperatorspace.hh, lines 350-463, 499-507, 671-688, 718-734, 797-810,
899-925, 953-1187 and 1589-1593) -/

namespace InstationaryGridOperatorSpace

/-- Modelled from the spec: `TimeSteppingParameterInterface<TReal>` is not part of the
sources.  A time-stepping method has a stage count `s()`, coefficients `a(stage,i)`,
`b(stage,i)`, `d(i)` and the flag `implicit()`. -/
structure TimeSteppingParameter (K : Type) where
  s : Nat
  a : Nat → Nat → K
  b : Nat → Nat → K
  d : Nat → K
  implicit : Bool

/-- The two local operators of the assembler: the spatial one `la` and the temporal one
`lm`. -/
inductive Operator where
  | la
  | lm
  deriving DecidableEq, Repr

/-- A notification sent to a local operator: `preStep(time,dt,stages)`,
`preStage(time,stage)`, `postStage()` or `postStep()`. -/
inductive Notification (K : Type) where
  | preStep (op : Operator) (time dt : K) (stages : Nat)
  | preStage (op : Operator) (time : K) (stage : Nat)
  | postStage (op : Operator)
  | postStep (op : Operator)
  deriving DecidableEq, Repr

/-- An element of the grid view as the assembler loops see it: the entity and whether
`partitionType()` is `Dune::InteriorEntity`. -/
structure Cell where
  entity : Entity
  interior : Bool
  deriving DecidableEq, Repr

/-- The fixed collaborators of an `InstationaryGridOperatorSpace`.

Modelled from the spec: the local operators are not part of the sources.  `alpha cell time
x` stands for everything the spatial operator `la`, whose time has been set to `time`,
contributes for the element `cell` on the coefficients `x`: the global vector that the
calls `lfsv.vadd(rl_a,.)` and `lfsvn.vadd(rn,.)` of the element add before the scaling by
the time-stepping coefficient.  `mass cell time x` is the same for the temporal operator
`lm` and `lfsv.vadd(rl_m,.)`.

`gridView` lists the elements in iteration order, `hasSubTriangulation` is
`ST::hasSubTriangulation`, `cu` and `cv` are `*pconstraintsu` and `*pconstraintsv`. -/
structure Assembler (K : Type) where
  alpha : Cell → K → CoefficientVector K → CoefficientVector K
  mass : Cell → K → CoefficientVector K → CoefficientVector K
  gridView : List Cell
  nonoverlapping_mode : Bool
  hasSubTriangulation : Bool
  cu : ConstraintsContainer K
  cv : ConstraintsContainer K

/-- The data members `method`, `time`, `dt`, `stage` and `r0` (lines 1589-1592), together
with the notifications sent to the local operators so far. -/
structure State (K : Type) where
  method : TimeSteppingParameter K
  time : K
  dt : K
  stage : Nat
  r0 : CoefficientVector K
  notifications : List (Notification K)

/-- The exceptions thrown by the argument checks: the three `Exception`s "wrong number of
solutions", "invalid stage number" and "explicit mode called with implicit scheme", and the
`NotImplemented` of a sub-triangulation. -/
inductive AssemblerError where
  | wrongNumberOfSolutions
  | invalidStageNumber
  | explicitModeWithImplicitScheme
  | notImplemented
  deriving DecidableEq, Repr

/-- The result of a method that may throw: the data members when it returns or throws, and
the exception, if any. -/
structure Outcome (K : Type) where
  state : State K
  error : Option AssemblerError

section Assembly

variable {K : Type} [LinearOrderedField K]

/-- The test `c>1E-6 || c<-1E-6` of lines 506-507 and 809-810 (`doM` for `c = a[i]`, `doA`
for `c = b[i]`).  `TReal` is a template parameter; it is embedded as an ordered field with
exact arithmetic, the literal `1E-6` as `1/1000000`. -/
def exceedsTolerance (c : K) : Bool :=
  decide (c > 1 / 1000000) || decide (c < -(1 / 1000000))

/-- The statement `v *= c; lfs.vadd(v,r);`: the vector `r` after the scaled local residual
has been added. -/
def vaddScaled (c : K) (v r : CoefficientVector K) : CoefficientVector K :=
  fun k => r k + c * v k

/-- The statement `lfs.vadd(v,r);` without scaling. -/
def vadd (v r : CoefficientVector K) : CoefficientVector K :=
  fun k => r k + v k

/-- The test `nonoverlapping_mode && it->partitionType()!=Dune::InteriorEntity` that makes
the element loops `continue` (lines 491, 788 and 1006). -/
def skipCell (A : Assembler K) (cell : Cell) : Bool :=
  A.nonoverlapping_mode && !cell.interior

/-- The body of the loop over the previous stages in `preStage` (lines 500-688) for the
element `cell` and the stage `i`: with `doM` and `doA` from the tolerance test, the spatial
residual is added to `r0` scaled by `b[i]*dt` only if `doA`, the temporal one scaled by
`a[i]` only if `doM`. -/
def preStageTerm (A : Assembler K) (method : TimeSteppingParameter K) (time dt : K)
    (stage : Nat) (x : List (CoefficientVector K)) (cell : Cell)
    (r0 : CoefficientVector K) (i : Nat) : CoefficientVector K :=
  let a_i := method.a stage i
  let b_i := method.b stage i
  let d_i := method.d i
  let doM := exceedsTolerance a_i
  let doA := exceedsTolerance b_i
  let r1 := if doA then vaddScaled (b_i * dt) (A.alpha cell (time + d_i * dt) (x.getD i 0)) r0
            else r0
  if doM then vaddScaled a_i (A.mass cell (time + d_i * dt) (x.getD i 0)) r1 else r1

/-- The body of the element loop of `preStage` (lines 485-688). -/
def preStageCell (A : Assembler K) (method : TimeSteppingParameter K) (time dt : K)
    (stage : Nat) (x : List (CoefficientVector K)) (r0 : CoefficientVector K)
    (cell : Cell) : CoefficientVector K :=
  if skipCell A cell then r0
  else (List.range stage).foldl (preStageTerm A method time dt stage x cell) r0

/-- The method `preStage(stage_, x)` (lines 435-692): `stage = stage_;`, the two argument
checks, then `r0 = 0.0;`, the notifications `la.preStage(..)` and `lm.preStage(..)`, and the
traversal of the grid view that assembles the constant part of the residual. -/
def preStage (A : Assembler K) (st : State K) (stage_ : Nat)
    (x : List (CoefficientVector K)) : Outcome K :=
  let st1 : State K := { st with stage := stage_ }
  if x.length ≠ st1.stage then
    { state := st1, error := some AssemblerError.wrongNumberOfSolutions }
  else if st1.stage < 1 ∨ st1.stage > st1.method.s then
    { state := st1, error := some AssemblerError.invalidStageNumber }
  else
    let stageTime := st1.time + st1.method.d st1.stage * st1.dt
    let notified := st1.notifications ++
      [Notification.preStage Operator.la stageTime st1.stage,
       Notification.preStage Operator.lm stageTime st1.stage]
    let r0 := A.gridView.foldl
      (preStageCell A st1.method st1.time st1.dt st1.stage x) (fun _ => 0)
    { state := { st1 with r0 := r0, notifications := notified }, error := none }

/-- The value of the `unsigned` expression `stage+1` (line 729), which wraps at `2^32`. -/
def stagePlusOne (stage : Nat) : Nat := (stage + 1) % 2 ^ 32

/-- The result of `explicit_jacobian_residual`: the data members, the exception, if any, and
the residual parts `alpha` and `beta`. -/
structure ExplicitOutcome (K : Type) where
  state : State K
  error : Option AssemblerError
  alpha : CoefficientVector K
  beta : CoefficientVector K

/-- The body of the loop over the previous stages in `explicit_jacobian_residual` (lines
797-904) for the element `cell` and the stage `i`: the spatial residual is added to `beta`
scaled by `-b[i]` only if `doA`, the temporal one to `alpha` scaled by `-a[i]` only if
`doM`. -/
def explicitTerm (A : Assembler K) (method : TimeSteppingParameter K) (time dt : K)
    (stage : Nat) (x : List (CoefficientVector K)) (cell : Cell)
    (ab : CoefficientVector K × CoefficientVector K) (i : Nat) :
    CoefficientVector K × CoefficientVector K :=
  let a_i := method.a stage i
  let b_i := method.b stage i
  let d_i := method.d i
  let doM := exceedsTolerance a_i
  let doA := exceedsTolerance b_i
  let beta := if doA then
      vaddScaled (-b_i) (A.alpha cell (time + d_i * dt) (x.getD i 0)) ab.2
    else ab.2
  let alpha := if doM then
      vaddScaled (-a_i) (A.mass cell (time + d_i * dt) (x.getD i 0)) ab.1
    else ab.1
  (alpha, beta)

/-- The residual part of the body of the element loop of `explicit_jacobian_residual`
(lines 774-904). -/
def explicitCell (A : Assembler K) (method : TimeSteppingParameter K) (time dt : K)
    (stage : Nat) (x : List (CoefficientVector K))
    (ab : CoefficientVector K × CoefficientVector K) (cell : Cell) :
    CoefficientVector K × CoefficientVector K :=
  if skipCell A cell then ab
  else (List.range stage).foldl (explicitTerm A method time dt stage x cell) ab

/-- The method `explicit_jacobian_residual(stage_, x, mat, alpha, beta)` (lines 718-950): the
check for a sub-triangulation, `stage = stage_;`, the three argument checks, the
notifications, the traversal that accumulates `alpha` and `beta`, then
`constrain_residual(*pconstraintsv,beta)` and
`copy_constrained_dofs(*pconstraintsu,*x[stage],alpha)`.  The block-diagonal Jacobian `mat`
is left out. -/
def explicit_jacobian_residual (A : Assembler K) (st : State K) (stage_ : Nat)
    (x : List (CoefficientVector K)) (alpha beta : CoefficientVector K) :
    ExplicitOutcome K :=
  if A.hasSubTriangulation then
    { state := st, error := some AssemblerError.notImplemented, alpha := alpha, beta := beta }
  else
    let st1 : State K := { st with stage := stage_ }
    if x.length ≠ stagePlusOne st1.stage then
      { state := st1, error := some AssemblerError.wrongNumberOfSolutions,
        alpha := alpha, beta := beta }
    else if st1.stage < 1 ∨ st1.stage > st1.method.s then
      { state := st1, error := some AssemblerError.invalidStageNumber,
        alpha := alpha, beta := beta }
    else if st1.method.implicit then
      { state := st1, error := some AssemblerError.explicitModeWithImplicitScheme,
        alpha := alpha, beta := beta }
    else
      let stageTime := st1.time + st1.method.d st1.stage * st1.dt
      let notified := st1.notifications ++
        [Notification.preStage Operator.la stageTime st1.stage,
         Notification.preStage Operator.lm stageTime st1.stage]
      let ab := A.gridView.foldl
        (explicitCell A st1.method st1.time st1.dt st1.stage x) (alpha, beta)
      { state := { st1 with notifications := notified }, error := none,
        alpha := copy_constrained_dofs A.cu (x.getD st1.stage 0) ab.1,
        beta := constrain_residual A.cv ab.2 }

/-- The body of the element loop of `residual` (lines 1001-1184): the spatial residual is
added scaled by `b_rr*dt` only if the method is implicit, the temporal one unscaled ("scheme
is normalized"). -/
def residualCell (A : Assembler K) (st : State K) (x : CoefficientVector K)
    (r : CoefficientVector K) (cell : Cell) : CoefficientVector K :=
  let b_rr := st.method.b st.stage st.stage
  let d_r := st.method.d st.stage
  if skipCell A cell then r
  else
    let r1 := if st.method.implicit then
        vaddScaled (b_rr * st.dt) (A.alpha cell (st.time + d_r * st.dt) x) r
      else r
    vadd (A.mass cell (st.time + d_r * st.dt) x) r1

/-- The first statement of `residual`, `r = r0;` (line 967): the content of `r` on entry is
overwritten. -/
def residualStart (st : State K) (_r : CoefficientVector K) : CoefficientVector K :=
  st.r0

/-- The method `residual(x, r) const` (lines 962-1190): `r = r0;`, the traversal of the grid
view, then `constrain_residual(*pconstraintsv,r)`.  The method is `const`: the data members
stay as they are, the result is the new content of `r`. -/
def residual (A : Assembler K) (st : State K) (x : CoefficientVector K)
    (r : CoefficientVector K) : CoefficientVector K :=
  constrain_residual A.cv (A.gridView.foldl (residualCell A st x) (residualStart st r))

/-- The constant part `r0` in closed form: the sum over the visited elements and the
previous stages `i` of the spatial residual scaled by `b[i]*dt` if `|b[i]| > 10^-6` and of
the temporal residual scaled by `a[i]` if `|a[i]| > 10^-6`. -/
def constantResidual (A : Assembler K) (method : TimeSteppingParameter K) (time dt : K)
    (stage : Nat) (x : List (CoefficientVector K)) (k : Nat) : K :=
  ((A.gridView.filter fun cell => !skipCell A cell).map fun cell =>
    ((List.range stage).map fun i =>
      (if |method.b stage i| > 1 / 1000000 then
        method.b stage i * dt * A.alpha cell (time + method.d i * dt) (x.getD i 0) k
       else 0) +
      (if |method.a stage i| > 1 / 1000000 then
        method.a stage i * A.mass cell (time + method.d i * dt) (x.getD i 0) k
       else 0)).sum).sum

/-- The part of `alpha` assembled by `explicit_jacobian_residual` in closed form: the sum over
the visited elements and the previous stages `i` of the temporal residual scaled by `-a[i]`
if `|a[i]| > 10^-6`. -/
def explicitTemporalPart (A : Assembler K) (method : TimeSteppingParameter K) (time dt : K)
    (stage : Nat) (x : List (CoefficientVector K)) (k : Nat) : K :=
  ((A.gridView.filter fun cell => !skipCell A cell).map fun cell =>
    ((List.range stage).map fun i =>
      if |method.a stage i| > 1 / 1000000 then
        -method.a stage i * A.mass cell (time + method.d i * dt) (x.getD i 0) k
      else 0).sum).sum

/-- The part of `beta` assembled by `explicit_jacobian_residual` in closed form: the sum over
the visited elements and the previous stages `i` of the spatial residual scaled by `-b[i]`
if `|b[i]| > 10^-6`. -/
def explicitSpatialPart (A : Assembler K) (method : TimeSteppingParameter K) (time dt : K)
    (stage : Nat) (x : List (CoefficientVector K)) (k : Nat) : K :=
  ((A.gridView.filter fun cell => !skipCell A cell).map fun cell =>
    ((List.range stage).map fun i =>
      if |method.b stage i| > 1 / 1000000 then
        -method.b stage i * A.alpha cell (time + method.d i * dt) (x.getD i 0) k
      else 0).sum).sum

end Assembly

/-- The assembler of the scenarios: one interior element, the spatial operator contributes
`x`, the temporal one `2 x`, no constraints. -/
def scenarioAssembler : Assembler ℚ :=
  { alpha := fun _ _ x => x, mass := fun _ _ x k => 2 * x k,
    gridView := [{ entity := { type := 0, index := 0 }, interior := true }],
    nonoverlapping_mode := false, hasSubTriangulation := false, cu := [], cv := [] }

/-- The time-stepping method of the scenarios: three stages, `a(stage,i) = i`,
`b(stage,i) = stage`, `d(i) = 0`. -/
def scenarioMethod (implicit : Bool) : TimeSteppingParameter ℚ :=
  { s := 3, a := fun _ i => i, b := fun stage _ => stage, d := fun _ => 0,
    implicit := implicit }

/-- The data members of the scenarios after stage `stage` has been accepted: time 0, time
step 1, constant residual with all entries 7. -/
def scenarioState (stage : Nat) : State ℚ :=
  { method := scenarioMethod true, time := 0, dt := 1, stage := stage, r0 := fun _ => 7,
    notifications := [] }

end InstationaryGridOperatorSpace

/-! ## Matrix-free Jacobian application, notifications and interpolation
(instationarygridoperatorspace.hh, lines 375-427 and 1192-1344; constraints.hh, lines
882-889) -/

/-- The function `copy_nonconstrained_dofs(cg, xgin, xgout)` (constraints.hh, lines 882-889):
`for (i=0; i<xgin.flatsize(); ++i) if (cg.find(i)==cg.end()) xgout[i] = xgin[i];`.
`flatsize` is `xgin.flatsize()`. -/
def copy_nonconstrained_dofs {T : Type} (cg : ConstraintsContainer T) (flatsize : Nat)
    (xgin xgout : CoefficientVector T) : CoefficientVector T :=
  (List.range flatsize).foldl
    (fun xgout i => if (cg.find i).isNone then Function.update xgout i (xgin i) else xgout)
    xgout

namespace InstationaryGridOperatorSpace

/-- Modelled from the spec: the local operators are not part of the sources.
`jacobian_apply_alpha cell time x` stands for everything the calls `jacobian_apply_volume`,
`jacobian_apply_skeleton`, `jacobian_apply_boundary` and `jacobian_apply_volume_post_skeleton`
of the spatial operator `la` contribute for the element `cell`: the global vector that
`lfsv.vadd(yl_a,.)` and `lfsvn.vadd(yn,.)` add before the scaling by `b_rr*dt`.
`jacobian_apply_mass cell time x` is the same for `jacobian_apply_volume` of the temporal
operator `lm` and `lfsv.vadd(yl_m,.)`. -/
structure JacobianApplyOperators (K : Type) where
  jacobian_apply_alpha : Cell → K → CoefficientVector K → CoefficientVector K
  jacobian_apply_mass : Cell → K → CoefficientVector K → CoefficientVector K

/-- The result of `jacobian_apply`: the content of `y` when the method returns or throws,
and the exception, if any. -/
structure ApplyOutcome (K : Type) where
  y : CoefficientVector K
  error : Option AssemblerError

section Apply

variable {K : Type} [LinearOrderedField K]

/-- The body of the element loop of `jacobian_apply` (lines 1240-1340): the spatial part is
added to `y` scaled by `b_rr*dt` only if the method is implicit, the temporal one unscaled
("scheme is normalized"). -/
def jacobian_applyCell (A : Assembler K) (J : JacobianApplyOperators K) (st : State K)
    (x : CoefficientVector K) (y : CoefficientVector K) (cell : Cell) : CoefficientVector K :=
  let b_rr := st.method.b st.stage st.stage
  let d_r := st.method.d st.stage
  if skipCell A cell then y
  else
    let y1 := if st.method.implicit then
        vaddScaled (b_rr * st.dt) (J.jacobian_apply_alpha cell (st.time + d_r * st.dt) x) y
      else y
    vadd (J.jacobian_apply_mass cell (st.time + d_r * st.dt) x) y1

/-- The method `jacobian_apply(x, y) const` (lines 1198-1344): the check for a
sub-triangulation, the traversal of the grid view that adds to the content of `y`, then
`copy_constrained_dofs(*pconstraintsu,x,y)`. -/
def jacobian_apply (A : Assembler K) (J : JacobianApplyOperators K) (st : State K)
    (x : CoefficientVector K) (y : CoefficientVector K) : ApplyOutcome K :=
  if A.hasSubTriangulation then
    { y := y, error := some AssemblerError.notImplemented }
  else
    { y := copy_constrained_dofs A.cu x (A.gridView.foldl (jacobian_applyCell A J st x) y),
      error := none }

/-- The method `interpolate(stage, xold, f, x) const` (lines 416-427):
`f.setTime(time+method->d(stage)*dt);`, `Dune::PDELab::interpolate(f,gfsu,x);`, then
`copy_nonconstrained_dofs(*pconstraintsv,xold,x)`.

Modelled from the spec: `Dune::PDELab::interpolate` is not part of the sources.  `f t x`
stands for the content of `x` after the interpolation of the function `f`, whose time has
been set to `t`, into the trial space; `flatsize` is `xold.flatsize()`. -/
def interpolate (A : Assembler K) (st : State K) (flatsize : Nat) (stage : Nat)
    (xold : CoefficientVector K) (f : K → CoefficientVector K → CoefficientVector K)
    (x : CoefficientVector K) : CoefficientVector K :=
  copy_nonconstrained_dofs A.cv flatsize xold (f (st.time + st.method.d stage * st.dt) x)

end Apply

/-- The method `postStep()` (lines 375-382): `lm.postStep();`. -/
def postStep {K : Type} (st : State K) : State K :=
  { st with notifications := st.notifications ++ [Notification.postStep Operator.lm] }

/-- The method `postStage()` (lines 384-392): `la.postStage(); lm.postStage();`. -/
def postStage {K : Type} (st : State K) : State K :=
  { st with notifications := st.notifications ++
      [Notification.postStage Operator.la, Notification.postStage Operator.lm] }

/-- The operators of the scenarios for `jacobian_apply`: the spatial one contributes `3 x`,
the temporal one the constant `5`. -/
def scenarioApplyOperators : JacobianApplyOperators ℚ :=
  { jacobian_apply_alpha := fun _ _ x k => 3 * x k, jacobian_apply_mass := fun _ _ _ _ => 5 }

/-- The assembler of the scenarios with the trial-space and test-space constraints
`{1: {0: 1/2}, 2: {}}`. -/
def constrainedAssembler : Assembler ℚ :=
  { scenarioAssembler with cu := [(1, [(0, 1 / 2)]), (2, [])], cv := [(1, [(0, 1 / 2)]), (2, [])] }

end InstationaryGridOperatorSpace

/-! ## Static accumulation over a tree
(accumulate_static.hh, lines 16-276) -/

namespace TypeTree

/-- A tree as the accumulation sees it: a node with `LeafNodeTag`, or a node with
`PowerNodeTag`, `CompositeNodeTag` or `VariadicCompositeNodeTag` and its children in index
order.  `node` stands for the type of the node, on which the functor is instantiated. -/
inductive Tree (N : Type) where
  | leaf (node : N)
  | composite (node : N) (children : List (Tree N))

/-- A `TreePath`: the child indices from the root to a node. -/
abbrev TreePath := List Nat

/-- The template parameter `Functor`: `doVisit<Node,TreePath>::value` and
`visit<Node,TreePath>::result` of type `result_type`. -/
structure VisitFunctor (N R : Type) where
  doVisit : N → TreePath → Bool
  visit : N → TreePath → R

/-- The reduction `plus` (lines 54-62): `reduce<r1,r2>::result = r1 + r2`. -/
def plus {R : Type} [Add R] (r1 r2 : R) : R := r1 + r2

/-- The reduction `minus` (lines 65-73): `reduce<r1,r2>::result = r1 - r2`. -/
def minus {R : Type} [Sub R] (r1 r2 : R) : R := r1 - r2

/-- The reduction `multiply` (lines 76-84): `reduce<r1,r2>::result = r1 * r2`. -/
def multiply {R : Type} [Mul R] (r1 r2 : R) : R := r1 * r2

section Accumulate

variable {N R : Type}

/-- The struct `accumulate_node_helper` (lines 102-122): if `doVisit` is false the result is
`current_value`, otherwise `Reduction::reduce<current_value, visit>::result`. -/
def accumulate_node_helper (Reduction : R → R → R) (current_value : R) (visit : R)
    (doVisit : Bool) : R :=
  if doVisit then Reduction current_value visit else current_value

mutual
/-- The struct `accumulate_value` (lines 128-183): on a `LeafNodeTag` the node helper with
`Reduction` (lines 131-143); on the other tags `accumulate_value_generic_composite_node`
(lines 168-183), which accumulates over the children from `current_value` and then applies
the node helper with `ParentChildReduction` to the result. -/
def accumulate_value (F : VisitFunctor N R) (Reduction ParentChildReduction : R → R → R) :
    Tree N → R → TreePath → R
  | Tree.leaf node, current_value, treePath =>
    accumulate_node_helper Reduction current_value (F.visit node treePath)
      (F.doVisit node treePath)
  | Tree.composite node children, current_value, treePath =>
    accumulate_node_helper ParentChildReduction
      (accumulate_over_children F Reduction ParentChildReduction children current_value
        treePath 0)
      (F.visit node treePath) (F.doVisit node treePath)
/-- The struct `accumulate_over_children<..,current_value,TreePath,i,n>` (lines 146-164) on
the children with index `i` and above: the child `i` is accumulated from `current_value` at
the path `TreePathPushBack<TreePath,i>`, the rest from its result; at `i = n` the result is
`current_value`. -/
def accumulate_over_children (F : VisitFunctor N R)
    (Reduction ParentChildReduction : R → R → R) :
    List (Tree N) → R → TreePath → Nat → R
  | [], current_value, _, _ => current_value
  | child :: rest, current_value, treePath, i =>
    accumulate_over_children F Reduction ParentChildReduction rest
      (accumulate_value F Reduction ParentChildReduction child current_value
        (treePath ++ [i]))
      treePath (i + 1)
end

/-- The struct `AccumulateValue<Tree,Functor,Reduction,startValue,ParentChildReduction>`
(lines 266-276): `accumulate_value` from `startValue` at the empty tree path. -/
def AccumulateValue (tree : Tree N) (F : VisitFunctor N R) (Reduction : R → R → R)
    (startValue : R) (ParentChildReduction : R → R → R) : R :=
  accumulate_value F Reduction ParentChildReduction tree startValue []

/-- The struct `AccumulateValue<Tree,Functor,Reduction,startValue>` with the default
template argument `ParentChildReduction = Reduction` (line 266). -/
def AccumulateValueDefault (tree : Tree N) (F : VisitFunctor N R) (Reduction : R → R → R)
    (startValue : R) : R :=
  AccumulateValue tree F Reduction startValue Reduction

/-- A node met by a traversal: whether it is an inner (power or composite) node, its type
and its tree path. -/
structure Visited (N : Type) where
  inner : Bool
  node : N
  treePath : TreePath

mutual
/-- The nodes of a tree in depth-first order, the children from left to right and before
their parent. -/
def postOrder : Tree N → TreePath → List (Visited N)
  | Tree.leaf node, treePath => [{ inner := false, node := node, treePath := treePath }]
  | Tree.composite node children, treePath =>
    postOrderChildren children treePath 0
      ++ [{ inner := true, node := node, treePath := treePath }]
/-- The nodes below the children with index `i` and above. -/
def postOrderChildren : List (Tree N) → TreePath → Nat → List (Visited N)
  | [], _, _ => []
  | child :: rest, treePath, i =>
    postOrder child (treePath ++ [i]) ++ postOrderChildren rest treePath (i + 1)
end

/-- One step of the fold of the spec: a node for which `doVisit` holds is combined into the
current value, a leaf with `Reduction`, an inner node with `ParentChildReduction`. -/
def foldStep (F : VisitFunctor N R) (Reduction ParentChildReduction : R → R → R)
    (current_value : R) (v : Visited N) : R :=
  if F.doVisit v.node v.treePath then
    (if v.inner then ParentChildReduction else Reduction) current_value
      (F.visit v.node v.treePath)
  else current_value

/-- The visit results of the leaves of a tree, from left to right. -/
def leafVisits (F : VisitFunctor N R) (tree : Tree N) : List R :=
  ((postOrder tree []).filter fun v => !v.inner).map fun v => F.visit v.node v.treePath

/-- The functor `doVisit` holds exactly on the leaves of the tree. -/
def VisitsExactlyLeaves (F : VisitFunctor N R) (tree : Tree N) : Prop :=
  ∀ v ∈ postOrder tree [], F.doVisit v.node v.treePath = !v.inner

end Accumulate

/-- A balanced tree with the four leaves 1, 2, 3, 4; the inner nodes carry 10, 20 and 30. -/
def balancedTree : Tree Int :=
  Tree.composite 30
    [Tree.composite 10 [Tree.leaf 1, Tree.leaf 2], Tree.composite 20 [Tree.leaf 3, Tree.leaf 4]]

/-- A skewed tree with the four leaves 4, 3, 2, 1. -/
def skewedTree : Tree Int :=
  Tree.composite 30
    [Tree.leaf 4, Tree.composite 20 [Tree.leaf 3, Tree.composite 10 [Tree.leaf 2, Tree.leaf 1]]]

/-- A functor that visits the nodes whose type is below 10 (the leaves of the scenario
trees) with the type as the result. -/
def leafFunctor : VisitFunctor Int Int :=
  { doVisit := fun node _ => decide (node < 10), visit := fun node _ => node }

/-- A functor that visits every node with the type as the result. -/
def everyNodeFunctor : VisitFunctor Int Int :=
  { doVisit := fun _ _ => true, visit := fun node _ => node }

end TypeTree

/-! ## Copying dofs between a child and its parent space
(gridfunctionspaceutilities.hh, lines 707-759) -/

/-- Modelled from the spec: the power and composite grid function spaces are not part of the
sources.  The copy helpers use the number `GFS::CHILDREN` of children and the method
`gfs.subMap(child, i)`, the index in the parent space of the dof `i` of the child. -/
structure ParentGridFunctionSpace where
  CHILDREN : Nat
  subMap : Nat → Nat → Nat

/-- The result of a copy helper: the two coefficient vectors when it returns or throws, and
whether the `Dune::Exception` "Child index must be smaller than the number of GFS
children!" has been thrown. -/
structure CopyOutcome (T : Type) where
  uChild : CoefficientVector T
  uParent : CoefficientVector T
  error : Bool

/-- The function `copy_dofs_child_to_parent(uChild, uParent, gfs, child)` (lines 718-732):
the check of the child index, then for `i < uChild.flatsize()` the assignment
`BE::access(uParent, gfs.subMap(child, i)) = CHILD_BE::access(uChild, i)`.  The parameter
`child` is an `int`; the embedding covers its non-negative values, `flatsize` is
`uChild.flatsize()`. -/
def copy_dofs_child_to_parent {T : Type} (uChild : CoefficientVector T) (flatsize : Nat)
    (uParent : CoefficientVector T) (gfs : ParentGridFunctionSpace) (child : Nat) :
    CopyOutcome T :=
  if child ≥ gfs.CHILDREN then
    { uChild := uChild, uParent := uParent, error := true }
  else
    { uChild := uChild,
      uParent := (List.range flatsize).foldl
        (fun uParent i => Function.update uParent (gfs.subMap child i) (uChild i)) uParent,
      error := false }

/-- The function `copy_dofs_parent_to_child(uParent, uChild, gfs, child)` (lines 745-759):
the check of the child index, then for `i < uChild.flatsize()` the assignment
`CHILD_BE::access(uChild, i) = BE::access(uParent, gfs.subMap(child, i))`. -/
def copy_dofs_parent_to_child {T : Type} (uParent : CoefficientVector T)
    (uChild : CoefficientVector T) (flatsize : Nat) (gfs : ParentGridFunctionSpace)
    (child : Nat) : CopyOutcome T :=
  if child ≥ gfs.CHILDREN then
    { uChild := uChild, uParent := uParent, error := true }
  else
    { uChild := (List.range flatsize).foldl
        (fun uChild i => Function.update uChild i (uParent (gfs.subMap child i))) uChild,
      uParent := uParent,
      error := false }

/-- A parent space with two children of three dofs each, ordered lexicographically. -/
def scenarioParentSpace : ParentGridFunctionSpace :=
  { CHILDREN := 2, subMap := fun child i => 3 * child + i }

/-! ## Generic data handles
(genericdatahandle.hh, lines 19-161 and 231-419) -/

/-- Modelled from the spec: the `MessageBuffer` of the grid communication is not part of the
sources.  The buffer holds the objects sent, `data k` being the `k`-th one, and `readPos`
counts the objects read so far. -/
structure MessageBuffer (E : Type) where
  data : Nat → E
  readPos : Nat

/-- The call `buff.read(x)`: the next object and the buffer after it. -/
def MessageBuffer.read {E : Type} (buff : MessageBuffer E) : E × MessageBuffer E :=
  (buff.data buff.readPos, { buff with readPos := buff.readPos + 1 })

/-- The template parameter `T` of `GenericDataHandle`: the method `scatter(buff, data)`
gives the buffer and the entry `data` after the call. -/
structure GatherScatter (E : Type) where
  scatter : MessageBuffer E → E → MessageBuffer E × E

/-- The template parameter `T` of `GenericDataHandle2`: the method `scatter(buff, e, data)`
also receives the entity. -/
structure GatherScatter2 (E : Type) where
  scatter : MessageBuffer E → Entity → E → MessageBuffer E × E

/-- The functor `AddGatherScatter` (lines 233-249): `buff.read(x); data += x;`. -/
def AddGatherScatter {E : Type} [Add E] : GatherScatter E :=
  { scatter := fun buff data => (buff.read.2, data + buff.read.1) }

/-- The functor `CopyGatherScatter` (lines 293-309): `buff.read(x); data = x;`. -/
def CopyGatherScatter {E : Type} : GatherScatter E :=
  { scatter := fun buff _ => (buff.read.2, buff.read.1) }

/-- The functor `MinGatherScatter` (lines 324-340): `buff.read(x); data = std::min(data,x);`. -/
def MinGatherScatter {E : Type} [Min E] : GatherScatter E :=
  { scatter := fun buff data => (buff.read.2, min data buff.read.1) }

/-- The functor `MaxGatherScatter` (lines 355-371): `buff.read(x); data = std::max(data,x);`. -/
def MaxGatherScatter {E : Type} [Max E] : GatherScatter E :=
  { scatter := fun buff data => (buff.read.2, max data buff.read.1) }

/-- The result of `scatter`: the vector `v` and the buffer when it returns or throws, and
whether the `Exception` "size mismatch in generic data handle" has been thrown. -/
structure ScatterOutcome (E : Type) where
  v : CoefficientVector E
  buff : MessageBuffer E
  error : Bool

namespace GenericDataHandle

/-- The loop `for (i=0; i<global.size(); ++i) t.scatter(buff,B::access(v,global[i]));`
(lines 74-75) over the global indices from position `i` on. -/
def scatterLoop {E : Type} (t : GatherScatter E) :
    List Nat → CoefficientVector E × MessageBuffer E → CoefficientVector E × MessageBuffer E
  | [], s => s
  | g :: global, s =>
    scatterLoop t global
      (Function.update s.1 g (t.scatter s.2 (s.1 g)).2, (t.scatter s.2 (s.1 g)).1)

/-- The method `GenericDataHandle::scatter(buff, e, n)` (lines 68-76):
`gfs.dataHandleGlobalIndices(e,global);`, the size check, then the loop.
`dataHandleGlobalIndices e` is the content of `global` after the first statement. -/
def scatter {E : Type} (dataHandleGlobalIndices : Entity → List Nat) (t : GatherScatter E)
    (v : CoefficientVector E) (buff : MessageBuffer E) (e : Entity) (n : Nat) :
    ScatterOutcome E :=
  let global := dataHandleGlobalIndices e
  if global.length ≠ n then
    { v := v, buff := buff, error := true }
  else
    { v := (scatterLoop t global (v, buff)).1, buff := (scatterLoop t global (v, buff)).2,
      error := false }

end GenericDataHandle

namespace GenericDataHandle2

/-- The loop `for (i=0; i<global.size(); ++i) t.scatter(buff,e,B::access(v,global[i]));`
(lines 151-152) over the global indices from position `i` on. -/
def scatterLoop {E : Type} (t : GatherScatter2 E) (e : Entity) :
    List Nat → CoefficientVector E × MessageBuffer E → CoefficientVector E × MessageBuffer E
  | [], s => s
  | g :: global, s =>
    scatterLoop t e global
      (Function.update s.1 g (t.scatter s.2 e (s.1 g)).2, (t.scatter s.2 e (s.1 g)).1)

/-- The method `GenericDataHandle2::scatter(buff, e, n)` (lines 145-153). -/
def scatter {E : Type} (dataHandleGlobalIndices : Entity → List Nat) (t : GatherScatter2 E)
    (v : CoefficientVector E) (buff : MessageBuffer E) (e : Entity) (n : Nat) :
    ScatterOutcome E :=
  let global := dataHandleGlobalIndices e
  if global.length ≠ n then
    { v := v, buff := buff, error := true }
  else
    { v := (scatterLoop t e global (v, buff)).1,
      buff := (scatterLoop t e global (v, buff)).2, error := false }

end GenericDataHandle2

/-- The values applied to the entries in the words of the spec: the `k`-th object read from
the buffer is combined by `combine` into the entry at the `k`-th global index, for the
global indices in index order. -/
def appliedInOrder {E : Type} (combine : E → E → E) (data : Nat → E) :
    List Nat → Nat → CoefficientVector E → CoefficientVector E
  | [], _, v => v
  | g :: global, k, v =>
    appliedInOrder combine data global (k + 1) (Function.update v g (combine (data k) (v g)))

/-! ## A trial-space container without its pure Dirichlet entries -/

/-- The container obtained by removing all entries with an empty inner map. -/
def ConstraintsContainer.withoutEmptyRows {T : Type} (cg : ConstraintsContainer T) :
    ConstraintsContainer T :=
  cg.filter fun cit => !cit.2.isEmpty

/-- No constrained dof occurs in its own inner map. -/
def ConstraintsContainer.NoSelfReference {T : Type} (cg : ConstraintsContainer T) : Prop :=
  ∀ cit ∈ cg, ∀ rit ∈ cit.2, rit.1 ≠ cit.1

/-! ## Properties of `IntersectionType::get` -/

/-- C9. `IntersectionType::get` classifies an intersection from its two booleans as the
table states: `(neighbor=false, boundary=false)` is `processor`, `(true,false)` is
`skeleton`, `(false,true)` is `boundary`, `(true,true)` is `periodic`; the mapping is a
bijection between the four boolean pairs and the four types, and the numeric value of the
result is `1*neighbor + 2*boundary`. -/
theorem IntersectionType.get_classifies :
    IntersectionType.get false false = IntersectionType.processor ∧
    IntersectionType.get true false = IntersectionType.skeleton ∧
    IntersectionType.get false true = IntersectionType.boundary ∧
    IntersectionType.get true true = IntersectionType.periodic ∧
    Function.Bijective (fun nb : Bool × Bool => IntersectionType.get nb.1 nb.2) ∧
    ∀ neighbor boundary : Bool,
      (IntersectionType.get neighbor boundary).toNat
        = 1 * neighbor.toNat + 2 * boundary.toNat := by
  refine ⟨rfl, rfl, rfl, rfl, ⟨?_, ?_⟩, ?_⟩
  · rintro ⟨n, b⟩ ⟨n', b'⟩ h
    revert h
    cases n <;> cases b <;> cases n' <;> cases b' <;> simp [IntersectionType.get,
      IntersectionType.staticCast]
  · intro t
    cases t
    · exact ⟨(false, false), rfl⟩
    · exact ⟨(true, false), rfl⟩
    · exact ⟨(false, true), rfl⟩
    · exact ⟨(true, true), rfl⟩
  · intro n b
    cases n <;> cases b <;> rfl

/-! ## Properties of the lexicographic ordering -/

namespace LexicographicOrderingImp

theorem getD_set_eq (a : List Nat) (i j v : Nat) :
    (a.set i v).getD j 0 = if i = j ∧ i < a.length then v else a.getD j 0 := by
  simp only [List.getD_eq_getElem?_getD, List.getElem?_set]
  by_cases h : i = j
  · subst h
    by_cases h2 : i < a.length
    · simp [h2]
    · have : a[i]? = none := by simp; omega
      simp [h2, this]
  · simp [h]

theorem collectSizes_aux (w : Nat) (childSizes offs : List Nat) (n : Nat)
    (hn : n ≤ childSizes.length)
    (hl : offs.length = childSizes.length + 1) :
    let r := (List.range n).foldl
      (fun a childIndex => a.set (childIndex + 1) (childSizes.getD childIndex 0 % 2 ^ w)) offs
    r.length = childSizes.length + 1 ∧
    ∀ j, r.getD j 0
      = if 1 ≤ j ∧ j ≤ n then childSizes.getD (j - 1) 0 % 2 ^ w else offs.getD j 0 := by
  induction n with
  | zero =>
    intro r
    refine ⟨hl, fun j => ?_⟩
    show offs.getD j 0 = _
    rw [if_neg (by omega)]
  | succ n ih =>
    intro r
    have ih2 := ih (by omega)
    simp only [r, List.range_succ, List.foldl_append, List.foldl_cons, List.foldl_nil]
    obtain ⟨h1, h2⟩ := ih2
    refine ⟨by rw [List.length_set]; exact h1, fun j => ?_⟩
    rw [getD_set_eq, h2 j, h1]
    by_cases hj : n + 1 = j
    · subst hj
      rw [if_pos ⟨rfl, by omega⟩, if_pos (by omega)]
      rfl
    · have : ¬ (n + 1 = j ∧ n + 1 < childSizes.length + 1) := by omega
      rw [if_neg this]
      by_cases hj2 : 1 ≤ j ∧ j ≤ n
      · rw [if_pos hj2, if_pos (by omega)]
      · rw [if_neg hj2, if_neg (by omega)]

theorem prefixSum_succ (childSizes : List Nat) (c : Nat) (hc : c < childSizes.length) :
    prefixSum childSizes (c + 1) = prefixSum childSizes c + childSizes.getD c 0 := by
  unfold prefixSum
  rw [List.sum_take_succ _ _ hc]
  simp [List.getD_eq_getElem?_getD, List.getElem?_eq_getElem hc]

theorem convertToOffsets_aux (w : Nat) (childSizes a0 : List Nat) (n : Nat)
    (hn : n + 1 ≤ childSizes.length) (hl : a0.length = childSizes.length + 1)
    (h0 : a0.getD 0 0 = 0)
    (hs : ∀ j, 1 ≤ j → j ≤ childSizes.length →
      a0.getD j 0 = childSizes.getD (j - 1) 0 % 2 ^ w) :
    let r := (List.range' 1 n).foldl
      (fun a child => a.set (child + 1) ((a.getD (child + 1) 0 + a.getD child 0) % 2 ^ w)) a0
    r.length = childSizes.length + 1 ∧
    ∀ j, j ≤ childSizes.length →
      r.getD j 0 = if j ≤ n + 1 then prefixSum childSizes j % 2 ^ w
        else childSizes.getD (j - 1) 0 % 2 ^ w := by
  induction n with
  | zero =>
    intro r
    refine ⟨hl, fun j hj => ?_⟩
    simp only [r, List.range'_zero, List.foldl_nil]
    by_cases hj0 : j = 0
    · subst hj0
      rw [h0, if_pos (by omega)]
      simp [prefixSum]
    · by_cases hj1 : j = 1
      · subst hj1
        rw [hs 1 (by omega) hj, if_pos (by omega)]
        have := prefixSum_succ childSizes 0 (by omega)
        rw [this]
        simp [prefixSum]
      · rw [if_neg (by omega)]; exact hs j (by omega) hj
  | succ n ih =>
    intro r
    obtain ⟨h1, h2⟩ := ih (by omega)
    simp only [r, List.range'_concat, List.foldl_append, List.foldl_cons, List.foldl_nil]
    refine ⟨by rw [List.length_set]; exact h1, fun j hj => ?_⟩
    rw [getD_set_eq, h1, h2 (1 + 1 * n + 1) (by omega), h2 (1 + 1 * n) (by omega)]
    by_cases hj2 : 1 + 1 * n + 1 = j
    · subst hj2
      rw [if_pos (by omega), if_neg (by omega), if_pos (by omega), if_pos (by omega)]
      have := prefixSum_succ childSizes (1 + 1 * n) (by omega)
      rw [this]
      have e : 1 + 1 * n + 1 - 1 = 1 + 1 * n := by omega
      rw [e, ← Nat.add_mod, Nat.add_comm]
    · rw [if_neg (by omega), h2 j hj]
      by_cases hj3 : j ≤ n + 1
      · rw [if_pos hj3, if_pos (by omega)]
      · rw [if_neg hj3, if_neg (by omega)]

theorem update_getD (w : Nat) (o : Base) (childSizes : List Nat)
    (hl : o.childOffsets.length = childSizes.length + 1) (h0 : o.childOffsets.getD 0 0 = 0) :
    (o.update w childSizes).childOffsets.length = childSizes.length + 1 ∧
    ∀ j, j ≤ childSizes.length →
      (o.update w childSizes).childOffsets.getD j 0 = prefixSum childSizes j % 2 ^ w := by
  obtain ⟨c1, c2⟩ := collectSizes_aux w childSizes o.childOffsets childSizes.length le_rfl hl
  by_cases hk : childSizes.length = 0
  · have hnil : childSizes = [] := List.length_eq_zero.mp hk
    subst hnil
    refine ⟨by simpa [Base.update, convertToOffsets, collectSizes] using hl, fun j hj => ?_⟩
    have hj0 : j = 0 := by simpa using hj
    subst hj0
    have : (Base.update w o []).childOffsets = o.childOffsets := by
      simp [Base.update, convertToOffsets, collectSizes]
    rw [this, h0]
    simp [prefixSum]
  · have := convertToOffsets_aux w childSizes (collectSizes w childSizes o.childOffsets)
      (childSizes.length - 1) (by omega) c1
      (by rw [collectSizes]; rw [c2 0]; simpa using h0)
      (fun j hj1 hj2 => by rw [collectSizes]; rw [c2 j, if_pos ⟨hj1, hj2⟩])
    obtain ⟨d1, d2⟩ := this
    refine ⟨d1, fun j hj => ?_⟩
    have := d2 j hj
    rw [if_pos (by omega)] at this
    exact this


theorem prefixSum_mono (childSizes : List Nat) (c d : Nat) (h : c ≤ d)
    (hd : d ≤ childSizes.length) : prefixSum childSizes c ≤ prefixSum childSizes d := by
  induction d with
  | zero =>
    have : c = 0 := by omega
    subst this; exact le_rfl
  | succ d ih =>
    by_cases hc : c = d + 1
    · subst hc; exact le_rfl
    · have := ih (by omega) (by omega)
      rw [prefixSum_succ childSizes d (by omega)]
      omega

theorem prefixSum_length (childSizes : List Nat) :
    prefixSum childSizes childSizes.length = childSizes.sum := by
  simp [prefixSum]

theorem prefixSum_find (childSizes : List Nat) (n g : Nat) (hn : n ≤ childSizes.length)
    (hg : g < prefixSum childSizes n) :
    ∃ c, c < n ∧ prefixSum childSizes c ≤ g ∧ g < prefixSum childSizes c + childSizes.getD c 0 := by
  induction n with
  | zero => simp [prefixSum] at hg
  | succ n ih =>
    by_cases h : g < prefixSum childSizes n
    · obtain ⟨c, hc, h1, h2⟩ := ih (by omega) h
      exact ⟨c, by omega, h1, h2⟩
    · refine ⟨n, by omega, by omega, ?_⟩
      rw [← prefixSum_succ childSizes n (by omega)]
      exact hg

theorem prefixSum_le_sum (childSizes : List Nat) (c : Nat) (hc : c ≤ childSizes.length) :
    prefixSum childSizes c ≤ childSizes.sum := by
  rw [← prefixSum_length childSizes]
  exact prefixSum_mono childSizes c childSizes.length hc le_rfl

theorem afterUpdates_inv (w : Nat) (uninit : List Nat) (k : Nat) (hu : uninit.length = k + 1)
    (updates : List (List Nat)) (hh : ∀ s ∈ updates, s.length = k) :
    (Base.afterUpdates w uninit updates).childOffsets.length = k + 1 ∧
    (Base.afterUpdates w uninit updates).childOffsets.getD 0 0 = 0 := by
  induction updates using List.reverseRecOn with
  | nil =>
    refine ⟨by simp [Base.afterUpdates, hu], ?_⟩
    show (uninit.set 0 0).getD 0 0 = 0
    rw [getD_set_eq]; simp [hu]
  | append_singleton us s ih =>
    obtain ⟨i1, i2⟩ := ih (fun t ht => hh t (by simp [ht]))
    have hs : s.length = k := hh s (by simp)
    have : Base.afterUpdates w uninit (us ++ [s])
        = (Base.afterUpdates w uninit us).update w s := by
      simp [Base.afterUpdates]
    rw [this]
    obtain ⟨u1, u2⟩ := update_getD w (Base.afterUpdates w uninit us) s (by rw [i1, hs]) i2
    refine ⟨by rw [u1, hs], ?_⟩
    rw [u2 0 (by omega)]
    simp [prefixSum]

theorem afterUpdates_last (w : Nat) (uninit : List Nat) (history : List (List Nat))
    (childSizes : List Nat)
    (hu : uninit.length = childSizes.length + 1)
    (hh : ∀ s ∈ history, s.length = childSizes.length) :
    (Base.afterUpdates w uninit (history ++ [childSizes])).childOffsets.length
        = childSizes.length + 1 ∧
    ∀ j, j ≤ childSizes.length →
      (Base.afterUpdates w uninit (history ++ [childSizes])).childOffsets.getD j 0
        = prefixSum childSizes j % 2 ^ w := by
  obtain ⟨i1, i2⟩ := afterUpdates_inv w uninit childSizes.length hu history hh
  have : Base.afterUpdates w uninit (history ++ [childSizes])
      = (Base.afterUpdates w uninit history).update w childSizes := by
    simp [Base.afterUpdates]
  rw [this]
  exact update_getD w _ childSizes i1 i2

/-- C4, as amended.  After `update()` (the one run by the constructor on an array with
arbitrary content, or any later one) on a power/composite lexicographic ordering with `k`
children of sizes `s_0..s_{k-1}`, the array `childOffsets` holds the prefix sums of the child
sizes reduced modulo `2^w`, `w` being the width of `SizeType`.  If the total
`s_0 + ... + s_{k-1}` is representable in `SizeType` (it is below `2^w`), the array is
exactly the list of the prefix sums: `childOffsets[0] = 0`,
`subMap(c,0) = s_0 + ... + s_{c-1}` for every `c < k`, the offsets are non-decreasing, and
`size() = s_0 + ... + s_{k-1}`. -/
theorem update_offsets_are_prefix_sums (w : Nat) (uninit : List Nat)
    (history : List (List Nat)) (childSizes : List Nat)
    (hu : uninit.length = childSizes.length + 1)
    (hh : ∀ s ∈ history, s.length = childSizes.length) :
    (Base.afterUpdates w uninit (history ++ [childSizes])).childOffsets
        = (List.range (childSizes.length + 1)).map
            (fun c => (childSizes.take c).sum % 2 ^ w) ∧
    (childSizes.sum < 2 ^ w →
      (Base.afterUpdates w uninit (history ++ [childSizes])).childOffsets
          = (List.range (childSizes.length + 1)).map (fun c => (childSizes.take c).sum) ∧
      (Base.afterUpdates w uninit (history ++ [childSizes])).childOffsets.getD 0 0 = 0 ∧
      (∀ c, c < childSizes.length →
        (Base.afterUpdates w uninit (history ++ [childSizes])).subMap w c 0
          = (childSizes.take c).sum) ∧
      (∀ c d, c ≤ d → d ≤ childSizes.length →
        (Base.afterUpdates w uninit (history ++ [childSizes])).childOffsets.getD c 0
          ≤ (Base.afterUpdates w uninit (history ++ [childSizes])).childOffsets.getD d 0) ∧
      (Base.afterUpdates w uninit (history ++ [childSizes])).size childSizes.length
          = childSizes.sum) := by
  obtain ⟨h1, h2⟩ := afterUpdates_last w uninit history childSizes hu hh
  have hgen : (Base.afterUpdates w uninit (history ++ [childSizes])).childOffsets
      = (List.range (childSizes.length + 1)).map
          (fun c => (childSizes.take c).sum % 2 ^ w) := by
    apply List.ext_getElem
    · simp [h1]
    · intro i hi1 hi2
      have hi : i ≤ childSizes.length := by rw [h1] at hi1; omega
      have := h2 i hi
      rw [List.getD_eq_getElem?_getD, List.getElem?_eq_getElem hi1] at this
      simpa [prefixSum] using this
  refine ⟨hgen, fun hsum => ?_⟩
  have h3 : ∀ j, j ≤ childSizes.length →
      (Base.afterUpdates w uninit (history ++ [childSizes])).childOffsets.getD j 0
        = prefixSum childSizes j := by
    intro j hj
    rw [h2 j hj]
    exact Nat.mod_eq_of_lt (lt_of_le_of_lt (prefixSum_le_sum childSizes j hj) hsum)
  refine ⟨?_, ?_, ?_, ?_, ?_⟩
  · rw [hgen]
    apply List.map_congr_left
    intro c hc
    have hc2 : c ≤ childSizes.length := by
      have := List.mem_range.mp hc
      omega
    exact Nat.mod_eq_of_lt (lt_of_le_of_lt (prefixSum_le_sum childSizes c hc2) hsum)
  · rw [h3 0 (by omega)]; simp [prefixSum]
  · intro c hc
    show (_ + 0) % 2 ^ w = _
    rw [h3 c (by omega), Nat.add_zero]
    exact Nat.mod_eq_of_lt (lt_of_le_of_lt (prefixSum_le_sum childSizes c (by omega)) hsum)
  · intro c d hcd hd
    rw [h3 c (by omega), h3 d hd]
    exact prefixSum_mono childSizes c d hcd hd
  · show List.getD _ _ 0 = _
    rw [h3 _ le_rfl, prefixSum_length]

/-- Witness of C4 as amended: three children of sizes 3, 0 and 4 with a 32-bit `SizeType`,
the constructor run on an array with arbitrary content, followed by a second `update()`. -/
theorem update_offsets_are_prefix_sums_witness :
    [3, 0, 4].sum < 2 ^ 32 ∧
    (Base.afterUpdates 32 [7, 7, 7, 7] ([[1, 1, 1]] ++ [[3, 0, 4]])).childOffsets
      = [0, 3, 3, 7] ∧
    (Base.afterUpdates 32 [7, 7, 7, 7] ([[1, 1, 1]] ++ [[3, 0, 4]])).size 3 = 7 := by
  have h := (update_offsets_are_prefix_sums 32 [7, 7, 7, 7] [[1, 1, 1]] [3, 0, 4]
    (by decide) (by decide)).2 (by decide)
  exact ⟨by decide, h.1.trans (by decide), h.2.2.2.2.trans (by decide)⟩

/-- C4 fails as stated: with a 32-bit `SizeType` and two children of sizes 4000000000 and
500000000 (both representable), the sum `childOffsets[2] += childOffsets[1]` wraps: the
offsets are `0, 4000000000, 205032704`, they decrease from index 1 to index 2, and `size()`
is `205032704`, not the sum `4500000000` of the child sizes. -/
theorem update_offsets_wrap_counterexample :
    4000000000 < 2 ^ 32 ∧ 500000000 < 2 ^ 32 ∧
    (Base.afterUpdates 32 [0, 0, 0] [[4000000000, 500000000]]).childOffsets
      = [0, 4000000000, 205032704] ∧
    (Base.afterUpdates 32 [0, 0, 0] [[4000000000, 500000000]]).size 2
      ≠ [4000000000, 500000000].sum ∧
    ¬ ((Base.afterUpdates 32 [0, 0, 0] [[4000000000, 500000000]]).childOffsets.getD 1 0
        ≤ (Base.afterUpdates 32 [0, 0, 0] [[4000000000, 500000000]]).childOffsets.getD 2 0) := by
  decide

/-- C5, as amended.  `subMap(c,i)` is `childOffsets[c] + i` reduced modulo `2^w`, `w` being
the width of `SizeType`.  If the total of the child sizes is representable in `SizeType`,
then after `update()`, on the valid pairs (`c < CHILDREN`, `i <` size of child `c`),
`subMap(c,i) = childOffsets[c] + i`, the map `(c,i) -> subMap(c,i)` is a bijection onto
`[0, size())`, child `c` occupies exactly `[offset(c), offset(c) + size_c)`, and two
different valid pairs never get the same global index. -/
theorem subMap_blocks_partition (w : Nat) (uninit : List Nat) (history : List (List Nat))
    (childSizes : List Nat)
    (hu : uninit.length = childSizes.length + 1)
    (hh : ∀ s ∈ history, s.length = childSizes.length)
    (hsum : childSizes.sum < 2 ^ w) :
    (∀ c i, (Base.afterUpdates w uninit (history ++ [childSizes])).subMap w c i
        = ((Base.afterUpdates w uninit (history ++ [childSizes])).childOffsets.getD c 0 + i)
            % 2 ^ w) ∧
    (∀ c i, c < childSizes.length → i < childSizes.getD c 0 →
      (Base.afterUpdates w uninit (history ++ [childSizes])).subMap w c i
        = (Base.afterUpdates w uninit (history ++ [childSizes])).childOffsets.getD c 0 + i) ∧
    Set.BijOn
      (fun p : Nat × Nat =>
        (Base.afterUpdates w uninit (history ++ [childSizes])).subMap w p.1 p.2)
      {p | p.1 < childSizes.length ∧ p.2 < childSizes.getD p.1 0}
      (Set.Iio ((Base.afterUpdates w uninit (history ++ [childSizes])).size
        childSizes.length)) ∧
    (∀ c, c < childSizes.length → ∀ g,
      (∃ i, i < childSizes.getD c 0 ∧
          (Base.afterUpdates w uninit (history ++ [childSizes])).subMap w c i = g) ↔
        ((Base.afterUpdates w uninit (history ++ [childSizes])).childOffsets.getD c 0 ≤ g ∧
          g < (Base.afterUpdates w uninit (history ++ [childSizes])).childOffsets.getD c 0
                + childSizes.getD c 0)) ∧
    (∀ c i d j, c < childSizes.length → i < childSizes.getD c 0 →
      d < childSizes.length → j < childSizes.getD d 0 →
      (Base.afterUpdates w uninit (history ++ [childSizes])).subMap w c i
        = (Base.afterUpdates w uninit (history ++ [childSizes])).subMap w d j →
      c = d ∧ i = j) := by
  obtain ⟨h1, h2m⟩ := afterUpdates_last w uninit history childSizes hu hh
  have h2 : ∀ j, j ≤ childSizes.length →
      (Base.afterUpdates w uninit (history ++ [childSizes])).childOffsets.getD j 0
        = prefixSum childSizes j := by
    intro j hj
    rw [h2m j hj]
    exact Nat.mod_eq_of_lt (lt_of_le_of_lt (prefixSum_le_sum childSizes j hj) hsum)
  generalize Base.afterUpdates w uninit (history ++ [childSizes]) = o at h1 h2 ⊢
  have hsub : ∀ c i, c < childSizes.length → i < childSizes.getD c 0 →
      o.subMap w c i = prefixSum childSizes c + i := by
    intro c i hc hi
    show (List.getD _ _ 0 + _) % 2 ^ w = _
    rw [h2 c (by omega)]
    apply Nat.mod_eq_of_lt
    have sc := prefixSum_succ childSizes c hc
    have := prefixSum_le_sum childSizes (c + 1) (by omega)
    omega
  have hsize : o.size childSizes.length = prefixSum childSizes childSizes.length := by
    show List.getD _ _ 0 = _
    rw [h2 _ le_rfl]
  have hinj : ∀ c i d j, c < childSizes.length → i < childSizes.getD c 0 →
      d < childSizes.length → j < childSizes.getD d 0 →
      o.subMap w c i = o.subMap w d j → c = d ∧ i = j := by
    intro c i d j hc hi hd hj he
    rw [hsub c i hc hi, hsub d j hd hj] at he
    have sc := prefixSum_succ childSizes c hc
    have sd := prefixSum_succ childSizes d hd
    rcases Nat.lt_trichotomy c d with hlt | heq | hgt
    · have := prefixSum_mono childSizes (c + 1) d (by omega) (by omega)
      omega
    · subst heq; exact ⟨rfl, by omega⟩
    · have := prefixSum_mono childSizes (d + 1) c (by omega) (by omega)
      omega
  refine ⟨fun c i => rfl, ?_, ⟨?_, ?_, ?_⟩, ?_, hinj⟩
  · intro c i hc hi
    rw [hsub c i hc hi, h2 c (by omega)]
  · rintro ⟨c, i⟩ ⟨hc, hi⟩
    simp only [Set.mem_Iio, hsize] at hc hi ⊢
    rw [hsub c i hc hi]
    have sc := prefixSum_succ childSizes c hc
    have := prefixSum_mono childSizes (c + 1) childSizes.length (by omega) le_rfl
    omega
  · rintro ⟨c, i⟩ ⟨hc, hi⟩ ⟨d, j⟩ ⟨hd, hj⟩ he
    obtain ⟨e1, e2⟩ := hinj c i d j hc hi hd hj he
    subst e1; subst e2; rfl
  · intro g hg
    simp only [Set.mem_Iio, hsize] at hg
    obtain ⟨c, hc, l1, l2⟩ := prefixSum_find childSizes childSizes.length g le_rfl hg
    refine ⟨(c, g - prefixSum childSizes c), ⟨hc, ?_⟩, ?_⟩
    · show g - prefixSum childSizes c < childSizes.getD c 0
      omega
    · show o.subMap w c (g - prefixSum childSizes c) = g
      rw [hsub c _ hc (by omega)]; omega
  · intro c hc g
    rw [h2 c (by omega)]
    constructor
    · rintro ⟨i, hi, rfl⟩
      rw [hsub c i hc hi]; omega
    · rintro ⟨l1, l2⟩
      exact ⟨g - prefixSum childSizes c, by omega, by rw [hsub c _ hc (by omega)]; omega⟩

/-- Witness of C5 as amended: children of sizes 3, 0 and 4 with a 32-bit `SizeType`. -/
theorem subMap_blocks_partition_witness :
    [3, 0, 4].sum < 2 ^ 32 ∧
    (Base.afterUpdates 32 [7, 7, 7, 7] ([] ++ [[3, 0, 4]])).subMap 32 2 1 = 4 ∧
    ∀ c i d j, c < 3 → i < [3, 0, 4].getD c 0 → d < 3 → j < [3, 0, 4].getD d 0 →
      (Base.afterUpdates 32 [7, 7, 7, 7] ([] ++ [[3, 0, 4]])).subMap 32 c i
        = (Base.afterUpdates 32 [7, 7, 7, 7] ([] ++ [[3, 0, 4]])).subMap 32 d j →
      c = d ∧ i = j :=
  ⟨by decide, by decide,
   (subMap_blocks_partition 32 [7, 7, 7, 7] [] [3, 0, 4] (by decide) (by simp)
     (by decide)).2.2.2.2⟩

/-- C5 fails as stated: with a 32-bit `SizeType` and two children of sizes 4000000000 and
500000000, the valid pairs `(0,0)` and `(1,294967296)` are different, yet
`subMap(1,294967296) = 4000000000 + 294967296` wraps to `0 = subMap(0,0)`; the blocks are
not disjoint. -/
theorem subMap_wrap_counterexample :
    (0 : Nat) < [4000000000, 500000000].getD 0 0 ∧
    294967296 < [4000000000, 500000000].getD 1 0 ∧
    (Base.afterUpdates 32 [0, 0, 0] [[4000000000, 500000000]]).subMap 32 0 0 = 0 ∧
    (Base.afterUpdates 32 [0, 0, 0] [[4000000000, 500000000]]).subMap 32 1 294967296 = 0 ∧
    ¬ (∀ c i d j, c < 2 → i < [4000000000, 500000000].getD c 0 →
        d < 2 → j < [4000000000, 500000000].getD d 0 →
        (Base.afterUpdates 32 [0, 0, 0] [[4000000000, 500000000]]).subMap 32 c i
          = (Base.afterUpdates 32 [0, 0, 0] [[4000000000, 500000000]]).subMap 32 d j →
        c = d ∧ i = j) := by
  have h0 : (Base.afterUpdates 32 [0, 0, 0] [[4000000000, 500000000]]).subMap 32 0 0 = 0 := by
    decide
  have h1 : (Base.afterUpdates 32 [0, 0, 0] [[4000000000, 500000000]]).subMap 32 1 294967296
      = 0 := by
    decide
  refine ⟨by decide, by decide, h0, h1, fun h => ?_⟩
  have := h 0 0 1 294967296 (by decide) (by decide) (by decide) (by decide) (h0.trans h1.symm)
  exact absurd this.1 (by decide)

end LexicographicOrderingImp

/-! ## Properties of `etadd` and `add_entry` -/

namespace LocalAssemblerBase

theorem foldl_accessorApply {T : Type} [CommRing T] (lfsv lfsu : List Nat) (calls : List (AccessorCall T))
    (J : Nat → Nat → T) (r c : Nat) :
    (calls.foldl (accessorApply lfsv lfsu) J) r c
      = J r c + (calls.map (contribution lfsv lfsu r c)).sum := by
  induction calls generalizing J with
  | nil => simp
  | cons call rest ih =>
    rw [List.foldl_cons, ih, List.map_cons, List.sum_cons, ← add_assoc]
    congr 1
    unfold accessorApply contribution
    split <;> simp

theorem sum_map_flatMap {T : Type} [CommRing T] {α β : Type} (l : List α) (f : α → List β) (g : β → T) :
    ((l.flatMap f).map g).sum = (l.map fun x => ((f x).map g).sum).sum := by
  induction l with
  | nil => simp
  | cons a l ih => simp [List.flatMap_cons, ih]

variable {T : Type} [CommRing T] [DecidableEq T]

theorem contribution_emit (lfsv lfsu : List Nat) (r c : Nat) (foreign_dofs : Bool)
    (i j gi gj : Nat) (t : T)
    (h : foreign_dofs = false → gi = lfsv.getD i 0 ∧ gj = lfsu.getD j 0) :
    ((etaddEmit foreign_dofs i j gi gj t).map (contribution lfsv lfsu r c)).sum
      = if gi = r ∧ gj = c then t else 0 := by
  unfold etaddEmit
  by_cases ht : t = 0
  · simp [ht]
  · rw [if_pos ht]
    cases foreign_dofs with
    | true => simp [contribution, accessorTarget, accessorValue]
    | false =>
      obtain ⟨h1, h2⟩ := h rfl
      simp [contribution, accessorTarget, accessorValue, h1, h2]

theorem contribution_columnLoop (lfsv lfsu : List Nat) (r c : Nat) (m vf : T) (i j gi : Nat)
    (urow : List (Nat × T)) :
    ((etaddColumnLoop m vf i j gi urow).map (contribution lfsv lfsu r c)).sum
      = (urow.map fun cw => if gi = r ∧ cw.1 = c then m * vf * cw.2 else 0).sum := by
  induction urow with
  | nil => simp [etaddColumnLoop]
  | cons e rest ih =>
    obtain ⟨gj, uf⟩ := e
    simp only [etaddColumnLoop, List.map_append, List.sum_append, List.map_cons, List.sum_cons]
    rw [ih, contribution_emit lfsv lfsu r c true i j gi gj _ (by simp)]
    congr 1
    split <;> [ring; rfl]

theorem contribution_rowBody (lfsv lfsu : List Nat) (r c : Nat) (cu : ConstraintsContainer T)
    (m vf : T) (i j gi gj : Nat) (foreign_dofs : Bool)
    (h : foreign_dofs = false → gi = lfsv.getD i 0 ∧ gj = lfsu.getD j 0)
    (hu : cu.find gj ≠ some []) :
    ((etaddRowBody m i j gi gj vf foreign_dofs (cu.find gj)).map
        (contribution lfsv lfsu r c)).sum
      = ((expansion cu gj).map fun cw => if gi = r ∧ cw.1 = c then m * vf * cw.2 else 0).sum := by
  unfold etaddRowBody expansion
  cases hf : cu.find gj with
  | none =>
    simp only [List.map_cons, List.map_nil, List.sum_cons, List.sum_nil, add_zero]
    rw [contribution_emit lfsv lfsu r c foreign_dofs i j gi gj _ h]
    split <;> [ring; rfl]
  | some urow =>
    have hne : urow ≠ [] := fun e => hu (by rw [hf, e])
    have : urow.isEmpty = false := by
      cases urow with
      | nil => exact absurd rfl hne
      | cons _ _ => rfl
    simp only [this, Bool.false_eq_true, if_false, List.nil_append]
    exact contribution_columnLoop lfsv lfsu r c m vf i j gi urow

theorem contribution_rowLoop (lfsv lfsu : List Nat) (r c : Nat) (cu : ConstraintsContainer T)
    (m : T) (i j gj : Nat) (hu : cu.find gj ≠ some []) (vrow : List (Nat × T)) :
    ((etaddRowLoop m i j gj (cu.find gj) vrow).map (contribution lfsv lfsu r c)).sum
      = (vrow.map fun rw => ((expansion cu gj).map fun cw =>
          if rw.1 = r ∧ cw.1 = c then m * rw.2 * cw.2 else 0).sum).sum := by
  induction vrow with
  | nil => simp [etaddRowLoop]
  | cons e rest ih =>
    obtain ⟨gi, vf⟩ := e
    simp only [etaddRowLoop, List.map_append, List.sum_append, List.map_cons, List.sum_cons]
    rw [ih, contribution_rowBody lfsv lfsu r c cu m vf i j gi gj true (by simp) hu]

theorem contribution_entry (cv cu : ConstraintsContainer T) (lfsv lfsu : List Nat) (r c : Nat)
    (m : T) (i j gi gj : Nat) (hgi : gi = lfsv.getD i 0) (hgj : gj = lfsu.getD j 0)
    (hu : cu.find gj ≠ some []) :
    ((etaddEntry cv cu i j gi gj m).map (contribution lfsv lfsu r c)).sum
      = ((expansion cv gi).map fun rw =>
          ((expansion cu gj).map fun cw =>
            if rw.1 = r ∧ cw.1 = c then m * rw.2 * cw.2 else 0).sum).sum := by
  unfold etaddEntry
  cases hf : cv.find gi with
  | none =>
    rw [contribution_rowBody lfsv lfsu r c cu m 1 i j _ _ false (fun _ => ⟨hgi, hgj⟩) hu]
    simp [expansion, hf]
  | some vrow =>
    rw [contribution_rowLoop lfsv lfsu r c cu m i j _ hu vrow]
    simp [expansion, hf]

/-- C1. `etadd` realises `J := J + S_V * m * S_U^T`: for every local matrix `m` and
constraints containers `CV`, `CU` in which no local column's global index is a pure Dirichlet
(empty-map) constraint of `CU` (for the rows nothing has to be assumed: a pure Dirichlet row
expands to nothing, and `etadd` adds nothing for it), the net amount `etadd` adds at every
global position `(r,c)` is the sum over the local entries `(i,j)`, the row expansions
`(r,w_v)` of `globalIndex_V(i)` and the column expansions `(c,w_u)` of `globalIndex_U(j)` of
`m(i,j) * w_v * w_u`. -/
theorem etadd_realises_transformation (cv cu : ConstraintsContainer T) (lfsv lfsu : List Nat)
    (m : Nat → Nat → T) (J : Nat → Nat → T)
    (hu : ∀ g ∈ lfsu, cu.find g ≠ some []) (r c : Nat) :
    etadd cv cu lfsv lfsu m J r c = J r c + transformedEntry cv cu lfsv lfsu m r c := by
  unfold etadd etaddCalls transformedEntry
  rw [foldl_accessorApply, sum_map_flatMap]
  congr 2
  apply List.map_congr_left
  intro i _
  rw [sum_map_flatMap]
  congr 1
  apply List.map_congr_left
  intro j hj
  have hj2 : j < lfsu.length := List.mem_range.mp hj
  apply contribution_entry _ _ _ _ _ _ _ _ _ _ _ rfl rfl
  apply hu
  ·
    rw [List.getD_eq_getElem?_getD, List.getElem?_eq_getElem hj2]
    exact List.getElem_mem _

theorem target_emit (lfsv lfsu : List Nat) (foreign_dofs : Bool) (i j gi gj : Nat) (t : T)
    (h : foreign_dofs = false → gi = lfsv.getD i 0 ∧ gj = lfsu.getD j 0)
    (call : AccessorCall T) (hc : call ∈ etaddEmit foreign_dofs i j gi gj t) :
    accessorTarget lfsv lfsu call = (gi, gj) := by
  unfold etaddEmit at hc
  by_cases ht : t = 0
  · simp [ht] at hc
  · rw [if_pos ht, List.mem_singleton] at hc
    subst hc
    cases foreign_dofs with
    | true => rfl
    | false =>
      obtain ⟨h1, h2⟩ := h rfl
      simp [accessorTarget, h1, h2]

theorem target_columnLoop (lfsv lfsu : List Nat) (m vf : T) (i j gi : Nat)
    (urow : List (Nat × T)) (call : AccessorCall T)
    (hc : call ∈ etaddColumnLoop m vf i j gi urow) :
    accessorTarget lfsv lfsu call ∈ add_entryColumnLoop gi urow := by
  induction urow with
  | nil => simp [etaddColumnLoop] at hc
  | cons e rest ih =>
    obtain ⟨gj, uf⟩ := e
    simp only [etaddColumnLoop, List.mem_append] at hc
    simp only [add_entryColumnLoop, List.mem_cons]
    rcases hc with hc | hc
    · exact Or.inl (target_emit lfsv lfsu true i j gi gj _ (by simp) call hc)
    · exact Or.inr (ih hc)

theorem target_rowBody (lfsv lfsu : List Nat) (m vf : T) (i j gi gj : Nat)
    (foreign_dofs : Bool)
    (h : foreign_dofs = false → gi = lfsv.getD i 0 ∧ gj = lfsu.getD j 0)
    (gucit : Option (List (Nat × T))) (call : AccessorCall T)
    (hc : call ∈ etaddRowBody m i j gi gj vf foreign_dofs gucit) :
    accessorTarget lfsv lfsu call ∈ add_entryRowBody gi gj gucit := by
  unfold etaddRowBody at hc
  unfold add_entryRowBody
  cases gucit with
  | none =>
    simp only at hc ⊢
    rw [target_emit lfsv lfsu foreign_dofs i j gi gj _ h call hc]
    exact List.mem_singleton.mpr rfl
  | some urow =>
    simp only [List.mem_append] at hc ⊢
    rcases hc with hc | hc
    · left
      by_cases hemp : urow.isEmpty = true
      · rw [if_pos hemp] at hc ⊢
        rw [target_emit lfsv lfsu foreign_dofs i j gi gj _ h call hc]
        exact List.mem_singleton.mpr rfl
      · rw [if_neg hemp] at hc
        simp at hc
    · exact Or.inr (target_columnLoop lfsv lfsu m vf i j gi urow call hc)

theorem target_rowLoop (lfsv lfsu : List Nat) (m : T) (i j gj : Nat)
    (gucit : Option (List (Nat × T))) (vrow : List (Nat × T)) (call : AccessorCall T)
    (hc : call ∈ etaddRowLoop m i j gj gucit vrow) :
    accessorTarget lfsv lfsu call ∈ add_entryRowLoop gj gucit vrow := by
  induction vrow with
  | nil => simp [etaddRowLoop] at hc
  | cons e rest ih =>
    obtain ⟨gi, vf⟩ := e
    simp only [etaddRowLoop, List.mem_append] at hc
    simp only [add_entryRowLoop, List.mem_append]
    rcases hc with hc | hc
    · exact Or.inl (target_rowBody lfsv lfsu m vf i j gi gj true (by simp) gucit call hc)
    · exact Or.inr (ih hc)

theorem target_entry (cv cu : ConstraintsContainer T) (lfsv lfsu : List Nat) (m : T)
    (i j gi gj : Nat) (hgi : gi = lfsv.getD i 0) (hgj : gj = lfsu.getD j 0)
    (call : AccessorCall T) (hc : call ∈ etaddEntry cv cu i j gi gj m) :
    accessorTarget lfsv lfsu call ∈ add_entry cv cu gi gj := by
  unfold etaddEntry at hc
  unfold add_entry
  apply List.mem_append_right
  cases hf : cv.find gi with
  | none =>
    rw [hf] at hc
    exact target_rowBody lfsv lfsu m 1 i j gi gj false (fun _ => ⟨hgi, hgj⟩) _ call hc
  | some vrow =>
    rw [hf] at hc
    exact List.mem_append_right _ (target_rowLoop lfsv lfsu m i j gj _ vrow call hc)

/-- C3. Pattern/value agreement: for all constraints containers `CV`, `CU` and every local
matrix, every accessor call of `etadd` belongs to a local entry `(i,j)`, and the global
position it addresses is among the index pairs that
`add_entry(pattern, globalIndex_V(i), globalIndex_U(j))` passes to `add_link`. -/
theorem add_entry_covers_etadd (cv cu : ConstraintsContainer T) (lfsv lfsu : List Nat)
    (m : Nat → Nat → T) (call : AccessorCall T)
    (hc : call ∈ etaddCalls cv cu lfsv lfsu m) :
    ∃ i j, i < lfsv.length ∧ j < lfsu.length ∧
      call ∈ etaddEntry cv cu i j (lfsv.getD i 0) (lfsu.getD j 0) (m i j) ∧
      accessorTarget lfsv lfsu call ∈ add_entry cv cu (lfsv.getD i 0) (lfsu.getD j 0) := by
  unfold etaddCalls at hc
  rw [List.mem_flatMap] at hc
  obtain ⟨i, hi, hc⟩ := hc
  rw [List.mem_flatMap] at hc
  obtain ⟨j, hj, hc⟩ := hc
  exact ⟨i, j, List.mem_range.mp hi, List.mem_range.mp hj, hc,
    target_entry cv cu lfsv lfsu (m i j) i j _ _ rfl rfl call hc⟩

/-- Witness of C3, on the pure Dirichlet scenario: the call `add(1,0,1)` of `etadd`
addresses `(1,0)`, which `add_entry` links. -/
theorem add_entry_covers_etadd_witness :
    AccessorCall.add 1 0 1 ∈ etaddCalls [(0, [])] [(0, [])] [0, 1] [0, 1] scenarioMatrix ∧
    ∃ i j, i < [0, 1].length ∧ j < [0, 1].length ∧
      AccessorCall.add 1 0 1 ∈ etaddEntry [(0, [])] [(0, [])] i j
        ([0, 1].getD i 0) ([0, 1].getD j 0) (scenarioMatrix i j) ∧
      accessorTarget [0, 1] [0, 1] (AccessorCall.add 1 0 (1 : Int))
        ∈ add_entry ([(0, [])] : ConstraintsContainer Int) [(0, [])]
            ([0, 1].getD i 0) ([0, 1].getD j 0) :=
  ⟨by decide,
   add_entry_covers_etadd [(0, [])] [(0, [])] [0, 1] [0, 1] scenarioMatrix
     (AccessorCall.add 1 0 1) (by decide)⟩

/-- C2, as amended.  For a local entry `(i,j)` whose global row `gi` is a pure Dirichlet
constraint of `CV`, `etadd` makes no accessor call at all, whatever the column and the value;
for a local entry with nonzero value `v` whose row `gi` is unconstrained and whose column
`gj` is a pure Dirichlet constraint of `CU`, `etadd` makes exactly one call, which adds `v`
unscaled at `(gi,gj)` through the local accessor. -/
theorem etadd_dirichlet_row_adds_nothing (cv cu : ConstraintsContainer T) (i j gi gj : Nat)
    (v : T) :
    (cv.find gi = some [] → etaddEntry cv cu i j gi gj v = []) ∧
    (cv.find gi = none → cu.find gj = some [] → v ≠ 0 →
      etaddEntry cv cu i j gi gj v = [AccessorCall.add i j v]) := by
  constructor
  · intro h
    simp [etaddEntry, h, etaddRowLoop]
  · intro h1 h2 hv
    simp [etaddEntry, h1, h2, etaddRowBody, etaddColumnLoop, etaddEmit, hv]

/-- Witness of C2 as amended, on the pure Dirichlet scenario: the entry `(0,1)` of the first
local row makes no call, the entry `(1,0)` is added unscaled. -/
theorem etadd_dirichlet_row_adds_nothing_witness :
    etaddEntry [(0, [])] [(0, [])] 0 1 0 1 (scenarioMatrix 0 1) = [] ∧
    etaddEntry [(0, [])] [(0, [])] 1 0 1 0 (scenarioMatrix 1 0) = [AccessorCall.add 1 0 1] :=
  ⟨(etadd_dirichlet_row_adds_nothing [(0, [])] [(0, [])] 0 1 0 1 (scenarioMatrix 0 1)).1
      (by decide),
   (etadd_dirichlet_row_adds_nothing [(0, [])] [(0, [])] 1 0 1 0 (scenarioMatrix 1 0)).2
      (by decide) (by decide) (by decide)⟩


/-- C2 fails as stated: with `CV = CU = {0: {}}` and the local matrix `[[2,1],[1,3]]` on the
global indices `[0,1]`, row `0` is a pure Dirichlet constraint, column `1` is unconstrained
and the entry `(0,1)` is `1`, but `etadd` only calls `add(1,0,1)` and `add(1,1,3)`: the
position `(0,1)` receives nothing, while `(1,0)` receives `1`. -/
theorem etadd_dirichlet_row_counterexample :
    ConstraintsContainer.find ([(0, [])] : ConstraintsContainer Int) 0 = some [] ∧
    ConstraintsContainer.find ([(0, [])] : ConstraintsContainer Int) 1 = none ∧
    scenarioMatrix 0 1 ≠ 0 ∧
    etaddCalls [(0, [])] [(0, [])] [0, 1] [0, 1] scenarioMatrix
      = [AccessorCall.add 1 0 1, AccessorCall.add 1 1 3] ∧
    etadd [(0, [])] [(0, [])] [0, 1] [0, 1] scenarioMatrix (fun _ _ => 0) 0 1 = 0 ∧
    etadd [(0, [])] [(0, [])] [0, 1] [0, 1] scenarioMatrix (fun _ _ => 0) 1 0 = 1 := by
  decide

/-- Witness of C1, the hanging-node scenario: `CV = {5: {2: 1/2, 3: 1/2}}`, the value `4`
at the local row with global index `5` and the unconstrained column `7` adds `2` at `(2,7)`,
`2` at `(3,7)` and nothing at `(5,7)`. -/
theorem etadd_realises_transformation_witness :
    (∀ g ∈ [7], ConstraintsContainer.find ([] : ConstraintsContainer ℚ) g ≠ some []) ∧
    etadd [(5, [(2, (1 / 2 : ℚ)), (3, 1 / 2)])] [] [5] [7] (fun _ _ => 4) (fun _ _ => 0) 2 7 = 2 ∧
    etadd [(5, [(2, (1 / 2 : ℚ)), (3, 1 / 2)])] [] [5] [7] (fun _ _ => 4) (fun _ _ => 0) 3 7 = 2 ∧
    etadd [(5, [(2, (1 / 2 : ℚ)), (3, 1 / 2)])] [] [5] [7] (fun _ _ => 4) (fun _ _ => 0) 5 7 = 0 := by
  have hu : ∀ g ∈ [7], ConstraintsContainer.find ([] : ConstraintsContainer ℚ) g ≠ some [] := by
    intro g _; simp [ConstraintsContainer.find]
  have r1 : List.range 1 = [0] := rfl
  refine ⟨hu, ?_, ?_, ?_⟩
  · rw [etadd_realises_transformation _ _ _ _ _ _ hu]
    simp [transformedEntry, expansion, ConstraintsContainer.find, List.lookup, r1]
    norm_num
  · rw [etadd_realises_transformation _ _ _ _ _ _ hu]
    simp [transformedEntry, expansion, ConstraintsContainer.find, List.lookup, r1]
    norm_num
  · rw [etadd_realises_transformation _ _ _ _ _ _ hu]
    simp [transformedEntry, expansion, ConstraintsContainer.find, List.lookup, r1]

end LocalAssemblerBase

/-! ## Properties of the constraints assembly -/

theorem GtOffsetLe.trans {a b c : GtOffset} (h1 : GtOffsetLe a b) (h2 : GtOffsetLe b c) :
    GtOffsetLe a c := fun gt v h => h2 gt v (h1 gt v h)

mutual
theorem applyToTree_eq (leaf : LeafSpace → List ConstraintsEvent) :
    ∀ lfs, applyToTree leaf lfs = (leafDescendants lfs).flatMap leaf
  | LocalFunctionSpace.leaf l => by simp [applyToTree, leafDescendants]
  | LocalFunctionSpace.node children => by
    simp [applyToTree, leafDescendants, applyToChildren_eq leaf children]
theorem applyToChildren_eq (leaf : LeafSpace → List ConstraintsEvent) :
    ∀ children,
      applyToChildren leaf children = (leafDescendantsOfChildren children).flatMap leaf
  | [] => by simp [applyToChildren, leafDescendantsOfChildren]
  | child :: rest => by
    simp [applyToChildren, leafDescendantsOfChildren, applyToTree_eq leaf child,
      applyToChildren_eq leaf rest]
end

theorem mem_boundaryLeaf_of_mem_leaf (ig : IntersectionGeometry) (f : Nat)
    (lfs : LocalFunctionSpace) (ev : ConstraintsEvent)
    (h : ev ∈ BoundaryConstraints.leaf ig f lfs) :
    ∃ l, l ∈ leafDescendants lfs ∧ ev ∈ BoundaryConstraintsForParametersLeaf.leaf f ig l := by
  cases lfs with
  | leaf l => exact ⟨l, by simp [leafDescendants], h⟩
  | node children =>
    simp only [BoundaryConstraints.leaf, applyToTree_eq, List.mem_flatMap] at h
    exact h

mutual
theorem mem_applyToTreePairBoundary (ig : IntersectionGeometry) (ev : ConstraintsEvent) :
    ∀ (p : ConstraintsParameters) (lfs : LocalFunctionSpace),
      ev ∈ applyToTreePairBoundary ig p lfs →
      ∃ f l, ev ∈ BoundaryConstraintsForParametersLeaf.leaf f ig l
  | ConstraintsParameters.leaf f, lfs => fun h => by
    rw [applyToTreePairBoundary] at h
    obtain ⟨l, _, hl⟩ := mem_boundaryLeaf_of_mem_leaf ig f lfs ev h
    exact ⟨f, l, hl⟩
  | ConstraintsParameters.node _, LocalFunctionSpace.leaf _ => fun h => by
    simp [applyToTreePairBoundary] at h
  | ConstraintsParameters.node ps, LocalFunctionSpace.node children => fun h => by
    rw [applyToTreePairBoundary] at h
    exact mem_applyToChildrenPairBoundary ig ev ps children h
theorem mem_applyToChildrenPairBoundary (ig : IntersectionGeometry) (ev : ConstraintsEvent) :
    ∀ (ps : List ConstraintsParameters) (children : List LocalFunctionSpace),
      ev ∈ applyToChildrenPairBoundary ig ps children →
      ∃ f l, ev ∈ BoundaryConstraintsForParametersLeaf.leaf f ig l
  | [], _ => fun h => by simp [applyToChildrenPairBoundary] at h
  | _ :: _, [] => fun h => by simp [applyToChildrenPairBoundary] at h
  | p :: ps, child :: rest => fun h => by
    rw [applyToChildrenPairBoundary, List.mem_append] at h
    rcases h with h | h
    · exact mem_applyToTreePairBoundary ig ev p child h
    · exact mem_applyToChildrenPairBoundary ig ev ps rest h
end

theorem filter_flatMap_eq {α β : Type} (l : List α) (f : α → List β) (P : β → Bool) :
    (l.flatMap f).filter P = l.flatMap (fun x => (f x).filter P) := by
  induction l with
  | nil => rfl
  | cons a l ih => simp [List.flatMap_cons, ih]

theorem flatMap_ite_singleton {α β : Type} (l : List α) (c : α → Bool) (h : α → β) :
    (l.flatMap fun x => if c x = true then [h x] else []) = (l.filter c).map h := by
  induction l with
  | nil => rfl
  | cons a l ih =>
    rw [List.flatMap_cons, ih]
    cases hc : c a <;> simp [List.filter_cons, hc]

/-- C7 fails on the code: on a grid of two elements of different geometry types that are
neighbours, each with index 0 in its type (two types, indices below `2^28`), the neighbour's
type enters `gtoffset` through `gtoffset[gtn]` with offset 0, so both elements get the id 0,
the neighbour ids are 0 as well, and the skeleton hook is never invoked for the shared
face. -/
theorem assemble_ids_collide_on_mixed_grid :
    (mixedGrid.map Element.entity).Nodup ∧
    (∀ it ∈ mixedGrid, it.entity.index < 2 ^ 28) ∧
    (assemble (ConstraintsParameters.leaf 0) (LocalFunctionSpace.leaf scenarioLeaf)
      mixedGrid).map ElementVisit.id = [0, 0] ∧
    (assemble (ConstraintsParameters.leaf 0) (LocalFunctionSpace.leaf scenarioLeaf)
      mixedGrid).map (fun v => v.intersections.map IntersectionVisit.idn)
      = [[some 0], [some 0]] ∧
    assembleOffsets (ConstraintsParameters.leaf 0) (LocalFunctionSpace.leaf scenarioLeaf)
      mixedGrid = [(0, 0), (1, 0)] ∧
    (assembleEvents (ConstraintsParameters.leaf 0) (LocalFunctionSpace.leaf scenarioLeaf)
      mixedGrid).filter (fun ev => decide (ev.kind = some HookKind.skeleton)) = [] := by
  decide

/-- C10. Reuse rule: when the boundary-condition parameter node is a leaf `f` and the paired
local function space node is a non-leaf subtree, the events of the boundary visitor are, for
every leaf descendant of that subtree from left to right, one invocation of the boundary
hook with that same `f` and the same intersection if the leaf's constraints type has
`doBoundary`, followed by the write of that leaf's local result (the map the hook filled, or
the empty map if there is no hook) into the global container.  So the hook invocations are
exactly one per leaf descendant with `doBoundary`, and the writes exactly one per leaf
descendant. -/
theorem boundary_parameter_reused (ig : IntersectionGeometry) (f : Nat)
    (children : List LocalFunctionSpace) :
    applyToTreePairBoundary ig (ConstraintsParameters.leaf f) (LocalFunctionSpace.node children)
      = (leafDescendants (LocalFunctionSpace.node children)).flatMap (fun l =>
          (if l.constraints.doBoundary then
            [ConstraintsEvent.hook (HookCall.boundary f ig l)] else []) ++
          [ConstraintsEvent.mwrite l ig.inside
            (if l.constraints.doBoundary then
              LocalConstraints.filled (HookCall.boundary f ig l)
             else LocalConstraints.empty)]) ∧
    (applyToTreePairBoundary ig (ConstraintsParameters.leaf f)
        (LocalFunctionSpace.node children)).filter isBoundaryHook
      = ((leafDescendants (LocalFunctionSpace.node children)).filter
          fun l => l.constraints.doBoundary).map
          (fun l => ConstraintsEvent.hook (HookCall.boundary f ig l)) ∧
    (applyToTreePairBoundary ig (ConstraintsParameters.leaf f)
        (LocalFunctionSpace.node children)).filter isMwrite
      = (leafDescendants (LocalFunctionSpace.node children)).map (fun l =>
          ConstraintsEvent.mwrite l ig.inside
            (if l.constraints.doBoundary then
              LocalConstraints.filled (HookCall.boundary f ig l)
             else LocalConstraints.empty)) := by
  have h0 : applyToTreePairBoundary ig (ConstraintsParameters.leaf f)
      (LocalFunctionSpace.node children)
      = (leafDescendants (LocalFunctionSpace.node children)).flatMap
          (BoundaryConstraintsForParametersLeaf.leaf f ig) := by
    rw [applyToTreePairBoundary, BoundaryConstraints.leaf, applyToTree_eq]
  refine ⟨?_, ?_, ?_⟩
  · rw [h0]
    congr 1
    funext l
    unfold BoundaryConstraintsForParametersLeaf.leaf
    cases l.constraints.doBoundary <;> simp
  · rw [h0, filter_flatMap_eq, ← flatMap_ite_singleton]
    congr 1
    funext l
    unfold BoundaryConstraintsForParametersLeaf.leaf
    cases l.constraints.doBoundary <;>
      simp [List.filter_cons, isBoundaryHook, ConstraintsEvent.kind]
  · rw [h0, filter_flatMap_eq]
    generalize leafDescendants (LocalFunctionSpace.node children) = ls
    induction ls with
    | nil => rfl
    | cons l ls ih =>
      rw [List.flatMap_cons, ih, List.map_cons]
      unfold BoundaryConstraintsForParametersLeaf.leaf
      cases l.constraints.doBoundary <;> simp [List.filter_cons, isMwrite]

/-! ## Properties of the vector transformations -/

section TransformProperties

variable {T : Type} [CommRing T]

theorem zeroConstrained_apply (cg : ConstraintsContainer T) (xg : CoefficientVector T)
    (d : Nat) : zeroConstrained cg xg d = if d ∈ cg.keys then 0 else xg d := by
  unfold zeroConstrained ConstraintsContainer.keys
  induction cg generalizing xg with
  | nil => simp
  | cons cit rest ih =>
    rw [List.foldl_cons, ih]
    by_cases h : d ∈ List.map Prod.fst rest
    · simp [h]
    · by_cases hd : d = cit.1
      · subst hd; simp [h]
      · have : ¬ cit.1 = d := fun e => hd e.symm
        simp [h, hd, Function.update_noteq hd]

/-- C11. Residual zeroing: for every constraints container `cg` (also one in which a
contributor is itself a contributed target of another constraint) and every vector `r`,
after `constrain_residual(cg, r)` the entry `r[d]` is `0` for every dof `d` that is a key of
`cg`. -/
theorem constrain_residual_zero_on_keys (cg : ConstraintsContainer T)
    (r : CoefficientVector T) (d : Nat) (hd : d ∈ cg.keys) :
    constrain_residual cg r d = 0 := by
  rw [constrain_residual, zeroConstrained_apply, if_pos hd]

/-- Witness of C11: the container `{1: {2: 1}, 2: {3: 1}}`, in which the contributor `2` is
a contributed target of the constraint on `1`. -/
theorem constrain_residual_zero_on_keys_witness :
    2 ∈ ConstraintsContainer.keys ([(1, [(2, 1)]), (2, [(3, 1)])] : ConstraintsContainer Int) ∧
    constrain_residual [(1, [(2, 1)]), (2, [(3, 1)])] (fun _ => (5 : Int)) 2 = 0 ∧
    constrain_residual [(1, [(2, 1)]), (2, [(3, 1)])] (fun _ => (5 : Int)) 3 = 15 :=
  ⟨by decide,
   constrain_residual_zero_on_keys [(1, [(2, 1)]), (2, [(3, 1)])] (fun _ => (5 : Int)) 2
     (by decide),
   by decide⟩


namespace LocalAssemblerBase

theorem forwardtransformRow_apply (c : Nat) (row : List (Nat × T)) :
    ∀ (x : CoefficientVector T), (∀ it ∈ row, it.1 ≠ c) → ∀ d,
      forwardtransformRow c x row d
        = x d + (row.map fun it => if it.1 = d then it.2 * x c else 0).sum := by
  induction row with
  | nil => intro x _ d; simp [forwardtransformRow]
  | cons it rest ih =>
    intro x h d
    have hit : it.1 ≠ c := h it (List.mem_cons_self _ _)
    have hrest : ∀ jt ∈ rest, jt.1 ≠ c := fun jt hj => h jt (List.mem_cons_of_mem _ hj)
    have := ih (Function.update x it.1 (x it.1 + x c * it.2)) hrest d
    unfold forwardtransformRow at this ⊢
    rw [List.foldl_cons, this, List.map_cons, List.sum_cons,
      Function.update_noteq (Ne.symm hit)]
    by_cases hd : it.1 = d
    · subst hd
      rw [Function.update_same, if_pos rfl]
      ring
    · rw [Function.update_noteq (Ne.symm hd), if_neg hd]
      ring

theorem forwardtransformScatter_apply (isKey : Nat → Prop) (d : Nat) :
    ∀ (l : ConstraintsContainer T) (x : CoefficientVector T),
      (∀ cit ∈ l, isKey cit.1 ∧ ∀ rit ∈ cit.2, ¬ isKey rit.1) →
      forwardtransformScatter l x d = x d + contributionsTo l x d := by
  intro l
  induction l with
  | nil => intro x _; simp [forwardtransformScatter, contributionsTo]
  | cons cit rest ih =>
    intro x h
    obtain ⟨hk, hrow⟩ := h cit (List.mem_cons_self _ _)
    have hrest : ∀ e ∈ rest, isKey e.1 ∧ ∀ rit ∈ e.2, ¬ isKey rit.1 :=
      fun e he => h e (List.mem_cons_of_mem _ he)
    have hne : ∀ it ∈ cit.2, it.1 ≠ cit.1 := fun it hit e => hrow it hit (e ▸ hk)
    have hx : ∀ k, isKey k → forwardtransformRow cit.1 x cit.2 k = x k := by
      intro k hkk
      rw [forwardtransformRow_apply cit.1 cit.2 x hne k]
      have : (cit.2.map fun it => if it.1 = k then it.2 * x cit.1 else 0).sum = 0 := by
        apply List.sum_eq_zero
        intro v hv
        obtain ⟨it, hit, rfl⟩ := List.mem_map.mp hv
        have hne2 : ¬ it.1 = k := by
          intro e
          exact hrow it hit (by rw [e]; exact hkk)
        rw [if_neg hne2]
      rw [this, add_zero]
    have := ih (forwardtransformRow cit.1 x cit.2) hrest
    unfold forwardtransformScatter at this ⊢
    rw [List.foldl_cons, this, forwardtransformRow_apply cit.1 cit.2 x hne d]
    unfold contributionsTo
    rw [List.map_cons, List.sum_cons, add_assoc]
    congr 2
    apply congrArg List.sum
    apply List.map_congr_left
    intro e he
    rw [hx e.1 (hrest e he).1]

/-- C12. `forwardtransform`: for every vector, `forwardtransform(x, true)` sets `x[c] = 0`
for every key `c`, whatever the container; and for every constraints container in which no
contributed index is itself a key, `forwardtransform(x, false)` leaves `x[c]` unchanged for
every key `c` and sets every other entry `d` to `x[d]` plus the sum over the keys `c` whose
inner map contains `d` of `weight(c,d) * x[c]`, and `forwardtransform(x, true)` produces the
same values at the entries that are not keys. -/
theorem forwardtransform_spec (cv : ConstraintsContainer T) (x : CoefficientVector T) :
    (∀ c ∈ cv.keys, forwardtransform cv x true c = 0) ∧
    (cv.ChainFree →
      (∀ c ∈ cv.keys, forwardtransform cv x false c = x c) ∧
      (∀ d, d ∉ cv.keys → forwardtransform cv x false d = x d + contributionsTo cv x d) ∧
      (∀ d, d ∉ cv.keys → forwardtransform cv x true d = forwardtransform cv x false d)) := by
  refine ⟨fun c hc => ?_, fun hfree => ?_⟩
  · simp only [forwardtransform, if_true, zeroConstrained_apply, if_pos hc]
  · have hall : ∀ d, forwardtransformScatter cv x d = x d + contributionsTo cv x d := by
      intro d
      apply forwardtransformScatter_apply (fun k => k ∈ cv.keys) d cv x
      intro cit hcit
      exact ⟨List.mem_map.mpr ⟨cit, hcit, rfl⟩, hfree cit hcit⟩
    refine ⟨fun c hc => ?_, fun d _ => ?_, fun d hd => ?_⟩
    · simp only [forwardtransform, Bool.false_eq_true, if_false]
      rw [hall c]
      have : contributionsTo cv x c = 0 := by
        unfold contributionsTo
        apply List.sum_eq_zero
        intro v hv
        obtain ⟨cit, hcit, rfl⟩ := List.mem_map.mp hv
        apply List.sum_eq_zero
        intro w hw
        obtain ⟨rit, hrit, rfl⟩ := List.mem_map.mp hw
        have hne2 : ¬ rit.1 = c := by
          intro e
          exact hfree cit hcit rit hrit (by rw [e]; exact hc)
        rw [if_neg hne2]
      rw [this, add_zero]
    · simp only [forwardtransform, Bool.false_eq_true, if_false]
      exact hall d
    · simp only [forwardtransform, if_true, Bool.false_eq_true, if_false,
        zeroConstrained_apply, if_neg hd]

/-- Witness of C12: the hanging-node container `{5: {2: 3, 3: 4}}` on the vector with all
entries `1`; it is chain free, entry `2` becomes `1 + 3`, the key `5` keeps `1` without
`postrestrict` and becomes `0` with it. -/
theorem forwardtransform_spec_witness :
    ConstraintsContainer.ChainFree ([(5, [(2, 3), (3, 4)])] : ConstraintsContainer Int) ∧
    forwardtransform [(5, [(2, 3), (3, 4)])] (fun _ => (1 : Int)) false 2 = 4 ∧
    forwardtransform [(5, [(2, 3), (3, 4)])] (fun _ => (1 : Int)) false 5 = 1 ∧
    forwardtransform [(5, [(2, 3), (3, 4)])] (fun _ => (1 : Int)) true 5 = 0 := by
  have hfree : ConstraintsContainer.ChainFree
      ([(5, [(2, 3), (3, 4)])] : ConstraintsContainer Int) := by
    intro cit hcit rit hrit
    simp only [List.mem_singleton] at hcit
    subst hcit
    simp only [List.mem_cons, List.mem_singleton, List.not_mem_nil, or_false] at hrit
    rcases hrit with rfl | rfl <;> simp [ConstraintsContainer.keys]
  have h := forwardtransform_spec [(5, [(2, 3), (3, 4)])] (fun _ => (1 : Int))
  refine ⟨hfree, ?_, ?_, ?_⟩
  · rw [(h.2 hfree).2.1 2 (by simp [ConstraintsContainer.keys])]
    simp [contributionsTo]
  · exact (h.2 hfree).1 5 (by simp [ConstraintsContainer.keys])
  · exact h.1 5 (by simp [ConstraintsContainer.keys])


theorem backtransformRow_apply (c : Nat) (row : List (Nat × T)) :
    ∀ (x : CoefficientVector T), (∀ it ∈ row, it.1 ≠ c) → ∀ k,
      backtransformRow c x row k = if k = c then x c + weightedSum x row else x k := by
  induction row with
  | nil =>
    intro x _ k
    by_cases hk : k = c
    · subst hk; simp [backtransformRow, weightedSum]
    · simp [backtransformRow, weightedSum, hk]
  | cons it rest ih =>
    intro x h k
    have hit : it.1 ≠ c := h it (List.mem_cons_self _ _)
    have hrest : ∀ jt ∈ rest, jt.1 ≠ c := fun jt hj => h jt (List.mem_cons_of_mem _ hj)
    have := ih (Function.update x c (x c + x it.1 * it.2)) hrest k
    unfold backtransformRow at this ⊢
    rw [List.foldl_cons, this]
    have hws : weightedSum (Function.update x c (x c + x it.1 * it.2)) rest
        = weightedSum x rest := by
      unfold weightedSum
      apply congrArg List.sum
      apply List.map_congr_left
      intro jt hj
      rw [Function.update_noteq (hrest jt hj)]
    by_cases hk : k = c
    · rw [if_pos hk, if_pos hk, Function.update_same, hws]
      unfold weightedSum
      rw [List.map_cons, List.sum_cons]
      ring
    · rw [if_neg hk, if_neg hk, Function.update_noteq hk]

theorem backtransform_apply (isKey : Nat → Prop) (k : Nat) :
    ∀ (l : ConstraintsContainer T) (x : CoefficientVector T),
      (∀ cit ∈ l, isKey cit.1 ∧ ∀ rit ∈ cit.2, ¬ isKey rit.1) →
      backtransform l x false k
        = x k + (l.map fun cit => if cit.1 = k then weightedSum x cit.2 else 0).sum := by
  intro l
  induction l with
  | nil => intro x _; simp [backtransform]
  | cons cit rest ih =>
    intro x h
    obtain ⟨hk, hrow⟩ := h cit (List.mem_cons_self _ _)
    have hrest : ∀ e ∈ rest, isKey e.1 ∧ ∀ rit ∈ e.2, ¬ isKey rit.1 :=
      fun e he => h e (List.mem_cons_of_mem _ he)
    have hne : ∀ it ∈ cit.2, it.1 ≠ cit.1 := by
      intro it hit e
      exact hrow it hit (by rw [e]; exact hk)
    have hrowval := backtransformRow_apply cit.1 cit.2 x hne
    have hws : ∀ e ∈ rest, weightedSum (backtransformRow cit.1 x cit.2) e.2
        = weightedSum x e.2 := by
      intro e he
      unfold weightedSum
      apply congrArg List.sum
      apply List.map_congr_left
      intro jt hj
      have hjne : jt.1 ≠ cit.1 := by
        intro e2
        exact (hrest e he).2 jt hj (by rw [e2]; exact hk)
      rw [hrowval jt.1, if_neg hjne]
    have := ih (backtransformRow cit.1 x cit.2) hrest
    unfold backtransform at this ⊢
    simp only [Bool.false_eq_true, if_false] at this ⊢
    rw [List.foldl_cons, this, hrowval k, List.map_cons, List.sum_cons]
    have hmap : (rest.map fun e =>
        if e.1 = k then weightedSum (backtransformRow cit.1 x cit.2) e.2 else 0)
        = rest.map fun e => if e.1 = k then weightedSum x e.2 else 0 := by
      apply List.map_congr_left
      intro e he
      rw [hws e he]
    rw [hmap]
    by_cases hkc : k = cit.1
    · subst hkc
      rw [if_pos rfl, if_pos rfl]; ring
    · rw [if_neg hkc, if_neg (fun e => hkc e.symm)]; ring

theorem sum_indicator_mul {α : Type} (n : Nat) (key : α → Nat) (g : α → T)
    (h : Nat → T) (l : List α) (hl : ∀ e ∈ l, key e < n) :
    ((Finset.range n).sum fun k => (l.map fun e => if key e = k then g e else 0).sum * h k)
      = (l.map fun e => g e * h (key e)).sum := by
  induction l with
  | nil => simp
  | cons e rest ih =>
    have hrest : ∀ e ∈ rest, key e < n := fun e he => hl e (List.mem_cons_of_mem _ he)
    have he : key e < n := hl e (List.mem_cons_self _ _)
    simp only [List.map_cons, List.sum_cons, add_mul, Finset.sum_add_distrib]
    rw [ih hrest]
    congr 1
    rw [Finset.sum_eq_single (key e)]
    · simp
    · intro b _ hb
      rw [if_neg (fun e2 => hb e2.symm), zero_mul]
    · intro hne
      exact absurd (Finset.mem_range.mpr he) hne

theorem contributionsTo_eq_entries (cv : ConstraintsContainer T) (x : CoefficientVector T)
    (d : Nat) :
    contributionsTo cv x d
      = (cv.entries.map fun p => if p.2.1 = d then p.2.2 * x p.1 else 0).sum := by
  unfold contributionsTo ConstraintsContainer.entries
  rw [sum_map_flatMap]
  apply congrArg List.sum
  apply List.map_congr_left
  intro cit _
  rw [List.map_map]
  rfl

theorem sum_weightedSum_eq_entries (cv : ConstraintsContainer T) (x y : CoefficientVector T) :
    (cv.map fun cit => weightedSum y cit.2 * x cit.1).sum
      = (cv.entries.map fun p => p.2.2 * x p.1 * y p.2.1).sum := by
  unfold ConstraintsContainer.entries
  rw [sum_map_flatMap]
  apply congrArg List.sum
  apply List.map_congr_left
  intro cit _
  rw [List.map_map]
  unfold weightedSum
  generalize cit.2 = row
  induction row with
  | nil => simp
  | cons it rest ih =>
    simp only [List.map_cons, List.sum_cons, add_mul, ih, Function.comp]
    ring

/-- C13. `backtransform` is the transpose of `forwardtransform`: for every constraints
container in which no contributed index is itself a key, and all vectors `x`, `y` of the
same size `n` (the indices of the container being below `n`),
`sum_k forwardtransform(x,false)[k] * y[k] = sum_k x[k] * backtransform(y,false)[k]`, in
exact arithmetic. -/
theorem backtransform_is_transpose (cv : ConstraintsContainer T) (n : Nat)
    (x y : CoefficientVector T) (hfree : cv.ChainFree) (hn : cv.Within n) :
    dotProduct n (forwardtransform cv x false) y
      = dotProduct n x (backtransform cv y false) := by
  have hsep : ∀ cit ∈ cv, cit.1 ∈ cv.keys ∧ ∀ rit ∈ cit.2, ¬ rit.1 ∈ cv.keys :=
    fun cit hcit => ⟨List.mem_map.mpr ⟨cit, hcit, rfl⟩, hfree cit hcit⟩
  have hf : ∀ k, forwardtransform cv x false k = x k + contributionsTo cv x k := by
    intro k
    simp only [forwardtransform, Bool.false_eq_true, if_false]
    exact forwardtransformScatter_apply (fun k => k ∈ cv.keys) k cv x hsep
  have hb := fun k => backtransform_apply (fun k => k ∈ cv.keys) k cv y hsep
  have hentries : ∀ p ∈ cv.entries, p.2.1 < n := by
    intro p hp
    unfold ConstraintsContainer.entries at hp
    obtain ⟨cit, hcit, hp2⟩ := List.mem_flatMap.mp hp
    obtain ⟨rit, hrit, rfl⟩ := List.mem_map.mp hp2
    exact (hn cit hcit).2 rit hrit
  have hkeys : ∀ cit ∈ cv, cit.1 < n := fun cit hcit => (hn cit hcit).1
  unfold dotProduct
  have e1 : ((Finset.range n).sum fun k => forwardtransform cv x false k * y k)
      = ((Finset.range n).sum fun k => x k * y k)
        + (cv.entries.map fun p => p.2.2 * x p.1 * y p.2.1).sum := by
    rw [← sum_indicator_mul n (fun p : Nat × Nat × T => p.2.1) (fun p => p.2.2 * x p.1) y
      cv.entries hentries, ← Finset.sum_add_distrib]
    apply Finset.sum_congr rfl
    intro k _
    rw [hf k, contributionsTo_eq_entries, add_mul]
  have e2 : ((Finset.range n).sum fun k => x k * backtransform cv y false k)
      = ((Finset.range n).sum fun k => x k * y k)
        + (cv.map fun cit => weightedSum y cit.2 * x cit.1).sum := by
    rw [← sum_indicator_mul n (fun cit : Nat × List (Nat × T) => cit.1)
      (fun cit => weightedSum y cit.2) x cv hkeys, ← Finset.sum_add_distrib]
    apply Finset.sum_congr rfl
    intro k _
    rw [hb k]
    ring
  rw [e1, e2, sum_weightedSum_eq_entries]

/-- Witness of C13: the hanging-node container `{2: {0: 3, 1: 4}}` on vectors of size 3. -/
theorem backtransform_is_transpose_witness :
    ConstraintsContainer.ChainFree ([(2, [(0, 3), (1, 4)])] : ConstraintsContainer Int) ∧
    ConstraintsContainer.Within ([(2, [(0, 3), (1, 4)])] : ConstraintsContainer Int) 3 ∧
    dotProduct 3 (forwardtransform [(2, [(0, 3), (1, 4)])] (fun k => (k : Int) + 1) false)
        (fun k => 2 * (k : Int) + 1)
      = dotProduct 3 (fun k => (k : Int) + 1)
          (backtransform [(2, [(0, 3), (1, 4)])] (fun k => 2 * (k : Int) + 1) false) := by
  have hfree : ConstraintsContainer.ChainFree
      ([(2, [(0, 3), (1, 4)])] : ConstraintsContainer Int) := by
    intro cit hcit rit hrit
    simp only [List.mem_singleton] at hcit
    subst hcit
    simp only [List.mem_cons, List.mem_singleton, List.not_mem_nil, or_false] at hrit
    rcases hrit with rfl | rfl <;> simp [ConstraintsContainer.keys]
  have hn : ConstraintsContainer.Within
      ([(2, [(0, 3), (1, 4)])] : ConstraintsContainer Int) 3 := by
    intro cit hcit
    simp only [List.mem_singleton] at hcit
    subst hcit
    refine ⟨by decide, fun rit hrit => ?_⟩
    simp only [List.mem_cons, List.mem_singleton, List.not_mem_nil, or_false] at hrit
    rcases hrit with rfl | rfl <;> decide
  exact ⟨hfree, hn, backtransform_is_transpose _ 3 _ _ hfree hn⟩


theorem forwardtransformRow_of_zero (c : Nat) (x : CoefficientVector T) (hc : x c = 0)
    (row : List (Nat × T)) : forwardtransformRow c x row = x := by
  induction row with
  | nil => rfl
  | cons it rest ih =>
    unfold forwardtransformRow at ih ⊢
    rw [List.foldl_cons]
    have : Function.update x it.1 (x it.1 + x c * it.2) = x := by
      rw [hc, zero_mul, add_zero, Function.update_eq_self]
    rw [this]
    exact ih

theorem forwardtransform_of_zero (x : CoefficientVector T) (postrestrict : Bool) :
    ∀ (cv : ConstraintsContainer T), (∀ c ∈ cv.keys, x c = 0) →
      forwardtransform cv x postrestrict = x := by
  intro cv hzero
  have hscatter : ∀ (l : ConstraintsContainer T), (∀ c ∈ l.keys, x c = 0) →
      forwardtransformScatter l x = x := by
    intro l
    induction l with
    | nil => intro _; rfl
    | cons cit rest ih =>
      intro h
      unfold forwardtransformScatter at ih ⊢
      rw [List.foldl_cons,
        forwardtransformRow_of_zero cit.1 x (h cit.1 (by simp [ConstraintsContainer.keys]))]
      exact ih (fun c hc => h c (by
        simp only [ConstraintsContainer.keys, List.map_cons, List.mem_cons] at hc ⊢
        exact Or.inr hc))
  unfold forwardtransform
  rw [hscatter cv hzero]
  cases postrestrict
  · rfl
  · simp only [if_true]
    funext d
    rw [zeroConstrained_apply]
    by_cases hd : d ∈ cv.keys
    · rw [if_pos hd, hzero d hd]
    · rw [if_neg hd]

theorem backtransform_of_zero (x : CoefficientVector T) (prerestrict : Bool) :
    ∀ (cv : ConstraintsContainer T), (∀ cit ∈ cv, ∀ rit ∈ cit.2, rit.1 ≠ cit.1) →
      SatisfiesConstraints cv x → (∀ c ∈ cv.keys, x c = 0) →
      backtransform cv x prerestrict = x := by
  intro cv
  induction cv with
  | nil => intro _ _ _; rfl
  | cons cit rest ih =>
    intro hself hsat hzero
    have hc : x cit.1 = 0 := hzero cit.1 (by simp [ConstraintsContainer.keys])
    have hpre : (if prerestrict = true then Function.update x cit.1 0 else x) = x := by
      cases prerestrict
      · rfl
      · simp only [if_true]
        rw [← hc, Function.update_eq_self]
    have hrow : backtransformRow cit.1 x cit.2 = x := by
      funext k
      rw [backtransformRow_apply cit.1 cit.2 x (hself cit (List.mem_cons_self _ _)) k]
      by_cases hk : k = cit.1
      · subst hk
        rw [if_pos rfl, ← hsat cit (List.mem_cons_self _ _), hc, add_zero]
      · rw [if_neg hk]
    unfold backtransform at ih ⊢
    rw [List.foldl_cons, hpre, hrow]
    exact ih (fun e he => hself e (List.mem_cons_of_mem _ he))
      (fun e he => hsat e (List.mem_cons_of_mem _ he))
      (fun c hcm => hzero c (by
        simp only [ConstraintsContainer.keys, List.map_cons, List.mem_cons] at hcm ⊢
        exact Or.inr hcm))

/-- C14, as amended.  For every choice of the restrict flags, every constraints container in
which no constrained dof occurs in its own inner map, and every vector `x` that satisfies the
constraints and is zero at every constrained dof, applying `forwardtransform` and then
`backtransform` returns `x` unchanged. -/
theorem transforms_fix_homogeneous (cv : ConstraintsContainer T) (x : CoefficientVector T)
    (postrestrict prerestrict : Bool)
    (hself : ∀ cit ∈ cv, ∀ rit ∈ cit.2, rit.1 ≠ cit.1)
    (hsat : SatisfiesConstraints cv x) (hzero : ∀ c ∈ cv.keys, x c = 0) :
    backtransform cv (forwardtransform cv x postrestrict) prerestrict = x := by
  rw [forwardtransform_of_zero x postrestrict cv hzero]
  exact backtransform_of_zero x prerestrict cv hself hsat hzero

/-- Witness of C14 as amended: the container `{2: {0: 1, 1: -1}}` and the vector `(3,3,0)`,
whose constrained entry `x[2] = 0` equals `x[0] - x[1]`. -/
theorem transforms_fix_homogeneous_witness :
    SatisfiesConstraints ([(2, [(0, 1), (1, -1)])] : ConstraintsContainer Int)
      (fun k => if k = 2 then 0 else 3) ∧
    backtransform [(2, [(0, 1), (1, -1)])]
        (forwardtransform [(2, [(0, 1), (1, -1)])] (fun k => if k = 2 then (0 : Int) else 3) true)
        true
      = fun k => if k = 2 then (0 : Int) else 3 := by
  have hsat : SatisfiesConstraints ([(2, [(0, 1), (1, -1)])] : ConstraintsContainer Int)
      (fun k => if k = 2 then 0 else 3) := by
    intro cit hcit
    simp only [List.mem_singleton] at hcit
    subst hcit
    simp [weightedSum]
  refine ⟨hsat, transforms_fix_homogeneous _ _ true true ?_ hsat ?_⟩
  · intro cit hcit rit hrit
    simp only [List.mem_singleton] at hcit
    subst hcit
    simp only [List.mem_cons, List.mem_singleton, List.not_mem_nil, or_false] at hrit
    rcases hrit with rfl | rfl <;> decide
  · intro c hc
    simp only [ConstraintsContainer.keys, List.map_cons, List.map_nil,
      List.mem_singleton] at hc
    subst hc
    rfl

/-- C14 fails as stated: for the container `{1: {0: 1}}` and the vector with all entries
`1`, which satisfies the constraint `x[1] = 1 * x[0]`, `forwardtransform` adds `x[1]` to
`x[0]` and `backtransform` only writes `x[1]`, so for each of the four choices of the flags
entry `0` ends as `2`; hence no choice of the flags returns every constraint-satisfying
vector unchanged. -/
theorem transforms_idempotence_counterexample :
    SatisfiesConstraints ([(1, [(0, 1)])] : ConstraintsContainer Int) (fun _ => 1) ∧
    (∀ postrestrict prerestrict : Bool,
      backtransform [(1, [(0, 1)])]
        (forwardtransform [(1, [(0, 1)])] (fun _ => (1 : Int)) postrestrict) prerestrict 0
        = 2) ∧
    ¬ ∃ postrestrict prerestrict : Bool,
        ∀ (cv : ConstraintsContainer Int) (x : CoefficientVector Int),
          SatisfiesConstraints cv x →
          backtransform cv (forwardtransform cv x postrestrict) prerestrict = x := by
  have hsat : SatisfiesConstraints ([(1, [(0, 1)])] : ConstraintsContainer Int)
      (fun _ => 1) := by
    intro cit hcit
    simp only [List.mem_singleton] at hcit
    subst hcit
    simp [weightedSum]
  have hval : ∀ postrestrict prerestrict : Bool,
      backtransform [(1, [(0, 1)])]
        (forwardtransform [(1, [(0, 1)])] (fun _ => (1 : Int)) postrestrict) prerestrict 0
        = 2 := by
    decide
  refine ⟨hsat, hval, ?_⟩
  rintro ⟨postrestrict, prerestrict, h⟩
  have h1 := congrFun (h [(1, [(0, 1)])] (fun _ => 1) hsat) 0
  rw [hval postrestrict prerestrict] at h1
  exact absurd h1 (by decide)

end LocalAssemblerBase

end TransformProperties

namespace LocalAssemblerBase

/-- C15. `handle_dirichlet_constraints` performs on the backend exactly: one `flush`, then
one `clear_row` for each key of the test-space container `CV` (pure Dirichlet or with a
non-empty inner map), in iteration order, and for no other row, then one `finalize`; rows
whose index is not a key of `CV` are not touched. -/
theorem handle_dirichlet_constraints_calls {T : Type} (cv : ConstraintsContainer T) :
    handle_dirichlet_constraints cv
      = BackendCall.flush :: (cv.keys.map fun i => BackendCall.clear_row i 1)
          ++ [BackendCall.finalize] ∧
    (∀ i v, BackendCall.clear_row i v ∈ handle_dirichlet_constraints cv ↔
      (i ∈ cv.keys ∧ v = 1)) ∧
    (∀ i, i ∉ cv.keys → ∀ v, BackendCall.clear_row i v ∉ handle_dirichlet_constraints cv) ∧
    (handle_dirichlet_constraints cv).count BackendCall.flush = 1 ∧
    (handle_dirichlet_constraints cv).count BackendCall.finalize = 1 ∧
    (handle_dirichlet_constraints cv).head? = some BackendCall.flush ∧
    (handle_dirichlet_constraints cv).getLast? = some BackendCall.finalize := by
  have hflat : cv.flatMap (fun cit => set_trivial_row cit.1 cit.2)
      = cv.keys.map fun i => BackendCall.clear_row i 1 := by
    induction cv with
    | nil => rfl
    | cons cit rest ih =>
      rw [List.flatMap_cons, ih]
      rfl
  have h0 : handle_dirichlet_constraints cv
      = BackendCall.flush :: (cv.keys.map fun i => BackendCall.clear_row i 1)
          ++ [BackendCall.finalize] := by
    unfold handle_dirichlet_constraints
    rw [hflat]
    rfl
  have hmem : ∀ i v, BackendCall.clear_row i v ∈ handle_dirichlet_constraints cv ↔
      (i ∈ cv.keys ∧ v = 1) := by
    intro i v
    rw [h0]
    constructor
    · intro h
      rcases List.mem_append.mp h with h | h
      · rcases List.mem_cons.mp h with h | h
        · cases h
        · obtain ⟨j, hj, he⟩ := List.mem_map.mp h
          cases he
          exact ⟨hj, rfl⟩
      · rcases List.mem_singleton.mp h with h
        cases h
    · rintro ⟨hi, rfl⟩
      exact List.mem_append_left _
        (List.mem_cons_of_mem _ (List.mem_map.mpr ⟨i, hi, rfl⟩))
  have hcount : ∀ (c : BackendCall), (∀ i v, c ≠ BackendCall.clear_row i v) →
      (cv.keys.map fun i => BackendCall.clear_row i 1).count c = 0 := by
    intro c hc
    rw [List.count_eq_zero]
    intro hm
    obtain ⟨j, _, he⟩ := List.mem_map.mp hm
    exact hc j 1 he.symm
  refine ⟨h0, hmem, fun i hi v hv => hi ((hmem i v).mp hv).1, ?_, ?_, ?_, ?_⟩
  · rw [h0, List.count_append, List.count_cons,
      hcount BackendCall.flush (fun i v => by simp)]
    rfl
  · rw [h0, List.count_append, List.count_cons,
      hcount BackendCall.finalize (fun i v => by simp)]
    rfl
  · rw [h0]; rfl
  · rw [h0]
    exact List.getLast?_concat _

end LocalAssemblerBase

/-! ## Properties of the instationary grid operator space -/

namespace InstationaryGridOperatorSpace

section AssemblyProperties

variable {K : Type} [LinearOrderedField K]

theorem preStage_error (A : Assembler K) (st : State K) (stage_ : Nat)
    (x : List (CoefficientVector K)) :
    (preStage A st stage_ x).error
      = if x.length ≠ stage_ then some AssemblerError.wrongNumberOfSolutions
        else if stage_ < 1 ∨ stage_ > st.method.s then
          some AssemblerError.invalidStageNumber
        else none := by
  unfold preStage
  by_cases h1 : x.length ≠ stage_
  · simp only [h1, ne_eq, not_false_eq_true, if_true]
  · by_cases h2 : stage_ < 1 ∨ stage_ > st.method.s
    · simp only [h1, if_false, h2, if_true]
    · simp only [h1, if_false, h2]

/-- C16. `preStage(stage, x)` raises a configuration error if and only if the number of
supplied solution vectors differs from `stage`, or `stage < 1`, or `stage > s()` of the
time-stepping method; for `1 <= stage <= s()` with exactly `stage` vectors the validation
does not raise. -/
theorem preStage_raises_iff (A : Assembler K) (st : State K) (stage_ : Nat)
    (x : List (CoefficientVector K)) :
    ((preStage A st stage_ x).error.isSome = true ↔
      (x.length ≠ stage_ ∨ stage_ < 1 ∨ stage_ > st.method.s)) ∧
    (1 ≤ stage_ → stage_ ≤ st.method.s → x.length = stage_ →
      (preStage A st stage_ x).error = none) := by
  rw [preStage_error]
  constructor
  · by_cases h1 : x.length ≠ stage_
    · rw [if_pos h1]
      exact ⟨fun _ => Or.inl h1, fun _ => rfl⟩
    · rw [if_neg h1]
      by_cases h2 : stage_ < 1 ∨ stage_ > st.method.s
      · rw [if_pos h2]
        exact ⟨fun _ => Or.inr h2, fun _ => rfl⟩
      · rw [if_neg h2]
        constructor
        · intro h
          cases h
        · rintro (h | h)
          · exact absurd h h1
          · exact absurd h h2
  · intro ha hb hc
    rw [if_neg (fun h => h hc), if_neg (by omega)]

/-- Witness of C16: stage 2 of a method with 3 stages and two solution vectors. -/
theorem preStage_raises_iff_witness :
    (preStage scenarioAssembler (scenarioState 0) 2 [fun _ => 1, fun _ => 1]).error = none :=
  (preStage_raises_iff scenarioAssembler (scenarioState 0) 2 [fun _ => 1, fun _ => 1]).2
    (by decide) (by decide) (by decide)

/-- C17, as amended.  When `preStage` raises a configuration error, the constant residual
`r0`, the method, the time, the time step and the notifications sent to the local operators
are exactly as before the call, but the recorded stage number has already been overwritten
with the rejected argument (`stage = stage_;` precedes the checks). -/
theorem preStage_rejected_state (A : Assembler K) (st : State K) (stage_ : Nat)
    (x : List (CoefficientVector K)) (h : (preStage A st stage_ x).error ≠ none) :
    (preStage A st stage_ x).state.r0 = st.r0 ∧
    (preStage A st stage_ x).state.notifications = st.notifications ∧
    (preStage A st stage_ x).state.method = st.method ∧
    (preStage A st stage_ x).state.time = st.time ∧
    (preStage A st stage_ x).state.dt = st.dt ∧
    (preStage A st stage_ x).state.stage = stage_ := by
  unfold preStage at h ⊢
  by_cases h1 : x.length ≠ stage_
  · simp only [h1, ne_eq, not_false_eq_true, if_true, and_self]
  · by_cases h2 : stage_ < 1 ∨ stage_ > st.method.s
    · simp only [h1, if_false, h2, if_true, and_self]
    · simp only [h1, if_false, h2] at h
      exact absurd rfl h

/-- Witness of C17 as amended: after stage 1 was accepted, `preStage(2, x)` with no solution
vector is rejected; `r0` is kept and the recorded stage is 2. -/
theorem preStage_rejected_state_witness :
    (preStage scenarioAssembler (scenarioState 1) 2 []).error ≠ none ∧
    (preStage scenarioAssembler (scenarioState 1) 2 []).state.r0 = (scenarioState 1).r0 ∧
    (preStage scenarioAssembler (scenarioState 1) 2 []).state.stage = 2 := by
  have herr : (preStage scenarioAssembler (scenarioState 1) 2 []).error ≠ none := by
    rw [preStage_error]
    decide
  have h := preStage_rejected_state scenarioAssembler (scenarioState 1) 2 [] herr
  exact ⟨herr, h.1, h.2.2.2.2.2⟩

/-- C17 fails as stated: after stage 1 was accepted, the rejected call `preStage(2, x)` with
no solution vector leaves the recorded stage number at 2 instead of 1, and a later
`residual()` uses the coefficient `b(2,2) = 2` of the rejected stage: its first entry is
`7 + 2*1 + 2 = 11`, while with the accepted stage it is `7 + 1*1 + 2 = 10`. -/
theorem preStage_not_atomic_counterexample :
    (scenarioState 1).stage = 1 ∧
    (preStage scenarioAssembler (scenarioState 1) 2 []).error
      = some AssemblerError.wrongNumberOfSolutions ∧
    (preStage scenarioAssembler (scenarioState 1) 2 []).state.stage = 2 ∧
    residual scenarioAssembler (scenarioState 1) (fun _ => 1) (fun _ => 0) 0 = 10 ∧
    residual scenarioAssembler (preStage scenarioAssembler (scenarioState 1) 2 []).state
      (fun _ => 1) (fun _ => 0) 0 = 11 := by
  refine ⟨rfl, ?_, ?_, ?_, ?_⟩
  · rw [preStage_error]
    decide
  · simp [preStage]
  · simp [residual, residualStart, residualCell, skipCell, scenarioAssembler, scenarioState,
      scenarioMethod, constrain_residual, constrain_residualScatter, zeroConstrained,
      vaddScaled, vadd]
    norm_num
  · simp [preStage, residual, residualStart, residualCell, skipCell, scenarioAssembler,
      scenarioState, scenarioMethod, constrain_residual, constrain_residualScatter,
      zeroConstrained, vaddScaled, vadd]
    norm_num

theorem explicit_jacobian_residual_error (A : Assembler K) (st : State K) (stage_ : Nat)
    (x : List (CoefficientVector K)) (alpha beta : CoefficientVector K) :
    (explicit_jacobian_residual A st stage_ x alpha beta).error
      = if A.hasSubTriangulation = true then some AssemblerError.notImplemented
        else if x.length ≠ stagePlusOne stage_ then
          some AssemblerError.wrongNumberOfSolutions
        else if stage_ < 1 ∨ stage_ > st.method.s then
          some AssemblerError.invalidStageNumber
        else if st.method.implicit = true then
          some AssemblerError.explicitModeWithImplicitScheme
        else none := by
  unfold explicit_jacobian_residual
  by_cases h0 : A.hasSubTriangulation = true
  · simp only [h0, if_true]
  · by_cases h1 : x.length ≠ stagePlusOne stage_
    · simp only [h0, Bool.false_eq_true, if_false, h1, ne_eq, not_false_eq_true, if_true]
    · by_cases h2 : stage_ < 1 ∨ stage_ > st.method.s
      · simp only [h0, Bool.false_eq_true, if_false, h1, h2, if_true]
      · by_cases h3 : st.method.implicit = true
        · simp only [h0, Bool.false_eq_true, if_false, h1, h2, h3, if_true]
        · simp only [h0, Bool.false_eq_true, if_false, h1, h2, h3]

/-- C18. `explicit_jacobian_residual(stage, x, mat, alpha, beta)` raises a fatal error if
and only if a sub-triangulation is present, or the number of supplied solution vectors
differs from `stage+1`, or `stage < 1`, or `stage > s()`, or the time-stepping method reports
`implicit()`; in all other cases the argument validation passes.  `stage+1` is evaluated in
`unsigned` arithmetic: the first statement holds with the wrapped sum for every input, the
second one with the plain sum for every `unsigned` stage and every method whose stage count
is below `2^32 - 1`. -/
theorem explicit_jacobian_residual_raises_iff (A : Assembler K) (st : State K) (stage_ : Nat)
    (x : List (CoefficientVector K)) (alpha beta : CoefficientVector K) :
    ((explicit_jacobian_residual A st stage_ x alpha beta).error.isSome = true ↔
      (A.hasSubTriangulation = true ∨ x.length ≠ stagePlusOne stage_ ∨ stage_ < 1 ∨
        stage_ > st.method.s ∨ st.method.implicit = true)) ∧
    (stage_ < 2 ^ 32 → st.method.s + 1 < 2 ^ 32 →
      ((explicit_jacobian_residual A st stage_ x alpha beta).error.isSome = true ↔
        (A.hasSubTriangulation = true ∨ x.length ≠ stage_ + 1 ∨ stage_ < 1 ∨
          stage_ > st.method.s ∨ st.method.implicit = true))) := by
  have hgen : (explicit_jacobian_residual A st stage_ x alpha beta).error.isSome = true ↔
      (A.hasSubTriangulation = true ∨ x.length ≠ stagePlusOne stage_ ∨ stage_ < 1 ∨
        stage_ > st.method.s ∨ st.method.implicit = true) := by
    rw [explicit_jacobian_residual_error]
    by_cases h0 : A.hasSubTriangulation = true
    · rw [if_pos h0]
      exact ⟨fun _ => Or.inl h0, fun _ => rfl⟩
    · rw [if_neg h0]
      by_cases h1 : x.length ≠ stagePlusOne stage_
      · rw [if_pos h1]
        exact ⟨fun _ => Or.inr (Or.inl h1), fun _ => rfl⟩
      · rw [if_neg h1]
        by_cases h2 : stage_ < 1 ∨ stage_ > st.method.s
        · rw [if_pos h2]
          refine ⟨fun _ => ?_, fun _ => rfl⟩
          rcases h2 with h2 | h2
          · exact Or.inr (Or.inr (Or.inl h2))
          · exact Or.inr (Or.inr (Or.inr (Or.inl h2)))
        · rw [if_neg h2]
          by_cases h3 : st.method.implicit = true
          · rw [if_pos h3]
            exact ⟨fun _ => Or.inr (Or.inr (Or.inr (Or.inr h3))), fun _ => rfl⟩
          · rw [if_neg h3]
            constructor
            · intro h
              cases h
            · rintro (h | h | h | h | h)
              · exact absurd h h0
              · exact absurd h h1
              · exact absurd (Or.inl h) h2
              · exact absurd (Or.inr h) h2
              · exact absurd h h3
  refine ⟨hgen, fun hstage hs => ?_⟩
  rw [hgen]
  by_cases hw : stage_ + 1 < 2 ^ 32
  · have : stagePlusOne stage_ = stage_ + 1 := Nat.mod_eq_of_lt hw
    rw [this]
  · have hbig : stage_ > st.method.s := by omega
    exact ⟨fun _ => Or.inr (Or.inr (Or.inr (Or.inl hbig))),
      fun _ => Or.inr (Or.inr (Or.inr (Or.inl hbig)))⟩

/-- Witness of C18: stage 2 of the explicit scenario method with three solution vectors
passes the validation; with two vectors it raises. -/
theorem explicit_jacobian_residual_raises_iff_witness :
    (explicit_jacobian_residual scenarioAssembler
      { scenarioState 0 with method := scenarioMethod false } 2
      [fun _ => 1, fun _ => 1, fun _ => 1] (fun _ => 0) (fun _ => 0)).error.isSome = false ∧
    (explicit_jacobian_residual scenarioAssembler
      { scenarioState 0 with method := scenarioMethod false } 2
      [fun _ => 1, fun _ => 1] (fun _ => 0) (fun _ => 0)).error.isSome = true := by
  constructor
  · have h := ((explicit_jacobian_residual_raises_iff scenarioAssembler
      { scenarioState 0 with method := scenarioMethod false } 2
      [fun _ => 1, fun _ => 1, fun _ => 1] (fun _ => 0) (fun _ => 0)).2
      (by decide) (by decide)).not
    rw [Bool.not_eq_true] at h
    exact h.mpr (by decide)
  · exact ((explicit_jacobian_residual_raises_iff scenarioAssembler
      { scenarioState 0 with method := scenarioMethod false } 2
      [fun _ => 1, fun _ => 1] (fun _ => 0) (fun _ => 0)).2
      (by decide) (by decide)).mpr (by decide)

theorem exceedsTolerance_iff (c : K) :
    exceedsTolerance c = true ↔ |c| > 1 / 1000000 := by
  unfold exceedsTolerance
  rw [Bool.or_eq_true, decide_eq_true_eq, decide_eq_true_eq, gt_iff_lt, gt_iff_lt, lt_abs,
    lt_neg]

theorem foldl_pointwise {α : Type} (f : CoefficientVector K → α → CoefficientVector K)
    (g : α → Nat → K) (hf : ∀ r e k, f r e k = r k + g e k) (k : Nat) :
    ∀ (l : List α) (r : CoefficientVector K),
      (l.foldl f r) k = r k + (l.map fun e => g e k).sum := by
  intro l
  induction l with
  | nil => intro r; simp
  | cons e rest ih =>
    intro r
    rw [List.foldl_cons, ih, hf, List.map_cons, List.sum_cons, add_assoc]

theorem sum_map_ite_filter {α : Type} (l : List α) (skip : α → Bool) (h : α → K) :
    (l.map fun e => if skip e = true then 0 else h e).sum
      = ((l.filter fun e => !skip e).map h).sum := by
  induction l with
  | nil => rfl
  | cons e rest ih =>
    rw [List.map_cons, List.sum_cons, ih, List.filter_cons]
    cases hs : skip e <;> simp

theorem preStageTerm_apply (A : Assembler K) (method : TimeSteppingParameter K)
    (time dt : K) (stage : Nat) (x : List (CoefficientVector K)) (cell : Cell)
    (r0 : CoefficientVector K) (i k : Nat) :
    preStageTerm A method time dt stage x cell r0 i k
      = r0 k +
        ((if |method.b stage i| > 1 / 1000000 then
            method.b stage i * dt * A.alpha cell (time + method.d i * dt) (x.getD i 0) k
          else 0) +
         (if |method.a stage i| > 1 / 1000000 then
            method.a stage i * A.mass cell (time + method.d i * dt) (x.getD i 0) k
          else 0)) := by
  unfold preStageTerm
  simp only [exceedsTolerance_iff]
  split_ifs <;> (try simp only [vaddScaled]) <;> ring

theorem explicitTerm_apply (A : Assembler K) (method : TimeSteppingParameter K)
    (time dt : K) (stage : Nat) (x : List (CoefficientVector K)) (cell : Cell)
    (ab : CoefficientVector K × CoefficientVector K) (i k : Nat) :
    (explicitTerm A method time dt stage x cell ab i).1 k
      = ab.1 k +
        (if |method.a stage i| > 1 / 1000000 then
          -method.a stage i * A.mass cell (time + method.d i * dt) (x.getD i 0) k
         else 0) ∧
    (explicitTerm A method time dt stage x cell ab i).2 k
      = ab.2 k +
        (if |method.b stage i| > 1 / 1000000 then
          -method.b stage i * A.alpha cell (time + method.d i * dt) (x.getD i 0) k
         else 0) := by
  unfold explicitTerm
  simp only [exceedsTolerance_iff]
  constructor <;> split_ifs <;> (try simp only [vaddScaled]) <;> ring

theorem preStage_r0 (A : Assembler K) (method : TimeSteppingParameter K) (time dt : K)
    (stage : Nat) (x : List (CoefficientVector K)) (k : Nat) :
    (A.gridView.foldl (preStageCell A method time dt stage x) (fun _ => 0)) k
      = constantResidual A method time dt stage x k := by
  have hcell : ∀ (r : CoefficientVector K) (cell : Cell) (k : Nat),
      preStageCell A method time dt stage x r cell k
        = r k + (if skipCell A cell = true then 0 else
            ((List.range stage).map fun i =>
              (if |method.b stage i| > 1 / 1000000 then
                method.b stage i * dt * A.alpha cell (time + method.d i * dt) (x.getD i 0) k
               else 0) +
              (if |method.a stage i| > 1 / 1000000 then
                method.a stage i * A.mass cell (time + method.d i * dt) (x.getD i 0) k
               else 0)).sum) := by
    intro r cell k
    unfold preStageCell
    by_cases hs : skipCell A cell = true
    · rw [if_pos hs, if_pos hs, add_zero]
    · rw [if_neg hs, if_neg hs]
      exact foldl_pointwise (preStageTerm A method time dt stage x cell) _
        (fun r i k => preStageTerm_apply A method time dt stage x cell r i k) k _ r
  rw [foldl_pointwise (preStageCell A method time dt stage x) _ hcell k A.gridView
    (fun _ => 0), zero_add, sum_map_ite_filter]
  rfl

theorem foldl_pair_pointwise {α : Type}
    (f : CoefficientVector K × CoefficientVector K → α →
      CoefficientVector K × CoefficientVector K)
    (g1 g2 : α → Nat → K)
    (hf : ∀ ab e k, (f ab e).1 k = ab.1 k + g1 e k ∧ (f ab e).2 k = ab.2 k + g2 e k)
    (k : Nat) :
    ∀ (l : List α) (ab : CoefficientVector K × CoefficientVector K),
      (l.foldl f ab).1 k = ab.1 k + (l.map fun e => g1 e k).sum ∧
      (l.foldl f ab).2 k = ab.2 k + (l.map fun e => g2 e k).sum := by
  intro l
  induction l with
  | nil => intro ab; simp
  | cons e rest ih =>
    intro ab
    rw [List.foldl_cons, (ih (f ab e)).1, (ih (f ab e)).2, (hf ab e k).1, (hf ab e k).2,
      List.map_cons, List.sum_cons, List.map_cons, List.sum_cons, add_assoc, add_assoc]
    exact ⟨rfl, rfl⟩

theorem explicit_alpha_beta (A : Assembler K) (method : TimeSteppingParameter K)
    (time dt : K) (stage : Nat) (x : List (CoefficientVector K))
    (ab : CoefficientVector K × CoefficientVector K) (k : Nat) :
    (A.gridView.foldl (explicitCell A method time dt stage x) ab).1 k
      = ab.1 k + explicitTemporalPart A method time dt stage x k ∧
    (A.gridView.foldl (explicitCell A method time dt stage x) ab).2 k
      = ab.2 k + explicitSpatialPart A method time dt stage x k := by
  have hcell : ∀ (ab : CoefficientVector K × CoefficientVector K) (cell : Cell) (k : Nat),
      (explicitCell A method time dt stage x ab cell).1 k
        = ab.1 k + (if skipCell A cell = true then 0 else
            ((List.range stage).map fun i =>
              if |method.a stage i| > 1 / 1000000 then
                -method.a stage i * A.mass cell (time + method.d i * dt) (x.getD i 0) k
              else 0).sum) ∧
      (explicitCell A method time dt stage x ab cell).2 k
        = ab.2 k + (if skipCell A cell = true then 0 else
            ((List.range stage).map fun i =>
              if |method.b stage i| > 1 / 1000000 then
                -method.b stage i * A.alpha cell (time + method.d i * dt) (x.getD i 0) k
              else 0).sum) := by
    intro ab cell k
    unfold explicitCell
    by_cases hs : skipCell A cell = true
    · rw [if_pos hs, if_pos hs, if_pos hs, add_zero, add_zero]
      exact ⟨rfl, rfl⟩
    · rw [if_neg hs, if_neg hs, if_neg hs]
      exact foldl_pair_pointwise (explicitTerm A method time dt stage x cell) _ _
        (fun ab i k => explicitTerm_apply A method time dt stage x cell ab i k) k _ ab
  have h := foldl_pair_pointwise (explicitCell A method time dt stage x) _ _ hcell k
    A.gridView ab
  rw [h.1, h.2, sum_map_ite_filter, sum_map_ite_filter]
  exact ⟨rfl, rfl⟩

/-- C19. Tolerance gate: the test `c>1E-6 || c<-1E-6` holds if and only if `|c| > 10^-6`
(strictly: the coefficients `10^-6`, `-10^-6` and `0` are skipped).  In `preStage`, for every
element and every previous stage `i` the spatial operator's contribution, scaled by
`b[i]*dt`, is added to `r0` if and only if `|b[i]| > 10^-6`, and the temporal operator's,
scaled by `a[i]`, if and only if `|a[i]| > 10^-6`; a skipped contribution adds nothing.  The
same gate governs `beta` and `alpha` in `explicit_jacobian_residual`.  Hence after a
`preStage` that does not raise, `r0` is the sum over the visited elements and the previous
stages of the contributions that pass the gate; and after an `explicit_jacobian_residual`
that does not raise, `alpha` is `copy_constrained_dofs` of the incoming `alpha` plus the sum
of the temporal contributions, scaled by `-a[i]`, that pass the gate, and `beta` is
`constrain_residual` of the incoming `beta` plus the sum of the spatial contributions, scaled
by `-b[i]`, that pass the gate. -/
theorem tolerance_gate (A : Assembler K) (st : State K) (stage_ : Nat)
    (x : List (CoefficientVector K)) :
    (∀ c : K, exceedsTolerance c = true ↔ |c| > 1 / 1000000) ∧
    exceedsTolerance (1 / 1000000 : K) = false ∧
    exceedsTolerance (-(1 / 1000000) : K) = false ∧
    exceedsTolerance (0 : K) = false ∧
    (∀ (method : TimeSteppingParameter K) (time dt : K) (stage : Nat) (cell : Cell)
        (r0 : CoefficientVector K) (i k : Nat),
      preStageTerm A method time dt stage x cell r0 i k
        = r0 k +
          ((if |method.b stage i| > 1 / 1000000 then
              method.b stage i * dt * A.alpha cell (time + method.d i * dt) (x.getD i 0) k
            else 0) +
           (if |method.a stage i| > 1 / 1000000 then
              method.a stage i * A.mass cell (time + method.d i * dt) (x.getD i 0) k
            else 0))) ∧
    (∀ (method : TimeSteppingParameter K) (time dt : K) (stage : Nat) (cell : Cell)
        (ab : CoefficientVector K × CoefficientVector K) (i k : Nat),
      (explicitTerm A method time dt stage x cell ab i).1 k
        = ab.1 k +
          (if |method.a stage i| > 1 / 1000000 then
            -method.a stage i * A.mass cell (time + method.d i * dt) (x.getD i 0) k
           else 0) ∧
      (explicitTerm A method time dt stage x cell ab i).2 k
        = ab.2 k +
          (if |method.b stage i| > 1 / 1000000 then
            -method.b stage i * A.alpha cell (time + method.d i * dt) (x.getD i 0) k
           else 0)) ∧
    ((preStage A st stage_ x).error = none →
      ∀ k, (preStage A st stage_ x).state.r0 k
        = constantResidual A st.method st.time st.dt stage_ x k) ∧
    (∀ alpha beta : CoefficientVector K,
      (explicit_jacobian_residual A st stage_ x alpha beta).error = none →
      (explicit_jacobian_residual A st stage_ x alpha beta).alpha
        = copy_constrained_dofs A.cu (x.getD stage_ 0)
            (fun k => alpha k + explicitTemporalPart A st.method st.time st.dt stage_ x k) ∧
      (explicit_jacobian_residual A st stage_ x alpha beta).beta
        = constrain_residual A.cv
            (fun k => beta k + explicitSpatialPart A st.method st.time st.dt stage_ x k)) := by
  have hgate := @exceedsTolerance_iff K _
  have hpos : (0 : K) < 1 / 1000000 := by norm_num
  refine ⟨hgate, ?_, ?_, ?_, ?_, ?_, ?_, ?_⟩
  · rw [← Bool.not_eq_true, hgate, abs_of_pos hpos]
    exact lt_irrefl _
  · rw [← Bool.not_eq_true, hgate, abs_neg, abs_of_pos hpos]
    exact lt_irrefl _
  · rw [← Bool.not_eq_true, hgate, abs_zero]
    exact not_lt.mpr hpos.le
  · intro method time dt stage cell r0 i k
    exact preStageTerm_apply A method time dt stage x cell r0 i k
  · intro method time dt stage cell ab i k
    exact explicitTerm_apply A method time dt stage x cell ab i k
  · intro herr k
    rw [preStage_error] at herr
    unfold preStage
    by_cases h1 : x.length ≠ stage_
    · rw [if_pos h1] at herr
      cases herr
    · rw [if_neg h1] at herr
      by_cases h2 : stage_ < 1 ∨ stage_ > st.method.s
      · rw [if_pos h2] at herr
        cases herr
      · simp only [h1, if_false, h2]
        exact preStage_r0 A st.method st.time st.dt stage_ x k
  · intro alpha beta herr
    rw [explicit_jacobian_residual_error] at herr
    by_cases h0 : A.hasSubTriangulation = true
    · rw [if_pos h0] at herr
      cases herr
    · rw [if_neg h0] at herr
      by_cases h1 : x.length ≠ stagePlusOne stage_
      · rw [if_pos h1] at herr
        cases herr
      · rw [if_neg h1] at herr
        by_cases h2 : stage_ < 1 ∨ stage_ > st.method.s
        · rw [if_pos h2] at herr
          cases herr
        · rw [if_neg h2] at herr
          by_cases h3 : st.method.implicit = true
          · rw [if_pos h3] at herr
            cases herr
          · have ha : (A.gridView.foldl
                (explicitCell A st.method st.time st.dt stage_ x) (alpha, beta)).1
                = fun k => alpha k
                    + explicitTemporalPart A st.method st.time st.dt stage_ x k := by
              funext k
              exact (explicit_alpha_beta A st.method st.time st.dt stage_ x (alpha, beta) k).1
            have hb : (A.gridView.foldl
                (explicitCell A st.method st.time st.dt stage_ x) (alpha, beta)).2
                = fun k => beta k
                    + explicitSpatialPart A st.method st.time st.dt stage_ x k := by
              funext k
              exact (explicit_alpha_beta A st.method st.time st.dt stage_ x (alpha, beta) k).2
            unfold explicit_jacobian_residual
            simp only [h0, Bool.false_eq_true, if_false, h1, h2, h3]
            rw [ha, hb]
            exact ⟨rfl, rfl⟩

/-- Witness of C19: stage 2 of the scenario method on one element, with `b(2,i) = 2`,
`a(2,0) = 0` (skipped) and `a(2,1) = 1`: the first entry of `r0` is `2 + (2 + 2) = 6`; in the
explicit case the first entry of `alpha` is `-2` and that of `beta` is `-2 - 2 = -4`. -/
theorem tolerance_gate_witness :
    (preStage scenarioAssembler (scenarioState 0) 2 [fun _ => 1, fun _ => 1]).error = none ∧
    (preStage scenarioAssembler (scenarioState 0) 2 [fun _ => 1, fun _ => 1]).state.r0 0
      = 6 ∧
    (explicit_jacobian_residual scenarioAssembler
      { scenarioState 0 with method := scenarioMethod false } 2
      [fun _ => 1, fun _ => 1, fun _ => 1] (fun _ => 0) (fun _ => 0)).error = none ∧
    (explicit_jacobian_residual scenarioAssembler
      { scenarioState 0 with method := scenarioMethod false } 2
      [fun _ => 1, fun _ => 1, fun _ => 1] (fun _ => 0) (fun _ => 0)).alpha 0 = -2 ∧
    (explicit_jacobian_residual scenarioAssembler
      { scenarioState 0 with method := scenarioMethod false } 2
      [fun _ => 1, fun _ => 1, fun _ => 1] (fun _ => 0) (fun _ => 0)).beta 0 = -4 := by
  have herr : (preStage scenarioAssembler (scenarioState 0) 2
      [fun _ => 1, fun _ => 1]).error = none := by
    rw [preStage_error]
    decide
  have herr2 : (explicit_jacobian_residual scenarioAssembler
      { scenarioState 0 with method := scenarioMethod false } 2
      [fun _ => 1, fun _ => 1, fun _ => 1] (fun _ => 0) (fun _ => 0)).error = none := by
    rw [explicit_jacobian_residual_error]
    decide
  have r2 : List.range 2 = [0, 1] := rfl
  refine ⟨herr, ?_, herr2, ?_, ?_⟩
  · rw [(tolerance_gate scenarioAssembler (scenarioState 0) 2
      [fun _ => 1, fun _ => 1]).2.2.2.2.2.2.1 herr 0]
    simp [constantResidual, scenarioAssembler, scenarioState, scenarioMethod, skipCell, r2]
    norm_num
  · rw [((tolerance_gate scenarioAssembler
      { scenarioState 0 with method := scenarioMethod false } 2
      [fun _ => 1, fun _ => 1, fun _ => 1]).2.2.2.2.2.2.2 (fun _ => 0) (fun _ => 0) herr2).1]
    simp [explicitTemporalPart, copy_constrained_dofs, scenarioAssembler, scenarioState,
      scenarioMethod, skipCell, r2]
    norm_num
  · rw [((tolerance_gate scenarioAssembler
      { scenarioState 0 with method := scenarioMethod false } 2
      [fun _ => 1, fun _ => 1, fun _ => 1]).2.2.2.2.2.2.2 (fun _ => 0) (fun _ => 0) herr2).2]
    simp [explicitSpatialPart, constrain_residual, constrain_residualScatter,
      zeroConstrained, scenarioAssembler, scenarioState, scenarioMethod, skipCell, r2]
    norm_num

/-- C20. `residual(x, r)` starts from the precomputed constant part: `r` is first
overwritten with `r0`, so for every `x` the final `r` is the same for any two contents of `r`
on entry; the method is `const` and leaves `r0` as it is, so repeating the evaluation in the
same stage with the same `x`, on the result of the first one, yields the same `r`.  Before
the constrained entries are zeroed by `constrain_residual`, `r` is `r0` plus, for every
visited element, the spatial residual scaled by `b(stage,stage)*dt` if the method is implicit
and the unscaled temporal residual. -/
theorem residual_starts_from_r0 (A : Assembler K) (st : State K) (x : CoefficientVector K) :
    (∀ r, residualStart st r = st.r0) ∧
    (∀ r1 r2, residual A st x r1 = residual A st x r2) ∧
    (∀ r, residual A st x (residual A st x r) = residual A st x r) ∧
    (∀ r, residual A st x r
      = constrain_residual A.cv (fun k => st.r0 k +
          ((A.gridView.filter fun cell => !skipCell A cell).map fun cell =>
            (if st.method.implicit = true then
              st.method.b st.stage st.stage * st.dt *
                A.alpha cell (st.time + st.method.d st.stage * st.dt) x k
             else 0) +
            A.mass cell (st.time + st.method.d st.stage * st.dt) x k).sum)) := by
  refine ⟨fun _ => rfl, fun _ _ => rfl, fun _ => rfl, fun r => ?_⟩
  unfold residual residualStart
  have hcell : ∀ (r : CoefficientVector K) (cell : Cell) (k : Nat),
      residualCell A st x r cell k
        = r k + (if skipCell A cell = true then 0 else
            (if st.method.implicit = true then
              st.method.b st.stage st.stage * st.dt *
                A.alpha cell (st.time + st.method.d st.stage * st.dt) x k
             else 0) +
            A.mass cell (st.time + st.method.d st.stage * st.dt) x k) := by
    intro r cell k
    unfold residualCell
    simp only
    split_ifs <;> (try simp only [vaddScaled, vadd]) <;> ring
  have hv : A.gridView.foldl (residualCell A st x) st.r0
      = fun k => st.r0 k +
          ((A.gridView.filter fun cell => !skipCell A cell).map fun cell =>
            (if st.method.implicit = true then
              st.method.b st.stage st.stage * st.dt *
                A.alpha cell (st.time + st.method.d st.stage * st.dt) x k
             else 0) +
            A.mass cell (st.time + st.method.d st.stage * st.dt) x k).sum := by
    funext k
    rw [foldl_pointwise (residualCell A st x) _ hcell k A.gridView st.r0,
      sum_map_ite_filter]
  rw [hv]

end AssemblyProperties

end InstationaryGridOperatorSpace

/-! ## Properties of the matrix-free Jacobian application, the notifications and the
interpolation -/

theorem copy_constrained_dofs_apply {T : Type} [CommRing T] (cg : ConstraintsContainer T)
    (xgin xgout : CoefficientVector T) (d : Nat) :
    copy_constrained_dofs cg xgin xgout d = if d ∈ cg.keys then xgin d else xgout d := by
  unfold copy_constrained_dofs ConstraintsContainer.keys
  induction cg generalizing xgout with
  | nil => simp
  | cons cit rest ih =>
    rw [List.foldl_cons, ih]
    by_cases h : d ∈ List.map Prod.fst rest
    · simp [h]
    · by_cases hd : d = cit.1
      · subst hd; simp [h]
      · have : ¬ cit.1 = d := fun e => hd e.symm
        simp [h, hd, Function.update_noteq hd]

theorem find_isNone_iff {T : Type} (cg : ConstraintsContainer T) (i : Nat) :
    (cg.find i).isNone = true ↔ i ∉ cg.keys := by
  unfold ConstraintsContainer.find ConstraintsContainer.keys
  induction cg with
  | nil => simp [List.lookup]
  | cons cit rest ih =>
    obtain ⟨k, row⟩ := cit
    by_cases h : i = k
    · subst h
      simp [List.lookup]
    · have hb : (i == k) = false := by simpa using h
      rw [List.lookup_cons, hb, List.map_cons, List.mem_cons, not_or]
      exact ⟨fun hh => ⟨h, ih.mp hh⟩, fun hh => ih.mpr hh.2⟩

theorem copy_nonconstrained_dofs_apply {T : Type} (cg : ConstraintsContainer T)
    (flatsize : Nat) (xgin xgout : CoefficientVector T) (i : Nat) :
    copy_nonconstrained_dofs cg flatsize xgin xgout i
      = if i < flatsize ∧ (cg.find i).isNone = true then xgin i else xgout i := by
  unfold copy_nonconstrained_dofs
  induction flatsize with
  | zero => simp
  | succ n ih =>
    rw [List.range_succ, List.foldl_append, List.foldl_cons, List.foldl_nil]
    by_cases hn : (cg.find n).isNone = true
    · rw [if_pos hn]
      by_cases hi : i = n
      · subst hi
        rw [Function.update_same, if_pos ⟨Nat.lt_succ_self _, hn⟩]
      · rw [Function.update_noteq hi, ih]
        have : (i < n + 1) ↔ i < n := by omega
        simp only [this]
    · rw [if_neg hn, ih]
      by_cases hi : i = n
      · subst hi
        rw [if_neg (fun h => hn h.2), if_neg (fun h => hn h.2)]
      · have : (i < n + 1) ↔ i < n := by omega
        simp only [this]

namespace InstationaryGridOperatorSpace

section ApplyProperties

variable {K : Type} [LinearOrderedField K]

/-- C21. Matrix-free Jacobian application copies constrained values: when
`jacobian_apply(x, y)` returns (it throws only for a sub-triangulation), for every dof `d`
that is a key of the trial-space constraints container `y[d] = x[d]`, whatever the local
operators contributed and whatever `y` held on entry. -/
theorem jacobian_apply_copies_constrained (A : Assembler K) (J : JacobianApplyOperators K)
    (st : State K) (x y : CoefficientVector K) (d : Nat)
    (hsub : A.hasSubTriangulation = false) (hd : d ∈ A.cu.keys) :
    (jacobian_apply A J st x y).error = none ∧ (jacobian_apply A J st x y).y d = x d := by
  unfold jacobian_apply
  rw [hsub]
  simp only [Bool.false_eq_true, if_false, true_and]
  rw [copy_constrained_dofs_apply, if_pos hd]

/-- Witness of C21: the operators contribute `3 * 4 + 5` to every entry, the constrained
entry 1 ends with the value 4 of `x`, the unconstrained entry 0 with `100 + 17`. -/
theorem jacobian_apply_copies_constrained_witness :
    constrainedAssembler.hasSubTriangulation = false ∧
    1 ∈ constrainedAssembler.cu.keys ∧
    (jacobian_apply constrainedAssembler scenarioApplyOperators (scenarioState 1)
      (fun _ => 4) (fun _ => 100)).y 1 = 4 ∧
    (jacobian_apply constrainedAssembler scenarioApplyOperators (scenarioState 1)
      (fun _ => 4) (fun _ => 100)).y 0 = 117 := by
  refine ⟨rfl, by simp [constrainedAssembler, ConstraintsContainer.keys],
    (jacobian_apply_copies_constrained constrainedAssembler scenarioApplyOperators
      (scenarioState 1) (fun _ => 4) (fun _ => 100) 1 rfl
      (by simp [constrainedAssembler, ConstraintsContainer.keys])).2, ?_⟩
  simp [jacobian_apply, constrainedAssembler, scenarioAssembler, scenarioApplyOperators,
    scenarioState, scenarioMethod, jacobian_applyCell, skipCell, vadd, vaddScaled,
    copy_constrained_dofs]
  norm_num

/-- C23. `interpolate(stage, xold, f, x)` keeps the old values on unconstrained dofs: after
the call `x[i] = xold[i]` for every index `i` below the vector size that is not a key of the
constraints container, while every entry whose index is a key holds the value produced by
interpolating `f` at the time of the stage and is not overwritten from `xold`. -/
theorem interpolate_keeps_unconstrained (A : Assembler K) (st : State K) (flatsize : Nat)
    (stage : Nat) (xold : CoefficientVector K)
    (f : K → CoefficientVector K → CoefficientVector K) (x : CoefficientVector K) (i : Nat) :
    (i < flatsize → i ∉ A.cv.keys → interpolate A st flatsize stage xold f x i = xold i) ∧
    (i ∈ A.cv.keys →
      interpolate A st flatsize stage xold f x i
        = f (st.time + st.method.d stage * st.dt) x i) := by
  unfold interpolate
  rw [copy_nonconstrained_dofs_apply]
  constructor
  · intro hi hk
    rw [if_pos ⟨hi, (find_isNone_iff A.cv i).mpr hk⟩]
  · intro hk
    rw [if_neg]
    intro h
    exact (find_isNone_iff A.cv i).mp h.2 hk

end ApplyProperties

/-- Witness of C23: the interpolation produces `10 t + 9` everywhere; the unconstrained entry
0 takes the old value 3, the constrained entry 1 keeps the interpolated value 9. -/
theorem interpolate_keeps_unconstrained_witness :
    0 < 3 ∧ 0 ∉ constrainedAssembler.cv.keys ∧ 1 ∈ constrainedAssembler.cv.keys ∧
    interpolate constrainedAssembler (scenarioState 1) 3 1 (fun _ => 3)
      (fun t _ _ => 10 * t + 9) (fun _ => 0) 0 = 3 ∧
    interpolate constrainedAssembler (scenarioState 1) 3 1 (fun _ => 3)
      (fun t _ _ => 10 * t + 9) (fun _ => 0) 1 = 10 * (0 + 0 * 1) + 9 :=
  ⟨by decide, by simp [constrainedAssembler, ConstraintsContainer.keys],
   by simp [constrainedAssembler, ConstraintsContainer.keys],
   (interpolate_keeps_unconstrained constrainedAssembler (scenarioState 1) 3 1 (fun _ => 3)
      (fun t _ _ => 10 * t + 9) (fun _ => 0) 0).1 (by decide)
      (by simp [constrainedAssembler, ConstraintsContainer.keys]),
   (interpolate_keeps_unconstrained constrainedAssembler (scenarioState 1) 3 1 (fun _ => 3)
      (fun t _ _ => 10 * t + 9) (fun _ => 0) 1).2
      (by simp [constrainedAssembler, ConstraintsContainer.keys])⟩

/-- C22, as amended.  `postStage()` forwards the notification to both local operators, first
the spatial and then the temporal one; `postStep()` forwards it to the temporal operator
only.  Neither changes the stage, the time, the time step, the method or `r0`. -/
theorem postStage_postStep_notifications {K : Type} (st : State K) :
    (postStage st).notifications
      = st.notifications ++
          [Notification.postStage Operator.la, Notification.postStage Operator.lm] ∧
    (postStep st).notifications = st.notifications ++ [Notification.postStep Operator.lm] ∧
    (postStage st).stage = st.stage ∧ (postStep st).stage = st.stage ∧
    (postStage st).time = st.time ∧ (postStep st).time = st.time ∧
    (postStage st).dt = st.dt ∧ (postStep st).dt = st.dt ∧
    (postStage st).r0 = st.r0 ∧ (postStep st).r0 = st.r0 :=
  ⟨rfl, rfl, rfl, rfl, rfl, rfl, rfl, rfl, rfl, rfl⟩

/-- Witness of C22 as amended: after `postStep()` on a state without notifications the only
notification is `postStep()` on the temporal operator. -/
theorem postStage_postStep_notifications_witness :
    (postStep (scenarioState 1)).notifications = [Notification.postStep Operator.lm] :=
  (postStage_postStep_notifications (scenarioState 1)).2.1

/-- C22 as stated fails: `postStep()` does not call `postStep()` on the spatial operator. -/
theorem postStep_spatial_counterexample :
    ¬ (Notification.postStep Operator.la ∈ (postStep (scenarioState 1)).notifications ∧
       Notification.postStep Operator.lm ∈ (postStep (scenarioState 1)).notifications) := by
  simp [postStep, scenarioState]

end InstationaryGridOperatorSpace

/-! ## Properties of the static accumulation -/

namespace TypeTree

section AccumulateProperties

variable {N R : Type}

mutual
theorem accumulate_value_eq_fold (F : VisitFunctor N R)
    (Reduction ParentChildReduction : R → R → R) :
    ∀ (tree : Tree N) (current_value : R) (treePath : TreePath),
      accumulate_value F Reduction ParentChildReduction tree current_value treePath
        = (postOrder tree treePath).foldl (foldStep F Reduction ParentChildReduction)
            current_value
  | Tree.leaf node, current_value, treePath => by
    simp [accumulate_value, postOrder, foldStep, accumulate_node_helper]
  | Tree.composite node children, current_value, treePath => by
    simp [accumulate_value, postOrder, foldStep, accumulate_node_helper, List.foldl_append,
      accumulate_over_children_eq_fold F Reduction ParentChildReduction children
        current_value treePath 0]
theorem accumulate_over_children_eq_fold (F : VisitFunctor N R)
    (Reduction ParentChildReduction : R → R → R) :
    ∀ (children : List (Tree N)) (current_value : R) (treePath : TreePath) (i : Nat),
      accumulate_over_children F Reduction ParentChildReduction children current_value
          treePath i
        = (postOrderChildren children treePath i).foldl
            (foldStep F Reduction ParentChildReduction) current_value
  | [], current_value, treePath, i => by
    simp [accumulate_over_children, postOrderChildren]
  | child :: rest, current_value, treePath, i => by
    simp [accumulate_over_children, postOrderChildren, List.foldl_append,
      accumulate_value_eq_fold F Reduction ParentChildReduction child current_value
        (treePath ++ [i]),
      accumulate_over_children_eq_fold F Reduction ParentChildReduction rest _ treePath
        (i + 1)]
end

theorem accumulate_over_children_eq_enum (F : VisitFunctor N R)
    (Reduction ParentChildReduction : R → R → R) (treePath : TreePath) :
    ∀ (children : List (Tree N)) (current_value : R) (i : Nat),
      accumulate_over_children F Reduction ParentChildReduction children current_value
          treePath i
        = (children.enumFrom i).foldl
            (fun current_value child =>
              accumulate_value F Reduction ParentChildReduction child.2 current_value
                (treePath ++ [child.1]))
            current_value
  | [], current_value, i => by simp [accumulate_over_children]
  | child :: rest, current_value, i => by
    simp [accumulate_over_children, List.enumFrom,
      accumulate_over_children_eq_enum F Reduction ParentChildReduction treePath rest _
        (i + 1)]

theorem foldl_foldStep_of_not_visited (F : VisitFunctor N R)
    (Reduction ParentChildReduction : R → R → R) :
    ∀ (l : List (Visited N)) (current_value : R),
      (∀ v ∈ l, F.doVisit v.node v.treePath = false) →
      l.foldl (foldStep F Reduction ParentChildReduction) current_value = current_value
  | [], _, _ => rfl
  | v :: rest, current_value, h => by
    have hv : F.doVisit v.node v.treePath = false := h v (List.mem_cons_self _ _)
    rw [List.foldl_cons, foldStep, hv]
    simp only [Bool.false_eq_true, if_false]
    exact foldl_foldStep_of_not_visited F Reduction ParentChildReduction rest current_value
      (fun w hw => h w (List.mem_cons_of_mem _ hw))

theorem foldl_foldStep_plus [AddCommMonoid R] (F : VisitFunctor N R) :
    ∀ (l : List (Visited N)) (current_value : R),
      (∀ v ∈ l, F.doVisit v.node v.treePath = !v.inner) →
      l.foldl (foldStep F plus plus) current_value
        = current_value
          + ((l.filter fun v => !v.inner).map fun v => F.visit v.node v.treePath).sum
  | [], current_value, _ => by simp
  | v :: rest, current_value, h => by
    have hv : F.doVisit v.node v.treePath = !v.inner := h v (List.mem_cons_self _ _)
    rw [List.foldl_cons,
      foldl_foldStep_plus F rest _ (fun w hw => h w (List.mem_cons_of_mem _ hw))]
    cases hin : v.inner with
    | true =>
      rw [hin] at hv
      have hf : (!v.inner) = false := by rw [hin]; rfl
      rw [List.filter_cons_of_neg (by simp [hf]), foldStep, hv]
      simp
    | false =>
      rw [hin] at hv
      have hf : (!v.inner) = true := by rw [hin]; rfl
      rw [List.filter_cons_of_pos (by simp [hf]), foldStep, hv, hin, List.map_cons,
        List.sum_cons]
      simp only [Bool.not_false, if_true, Bool.false_eq_true, if_false, plus]
      rw [add_assoc]

theorem AccumulateValueDefault_plus_eq_sum [AddCommMonoid R] (F : VisitFunctor N R)
    (tree : Tree N) (h : VisitsExactlyLeaves F tree) :
    AccumulateValueDefault tree F plus 0 = (leafVisits F tree).sum := by
  unfold AccumulateValueDefault AccumulateValue leafVisits
  rw [accumulate_value_eq_fold, foldl_foldStep_plus F _ 0 h, zero_add]

/-- C24. Accumulation is shape-independent for a commutative reduction: for every two trees
(of any depth and arity) that have the same multiset of per-leaf visit results, with the
`plus` reduction, start value 0 and `doVisit` true exactly on the leaves, `AccumulateValue`
yields the same result on both, the sum of the per-leaf visit results.  The result type is
any commutative additive monoid, which covers the integers and the integers modulo `2^w`. -/
theorem AccumulateValue_plus_shape_independent [AddCommMonoid R] (F : VisitFunctor N R)
    (tree1 tree2 : Tree N) (h1 : VisitsExactlyLeaves F tree1)
    (h2 : VisitsExactlyLeaves F tree2)
    (hm : (leafVisits F tree1 : Multiset R) = (leafVisits F tree2 : Multiset R)) :
    AccumulateValueDefault tree1 F plus 0 = (leafVisits F tree1).sum ∧
    AccumulateValueDefault tree2 F plus 0 = (leafVisits F tree2).sum ∧
    AccumulateValueDefault tree1 F plus 0 = AccumulateValueDefault tree2 F plus 0 := by
  have e1 := AccumulateValueDefault_plus_eq_sum F tree1 h1
  have e2 := AccumulateValueDefault_plus_eq_sum F tree2 h2
  refine ⟨e1, e2, ?_⟩
  rw [e1, e2]
  exact (Multiset.coe_eq_coe.mp hm).sum_eq

/-- C25. `AccumulateValue` is the depth-first, left-to-right, children-before-parent fold,
for every reduction: on a leaf the result is `Reduction(current, visit(leaf))` if `doVisit`
holds and the unchanged current value otherwise; on a power or composite node the children
are accumulated in index order, each from the result of the previous one, and the visit
value of the node is then combined as `ParentChildReduction(children_result, visit(node))`
if `doVisit` holds for the node; as a whole the result is the fold of the spec over the
nodes in post-order; `ParentChildReduction` defaults to `Reduction`; a tree on which
`doVisit` is false everywhere yields the start value. -/
theorem AccumulateValue_is_postorder_fold (F : VisitFunctor N R)
    (Reduction ParentChildReduction : R → R → R) :
    (∀ node current_value treePath,
      accumulate_value F Reduction ParentChildReduction (Tree.leaf node) current_value
          treePath
        = if F.doVisit node treePath then Reduction current_value (F.visit node treePath)
          else current_value) ∧
    (∀ node children current_value treePath,
      accumulate_value F Reduction ParentChildReduction (Tree.composite node children)
          current_value treePath
        = if F.doVisit node treePath then
            ParentChildReduction
              (children.enum.foldl
                (fun current_value child =>
                  accumulate_value F Reduction ParentChildReduction child.2 current_value
                    (treePath ++ [child.1]))
                current_value)
              (F.visit node treePath)
          else
            children.enum.foldl
              (fun current_value child =>
                accumulate_value F Reduction ParentChildReduction child.2 current_value
                  (treePath ++ [child.1]))
              current_value) ∧
    (∀ tree startValue,
      AccumulateValue tree F Reduction startValue ParentChildReduction
        = (postOrder tree []).foldl (foldStep F Reduction ParentChildReduction)
            startValue) ∧
    (∀ tree startValue,
      AccumulateValueDefault tree F Reduction startValue
        = AccumulateValue tree F Reduction startValue Reduction) ∧
    (∀ tree startValue, (∀ v ∈ postOrder tree [], F.doVisit v.node v.treePath = false) →
      AccumulateValue tree F Reduction startValue ParentChildReduction = startValue) := by
  refine ⟨fun node current_value treePath => ?_, fun node children current_value treePath => ?_,
    fun tree startValue => ?_, fun tree startValue => rfl, fun tree startValue h => ?_⟩
  · simp [accumulate_value, accumulate_node_helper]
  · rw [accumulate_value, accumulate_node_helper, accumulate_over_children_eq_enum]
    rfl
  · exact accumulate_value_eq_fold F Reduction ParentChildReduction tree startValue []
  · unfold AccumulateValue
    rw [accumulate_value_eq_fold]
    exact foldl_foldStep_of_not_visited F Reduction ParentChildReduction _ startValue h

end AccumulateProperties

/-- Witness of C24: the balanced and the skewed tree with the leaves 1, 2, 3, 4; both
accumulate to 10. -/
theorem AccumulateValue_plus_shape_independent_witness :
    VisitsExactlyLeaves leafFunctor balancedTree ∧
    VisitsExactlyLeaves leafFunctor skewedTree ∧
    AccumulateValueDefault balancedTree leafFunctor plus 0 = 10 ∧
    AccumulateValueDefault skewedTree leafFunctor plus 0 = 10 ∧
    AccumulateValueDefault balancedTree leafFunctor plus 0
      = AccumulateValueDefault skewedTree leafFunctor plus 0 :=
  ⟨by unfold VisitsExactlyLeaves; decide, by unfold VisitsExactlyLeaves; decide,
   by decide, by decide,
   (AccumulateValue_plus_shape_independent leafFunctor balancedTree skewedTree
      (by unfold VisitsExactlyLeaves; decide) (by unfold VisitsExactlyLeaves; decide)
      (Multiset.coe_eq_coe.mpr (by decide))).2.2⟩

/-- Witness of C25: with the functor that visits no node the start value 7 comes back; with
the functor that visits every node, `minus` on the leaves and `plus` on the inner nodes, the
skewed tree gives `((((100 - 4) - 3) - 2 - 1) + 10) + 20) + 30`. -/
theorem AccumulateValue_is_postorder_fold_witness :
    AccumulateValue skewedTree
      ({ doVisit := fun _ _ => false, visit := fun node _ => node } : VisitFunctor Int Int)
      minus 7 plus = 7 ∧
    AccumulateValue skewedTree everyNodeFunctor minus 100 plus = 150 ∧
    AccumulateValueDefault skewedTree everyNodeFunctor minus 100 = 30 :=
  ⟨(AccumulateValue_is_postorder_fold
      ({ doVisit := fun _ _ => false, visit := fun node _ => node } : VisitFunctor Int Int)
      minus plus).2.2.2.2 skewedTree 7 (fun _ _ => rfl),
   by decide, by decide⟩

end TypeTree

/-! ## Properties of the dof-copy helpers and of the generic data handles -/

/-- C26. `copy_dofs_child_to_parent` and `copy_dofs_parent_to_child` raise a fatal error
whenever the child index is greater than or equal to the number of children of the grid
function space, and in that case neither coefficient vector has been modified; for a child
index in `0..CHILDREN-1` they do not raise. -/
theorem copy_dofs_child_index_check {T : Type} (uChild uParent : CoefficientVector T)
    (flatsize : Nat) (gfs : ParentGridFunctionSpace) (child : Nat) :
    (child ≥ gfs.CHILDREN →
      (copy_dofs_child_to_parent uChild flatsize uParent gfs child).error = true ∧
      (copy_dofs_child_to_parent uChild flatsize uParent gfs child).uChild = uChild ∧
      (copy_dofs_child_to_parent uChild flatsize uParent gfs child).uParent = uParent ∧
      (copy_dofs_parent_to_child uParent uChild flatsize gfs child).error = true ∧
      (copy_dofs_parent_to_child uParent uChild flatsize gfs child).uChild = uChild ∧
      (copy_dofs_parent_to_child uParent uChild flatsize gfs child).uParent = uParent) ∧
    (child < gfs.CHILDREN →
      (copy_dofs_child_to_parent uChild flatsize uParent gfs child).error = false ∧
      (copy_dofs_parent_to_child uParent uChild flatsize gfs child).error = false) := by
  constructor
  · intro h
    simp only [copy_dofs_child_to_parent, copy_dofs_parent_to_child, if_pos h, and_self]
  · intro h
    have h2 : ¬ child ≥ gfs.CHILDREN := Nat.not_le.mpr h
    simp only [copy_dofs_child_to_parent, copy_dofs_parent_to_child, if_neg h2, and_self]

/-- Witness of C26: child index 2 of a space with two children is rejected and the parent
vector keeps its entry; child index 1 is accepted and its dof 0 lands at index 3. -/
theorem copy_dofs_child_index_check_witness :
    2 ≥ scenarioParentSpace.CHILDREN ∧ 1 < scenarioParentSpace.CHILDREN ∧
    (copy_dofs_child_to_parent (fun _ => (7 : Int)) 3 (fun _ => 0) scenarioParentSpace
      2).error = true ∧
    (copy_dofs_child_to_parent (fun _ => (7 : Int)) 3 (fun _ => 0) scenarioParentSpace
      2).uParent 6 = 0 ∧
    (copy_dofs_child_to_parent (fun _ => (7 : Int)) 3 (fun _ => 0) scenarioParentSpace
      1).error = false ∧
    (copy_dofs_child_to_parent (fun _ => (7 : Int)) 3 (fun _ => 0) scenarioParentSpace
      1).uParent 3 = 7 :=
  ⟨by decide, by decide,
   ((copy_dofs_child_index_check (fun _ => (7 : Int)) (fun _ => 0) 3 scenarioParentSpace
      2).1 (by decide)).1,
   by decide,
   ((copy_dofs_child_index_check (fun _ => (7 : Int)) (fun _ => 0) 3 scenarioParentSpace
      1).2 (by decide)).1,
   by decide⟩

theorem GenericDataHandle.scatterLoop_eq {E : Type} (t : GatherScatter E)
    (combine : E → E → E)
    (ht : ∀ buff data, t.scatter buff data = (buff.read.2, combine buff.read.1 data))
    (data : Nat → E) :
    ∀ (global : List Nat) (v : CoefficientVector E) (pos : Nat),
      GenericDataHandle.scatterLoop t global (v, { data := data, readPos := pos })
        = (appliedInOrder combine data global pos v,
           { data := data, readPos := pos + global.length })
  | [], v, pos => by simp [GenericDataHandle.scatterLoop, appliedInOrder]
  | g :: global, v, pos => by
    simp only [GenericDataHandle.scatterLoop, ht, MessageBuffer.read, appliedInOrder,
      List.length_cons]
    rw [GenericDataHandle.scatterLoop_eq t combine ht data global _ (pos + 1)]
    have e : pos + 1 + global.length = pos + (global.length + 1) := by omega
    rw [e]

theorem GenericDataHandle2.scatterLoop2_eq {E : Type} (t : GatherScatter2 E) (e : Entity)
    (combine : E → E → E)
    (ht : ∀ buff data, t.scatter buff e data = (buff.read.2, combine buff.read.1 data))
    (data : Nat → E) :
    ∀ (global : List Nat) (v : CoefficientVector E) (pos : Nat),
      GenericDataHandle2.scatterLoop t e global (v, { data := data, readPos := pos })
        = (appliedInOrder combine data global pos v,
           { data := data, readPos := pos + global.length })
  | [], v, pos => by simp [GenericDataHandle2.scatterLoop, appliedInOrder]
  | g :: global, v, pos => by
    simp only [GenericDataHandle2.scatterLoop, ht, MessageBuffer.read, appliedInOrder,
      List.length_cons]
    rw [GenericDataHandle2.scatterLoop2_eq t e combine ht data global _ (pos + 1)]
    have e : pos + 1 + global.length = pos + (global.length + 1) := by omega
    rw [e]

/-- C27. `GenericDataHandle::scatter(buff, e, n)` and `GenericDataHandle2::scatter` raise a
fatal error if and only if the number of global indices of the entity `e` differs from the
number `n` of objects sent; when they raise, no entry of the vector has been modified and
nothing has been read from the buffer; when they do not raise, with a functor whose `scatter`
reads one object and combines it into the entry (as every functor of the file does), exactly
`n` objects are read from the buffer and applied, in index order, to the entries at the
global indices of the entity. -/
theorem scatter_size_check {E : Type} (dataHandleGlobalIndices : Entity → List Nat)
    (t : GatherScatter E) (t2 : GatherScatter2 E) (v : CoefficientVector E)
    (buff : MessageBuffer E) (e : Entity) (n : Nat) :
    ((GenericDataHandle.scatter dataHandleGlobalIndices t v buff e n).error = true ↔
      (dataHandleGlobalIndices e).length ≠ n) ∧
    ((GenericDataHandle2.scatter dataHandleGlobalIndices t2 v buff e n).error = true ↔
      (dataHandleGlobalIndices e).length ≠ n) ∧
    ((dataHandleGlobalIndices e).length ≠ n →
      (GenericDataHandle.scatter dataHandleGlobalIndices t v buff e n).v = v ∧
      (GenericDataHandle.scatter dataHandleGlobalIndices t v buff e n).buff = buff ∧
      (GenericDataHandle2.scatter dataHandleGlobalIndices t2 v buff e n).v = v ∧
      (GenericDataHandle2.scatter dataHandleGlobalIndices t2 v buff e n).buff = buff) ∧
    (∀ combine : E → E → E,
      (∀ b data, t.scatter b data = (b.read.2, combine b.read.1 data)) →
      (dataHandleGlobalIndices e).length = n →
      (GenericDataHandle.scatter dataHandleGlobalIndices t v buff e n).buff.readPos
        = buff.readPos + n ∧
      (GenericDataHandle.scatter dataHandleGlobalIndices t v buff e n).buff.data
        = buff.data ∧
      (GenericDataHandle.scatter dataHandleGlobalIndices t v buff e n).v
        = appliedInOrder combine buff.data (dataHandleGlobalIndices e) buff.readPos v) ∧
    (∀ combine : E → E → E,
      (∀ b data, t2.scatter b e data = (b.read.2, combine b.read.1 data)) →
      (dataHandleGlobalIndices e).length = n →
      (GenericDataHandle2.scatter dataHandleGlobalIndices t2 v buff e n).buff.readPos
        = buff.readPos + n ∧
      (GenericDataHandle2.scatter dataHandleGlobalIndices t2 v buff e n).buff.data
        = buff.data ∧
      (GenericDataHandle2.scatter dataHandleGlobalIndices t2 v buff e n).v
        = appliedInOrder combine buff.data (dataHandleGlobalIndices e) buff.readPos v) := by
  obtain ⟨data, pos⟩ := buff
  refine ⟨?_, ?_, ?_, ?_, ?_⟩
  · simp only [GenericDataHandle.scatter]
    by_cases h : (dataHandleGlobalIndices e).length ≠ n
    · rw [if_pos h]
      exact ⟨fun _ => h, fun _ => rfl⟩
    · rw [if_neg h]
      exact ⟨fun hh => Bool.noConfusion hh, fun hh => absurd hh h⟩
  · simp only [GenericDataHandle2.scatter]
    by_cases h : (dataHandleGlobalIndices e).length ≠ n
    · rw [if_pos h]
      exact ⟨fun _ => h, fun _ => rfl⟩
    · rw [if_neg h]
      exact ⟨fun hh => Bool.noConfusion hh, fun hh => absurd hh h⟩
  · intro h
    simp only [GenericDataHandle.scatter, GenericDataHandle2.scatter, if_pos h, and_self]
  · intro combine ht hn
    subst hn
    simp only [GenericDataHandle.scatter, ne_eq, not_true_eq_false, if_false,
      GenericDataHandle.scatterLoop_eq t combine ht data, and_self]
  · intro combine ht hn
    subst hn
    simp only [GenericDataHandle2.scatter, ne_eq, not_true_eq_false, if_false,
      GenericDataHandle2.scatterLoop2_eq t2 e combine ht data, and_self]

/-- Witness of C27: an entity with the global indices 4 and 2 and the buffer 10, 20, 30, ..;
with `n = 3` the call raises and the vector is unchanged, with `n = 2` the adding functor
reads two objects and entry 4 receives 10, entry 2 receives 20. -/
theorem scatter_size_check_witness :
    (GenericDataHandle.scatter (fun _ => [4, 2]) AddGatherScatter (fun _ => (1 : Int))
      { data := fun k => 10 * (k + 1), readPos := 0 } { type := 0, index := 0 } 3).v
      = (fun _ => (1 : Int)) ∧
    (GenericDataHandle.scatter (fun _ => [4, 2]) AddGatherScatter (fun _ => (1 : Int))
      { data := fun k => 10 * (k + 1), readPos := 0 } { type := 0, index := 0 }
      2).buff.readPos = 0 + 2 ∧
    (GenericDataHandle.scatter (fun _ => [4, 2]) AddGatherScatter (fun _ => (1 : Int))
      { data := fun k => 10 * (k + 1), readPos := 0 } { type := 0, index := 0 } 2).v 4 = 11 ∧
    (GenericDataHandle.scatter (fun _ => [4, 2]) AddGatherScatter (fun _ => (1 : Int))
      { data := fun k => 10 * (k + 1), readPos := 0 } { type := 0, index := 0 } 2).v 2 = 21 :=
  ⟨((scatter_size_check (fun _ => [4, 2]) AddGatherScatter
      { scatter := fun b _ data => (b.read.2, data + b.read.1) } (fun _ => (1 : Int))
      { data := fun k => 10 * (k + 1), readPos := 0 } { type := 0, index := 0 } 3).2.2.1
      (by decide)).1,
   ((scatter_size_check (fun _ => [4, 2]) AddGatherScatter
      { scatter := fun b _ data => (b.read.2, data + b.read.1) } (fun _ => (1 : Int))
      { data := fun k => 10 * (k + 1), readPos := 0 } { type := 0, index := 0 } 2).2.2.2.1
      (fun x data => data + x) (fun _ _ => rfl) rfl).1,
   by decide, by decide⟩

/-! ## Further properties of the constraint transformations -/

section TransformClosedForms

variable {T : Type} [CommRing T]

theorem constrain_residualScatter_eq (cg : ConstraintsContainer T)
    (xg : CoefficientVector T) :
    constrain_residualScatter cg xg = LocalAssemblerBase.forwardtransformScatter cg xg := by
  have hstep : (fun (xg : CoefficientVector T) (cit : Nat × List (Nat × T)) =>
      cit.2.foldl (fun xg rit => Function.update xg rit.1 (xg rit.1 + rit.2 * xg cit.1)) xg)
      = fun x cit => LocalAssemblerBase.forwardtransformRow cit.1 x cit.2 := by
    funext xg cit
    unfold LocalAssemblerBase.forwardtransformRow
    congr 1
    funext x it
    rw [mul_comm]
  unfold constrain_residualScatter LocalAssemblerBase.forwardtransformScatter
  rw [hstep]

/-- C28. `constrain_residual` scatters before zeroing: for every constraints container in
which no contributed index is itself a key, and every vector `r`, after
`constrain_residual(cg, r)` every entry `d` that is not a key holds `r[d]` plus the sum over
the keys `c` whose inner map contains `d` of `weight(c,d) * r_old[c]`, where `r_old[c]` is
the value of the contributor before the call. -/
theorem constrain_residual_scatters_before_zeroing (cg : ConstraintsContainer T)
    (r : CoefficientVector T) (d : Nat) (hfree : cg.ChainFree) (hd : d ∉ cg.keys) :
    constrain_residual cg r d = r d + contributionsTo cg r d := by
  rw [constrain_residual, zeroConstrained_apply, if_neg hd, constrain_residualScatter_eq]
  apply LocalAssemblerBase.forwardtransformScatter_apply (fun k => k ∈ cg.keys) d cg r
  intro cit hcit
  exact ⟨List.mem_map.mpr ⟨cit, hcit, rfl⟩, hfree cit hcit⟩

/-- Witness of C28: the hanging-node container `{5: {2: 3, 3: 4}}` and the vector with
`r[5] = 2` and all other entries `1`; entry `2` ends as `1 + 3 * 2`. -/
theorem constrain_residual_scatters_before_zeroing_witness :
    ConstraintsContainer.ChainFree ([(5, [(2, 3), (3, 4)])] : ConstraintsContainer Int) ∧
    2 ∉ ConstraintsContainer.keys ([(5, [(2, 3), (3, 4)])] : ConstraintsContainer Int) ∧
    constrain_residual [(5, [(2, 3), (3, 4)])] (fun k => if k = 5 then (2 : Int) else 1) 2
      = 1 + 3 * 2 := by
  have hfree : ConstraintsContainer.ChainFree
      ([(5, [(2, 3), (3, 4)])] : ConstraintsContainer Int) := by
    intro cit hcit rit hrit
    simp only [List.mem_singleton] at hcit
    subst hcit
    simp only [List.mem_cons, List.mem_singleton, List.not_mem_nil, or_false] at hrit
    rcases hrit with rfl | rfl <;> simp [ConstraintsContainer.keys]
  have hd : 2 ∉ ConstraintsContainer.keys
      ([(5, [(2, 3), (3, 4)])] : ConstraintsContainer Int) := by
    simp [ConstraintsContainer.keys]
  refine ⟨hfree, hd, ?_⟩
  rw [constrain_residual_scatters_before_zeroing _ _ 2 hfree hd]
  simp [contributionsTo]

namespace LocalAssemblerBase

theorem backtransformRow_prerestrict (c : Nat) (row : List (Nat × T))
    (x : CoefficientVector T) (hne : ∀ it ∈ row, it.1 ≠ c) (k : Nat) :
    backtransformRow c (Function.update x c 0) row k
      = if k = c then weightedSum x row else x k := by
  rw [backtransformRow_apply c row _ hne k]
  have hws : weightedSum (Function.update x c 0) row = weightedSum x row := by
    unfold weightedSum
    apply congrArg List.sum
    apply List.map_congr_left
    intro it hit
    rw [Function.update_noteq (hne it hit)]
  by_cases hk : k = c
  · rw [if_pos hk, if_pos hk, Function.update_same, hws, zero_add]
  · rw [if_neg hk, if_neg hk, Function.update_noteq hk]

theorem backtransform_true_of_satisfies (x : CoefficientVector T) :
    ∀ (cv : ConstraintsContainer T), cv.NoSelfReference → SatisfiesConstraints cv x →
      backtransform cv x true = x := by
  intro cv
  induction cv with
  | nil => intro _ _; rfl
  | cons cit rest ih =>
    intro hself hsat
    have hrow : backtransformRow cit.1 (Function.update x cit.1 0) cit.2 = x := by
      funext k
      rw [backtransformRow_prerestrict cit.1 cit.2 x (hself cit (List.mem_cons_self _ _)) k]
      by_cases hk : k = cit.1
      · subst hk
        rw [if_pos rfl, ← hsat cit (List.mem_cons_self _ _)]
      · rw [if_neg hk]
    unfold backtransform at ih ⊢
    rw [List.foldl_cons]
    simp only [if_true] at ih ⊢
    rw [hrow]
    exact ih (fun e he => hself e (List.mem_cons_of_mem _ he))
      (fun e he => hsat e (List.mem_cons_of_mem _ he))

theorem backtransform_true_frame (k : Nat) :
    ∀ (l : ConstraintsContainer T) (x : CoefficientVector T), l.NoSelfReference →
      k ∉ l.keys → backtransform l x true k = x k := by
  intro l
  induction l with
  | nil => intro x _ _; rfl
  | cons cit rest ih =>
    intro x hself hk
    have hk1 : k ≠ cit.1 := by
      intro e
      exact hk (by simp [ConstraintsContainer.keys, e])
    have hk2 : k ∉ ConstraintsContainer.keys rest := by
      intro e
      exact hk (by
        simp only [ConstraintsContainer.keys, List.map_cons, List.mem_cons] at e ⊢
        exact Or.inr e)
    have := ih (backtransformRow cit.1 (Function.update x cit.1 0) cit.2)
      (fun e he => hself e (List.mem_cons_of_mem _ he)) hk2
    unfold backtransform at this ⊢
    rw [List.foldl_cons]
    simp only [if_true] at this ⊢
    rw [this, backtransformRow_prerestrict cit.1 cit.2 x (hself cit (List.mem_cons_self _ _)) k,
      if_neg hk1]

theorem backtransform_true_congr (isKey : Nat → Prop) :
    ∀ (l : ConstraintsContainer T) (x y : CoefficientVector T),
      (∀ cit ∈ l, isKey cit.1 ∧ ∀ rit ∈ cit.2, ¬ isKey rit.1) →
      (∀ d, ¬ isKey d → x d = y d) →
      ∀ k, (k ∈ l.keys ∨ ¬ isKey k) → backtransform l x true k = backtransform l y true k := by
  intro l
  induction l with
  | nil =>
    intro x y _ hxy k hk
    rcases hk with hk | hk
    · simp [ConstraintsContainer.keys] at hk
    · exact hxy k hk
  | cons cit rest ih =>
    intro x y h hxy k hk
    obtain ⟨hkey, hrow⟩ := h cit (List.mem_cons_self _ _)
    have hrest : ∀ e ∈ rest, isKey e.1 ∧ ∀ rit ∈ e.2, ¬ isKey rit.1 :=
      fun e he => h e (List.mem_cons_of_mem _ he)
    have hne : ∀ it ∈ cit.2, it.1 ≠ cit.1 := by
      intro it hit e
      exact hrow it hit (by rw [e]; exact hkey)
    have hselfrest : ConstraintsContainer.NoSelfReference rest := by
      intro e he rit hrit e2
      exact (hrest e he).2 rit hrit (by rw [e2]; exact (hrest e he).1)
    have hws : weightedSum x cit.2 = weightedSum y cit.2 := by
      unfold weightedSum
      apply congrArg List.sum
      apply List.map_congr_left
      intro it hit
      rw [hxy it.1 (hrow it hit)]
    have hstep : ∀ d, (d = cit.1 ∨ ¬ isKey d) →
        backtransformRow cit.1 (Function.update x cit.1 0) cit.2 d
          = backtransformRow cit.1 (Function.update y cit.1 0) cit.2 d := by
      intro d hd
      rw [backtransformRow_prerestrict cit.1 cit.2 x hne d,
        backtransformRow_prerestrict cit.1 cit.2 y hne d]
      by_cases hdc : d = cit.1
      · rw [if_pos hdc, if_pos hdc, hws]
      · rw [if_neg hdc, if_neg hdc]
        rcases hd with hd | hd
        · exact absurd hd hdc
        · exact hxy d hd
    have hunfold : ∀ z : CoefficientVector T,
        backtransform (cit :: rest) z true
          = backtransform rest (backtransformRow cit.1 (Function.update z cit.1 0) cit.2)
              true := by
      intro z
      unfold backtransform
      rw [List.foldl_cons]
      simp only [if_true]
    rw [hunfold x, hunfold y]
    by_cases hkr : k ∈ ConstraintsContainer.keys rest ∨ ¬ isKey k
    · exact ih _ _ hrest (fun d hd => hstep d (Or.inr hd)) k hkr
    · have hknot : k ∉ ConstraintsContainer.keys rest := fun e => hkr (Or.inl e)
      have hkc : k = cit.1 := by
        rcases hk with hk | hk
        · simp only [ConstraintsContainer.keys, List.map_cons, List.mem_cons] at hk
          rcases hk with hk | hk
          · exact hk
          · exact absurd hk hknot
        · exact absurd (Or.inr hk) hkr
      rw [backtransform_true_frame k rest _ hselfrest hknot,
        backtransform_true_frame k rest _ hselfrest hknot]
      exact hstep k (Or.inl hkc)

/-- C30, as amended.  `backtransform` with `prerestrict = true` is the identity on
constraint-satisfying vectors for every constraints container in which no constrained dof
occurs in its own inner map (chains of constraints are allowed); and for every container in
which no contributed index is itself a key and every vector `x`, applying
`backtransform(., true)` twice gives the same vector as applying it once, with all non-key
entries unchanged. -/
theorem backtransform_prerestrict_fixes_and_idempotent (cv : ConstraintsContainer T)
    (x : CoefficientVector T) :
    (cv.NoSelfReference → SatisfiesConstraints cv x → backtransform cv x true = x) ∧
    (cv.ChainFree →
      backtransform cv (backtransform cv x true) true = backtransform cv x true ∧
      ∀ d, d ∉ cv.keys → backtransform cv x true d = x d) := by
  refine ⟨fun hself hsat => backtransform_true_of_satisfies x cv hself hsat, fun hfree => ?_⟩
  have hkeys : ∀ cit ∈ cv, cit.1 ∈ cv.keys ∧ ∀ rit ∈ cit.2, ¬ rit.1 ∈ cv.keys :=
    fun cit hcit => ⟨List.mem_map.mpr ⟨cit, hcit, rfl⟩, hfree cit hcit⟩
  have hself : cv.NoSelfReference := by
    intro cit hcit rit hrit e
    exact (hkeys cit hcit).2 rit hrit (by rw [e]; exact (hkeys cit hcit).1)
  have hframe : ∀ (z : CoefficientVector T) d, d ∉ cv.keys → backtransform cv z true d = z d :=
    fun z d hd => backtransform_true_frame d cv z hself hd
  refine ⟨?_, hframe x⟩
  funext k
  apply backtransform_true_congr (fun k => k ∈ cv.keys) cv _ _ hkeys
  · intro d hd
    exact hframe x d hd
  · by_cases hk : k ∈ cv.keys
    · exact Or.inl hk
    · exact Or.inr hk

/-- Witness of C30 as amended: the chain `{1: {2: 1}, 2: {3: 1}}` has no self reference and
the constant vector satisfies it; the hanging-node container `{5: {2: 3, 3: 4}}` is chain
free. -/
theorem backtransform_prerestrict_fixes_and_idempotent_witness :
    ConstraintsContainer.NoSelfReference
      ([(1, [(2, 1)]), (2, [(3, 1)])] : ConstraintsContainer Int) ∧
    SatisfiesConstraints ([(1, [(2, 1)]), (2, [(3, 1)])] : ConstraintsContainer Int)
      (fun _ => 6) ∧
    backtransform [(1, [(2, 1)]), (2, [(3, 1)])] (fun _ => (6 : Int)) true = (fun _ => 6) ∧
    backtransform [(5, [(2, 3), (3, 4)])] (fun _ => (1 : Int)) true 5 = 7 := by
  have hself : ConstraintsContainer.NoSelfReference
      ([(1, [(2, 1)]), (2, [(3, 1)])] : ConstraintsContainer Int) := by
    intro cit hcit rit hrit
    simp only [List.mem_cons, List.mem_singleton, List.not_mem_nil, or_false] at hcit
    rcases hcit with rfl | rfl
    · simp only [List.mem_singleton] at hrit
      subst hrit
      decide
    · simp only [List.mem_singleton] at hrit
      subst hrit
      decide
  have hsat : SatisfiesConstraints
      ([(1, [(2, 1)]), (2, [(3, 1)])] : ConstraintsContainer Int) (fun _ => 6) := by
    intro cit hcit
    simp only [List.mem_cons, List.mem_singleton, List.not_mem_nil, or_false] at hcit
    rcases hcit with rfl | rfl <;> simp [weightedSum]
  exact ⟨hself, hsat,
    (backtransform_prerestrict_fixes_and_idempotent _ _).1 hself hsat, by decide⟩

/-- C30 fails as stated: the container `{0: {0: 1}}`, whose only constrained dof occurs in
its own inner map, is satisfied by the vector with all entries `1`, yet
`backtransform(x, true)` first sets `x[0] = 0` and then adds `1 * x[0] = 0`, so entry `0`
ends as `0`. -/
theorem backtransform_self_reference_counterexample :
    SatisfiesConstraints ([(0, [(0, 1)])] : ConstraintsContainer Int) (fun _ => 1) ∧
    backtransform [(0, [(0, 1)])] (fun _ => (1 : Int)) true 0 = 0 ∧
    backtransform [(0, [(0, 1)])] (fun _ => (1 : Int)) true ≠ (fun _ => 1) := by
  have hsat : SatisfiesConstraints ([(0, [(0, 1)])] : ConstraintsContainer Int)
      (fun _ => 1) := by
    intro cit hcit
    simp only [List.mem_singleton] at hcit
    subst hcit
    simp [weightedSum]
  have h0 : backtransform [(0, [(0, 1)])] (fun _ => (1 : Int)) true 0 = 0 := by decide
  refine ⟨hsat, h0, fun h => ?_⟩
  have h1 := congrFun h 0
  rw [h0] at h1
  exact absurd h1 (by decide)

end LocalAssemblerBase

end TransformClosedForms

/-! ## A pure Dirichlet column in `etadd` -/

theorem find_withoutEmptyRows {T : Type} :
    ∀ (cu : ConstraintsContainer T), cu.keys.Nodup → ∀ g,
      cu.withoutEmptyRows.find g = (cu.find g).filter fun row => !row.isEmpty
  | [], _, g => by
    simp [ConstraintsContainer.withoutEmptyRows, ConstraintsContainer.find, List.lookup,
      Option.filter]
  | (k, row) :: rest, hnd, g => by
    have hnd2 : k ∉ ConstraintsContainer.keys rest ∧ (ConstraintsContainer.keys rest).Nodup := by
      simpa [ConstraintsContainer.keys] using hnd
    have ih := find_withoutEmptyRows rest hnd2.2 g
    unfold ConstraintsContainer.withoutEmptyRows ConstraintsContainer.find at ih ⊢
    by_cases hg : g = k
    · subst hg
      have hnone : List.lookup g (rest.filter fun cit => !cit.2.isEmpty) = none := by
        have hsub : g ∉ ConstraintsContainer.keys (rest.filter fun cit => !cit.2.isEmpty) := by
          intro hmem
          obtain ⟨cit, hcit, hk⟩ := List.mem_map.mp hmem
          exact hnd2.1 (List.mem_map.mpr ⟨cit, (List.mem_filter.mp hcit).1, hk⟩)
        have := (find_isNone_iff (rest.filter fun cit => !cit.2.isEmpty) g).mpr hsub
        exact Option.isNone_iff_eq_none.mp this
      have hl : List.lookup g ((g, row) :: rest) = some row := by
        simp [List.lookup]
      rw [hl]
      cases hrow : row.isEmpty with
      | true =>
        rw [List.filter_cons_of_neg (by simp [hrow]), hnone]
        simp [Option.filter, hrow]
      | false =>
        rw [List.filter_cons_of_pos (by simp [hrow])]
        simp [List.lookup, Option.filter, hrow]
    · have hb : (g == k) = false := by simpa using hg
      have hl : List.lookup g ((k, row) :: rest) = List.lookup g rest := by
        rw [List.lookup_cons, hb]
      rw [hl, ← ih]
      cases hrow : row.isEmpty with
      | true => rw [List.filter_cons_of_neg (by simp [hrow])]
      | false =>
        rw [List.filter_cons_of_pos (by simp [hrow]), List.lookup_cons, hb]

namespace LocalAssemblerBase

section DirichletColumn

variable {T : Type} [CommRing T] [DecidableEq T]

theorem etaddRowBody_filter (m : T) (i j gi gj : Nat) (vf : T) (foreign_dofs : Bool)
    (gucit : Option (List (Nat × T))) :
    etaddRowBody m i j gi gj vf foreign_dofs (gucit.filter fun row => !row.isEmpty)
      = etaddRowBody m i j gi gj vf foreign_dofs gucit := by
  cases gucit with
  | none => rfl
  | some urow =>
    cases urow with
    | nil => simp [etaddRowBody, etaddColumnLoop, Option.filter, mul_one]
    | cons it rest => simp [Option.filter]

theorem etaddRowLoop_filter (m : T) (i j gj : Nat) (gucit : Option (List (Nat × T))) :
    ∀ (gvrit : List (Nat × T)),
      etaddRowLoop m i j gj (gucit.filter fun row => !row.isEmpty) gvrit
        = etaddRowLoop m i j gj gucit gvrit
  | [] => rfl
  | (gi, vf) :: gvrit => by
    simp only [etaddRowLoop, etaddRowBody_filter, etaddRowLoop_filter m i j gj gucit gvrit]

theorem etaddEntry_withoutEmptyRows (cv cu : ConstraintsContainer T)
    (hnd : cu.keys.Nodup) (i j gi gj : Nat) (m : T) :
    etaddEntry cv cu.withoutEmptyRows i j gi gj m = etaddEntry cv cu i j gi gj m := by
  unfold etaddEntry
  rw [find_withoutEmptyRows cu hnd gj]
  cases cv.find gi with
  | none => exact etaddRowBody_filter m i j gi gj 1 false (cu.find gj)
  | some vrow => exact etaddRowLoop_filter m i j gj (cu.find gj) vrow

/-- C29. A pure Dirichlet trial-space column is treated by `etadd` exactly like an
unconstrained column: for every local matrix, every `CV` and every `CU` (a map, so its keys
are distinct), the accessor calls made by `etadd`, and with them the global matrix, are the
same as those made with the container obtained from `CU` by removing all entries with an
empty inner map; in particular for an unconstrained row `gi` and a pure Dirichlet column
`gj` the local value `v` is added once, unscaled, by `accessor.add(i,j,v)`, that is at
`(gi,gj)` (the call is left out if `v` is zero). -/
theorem etadd_dirichlet_column_as_unconstrained (cv cu : ConstraintsContainer T)
    (lfsv lfsu : List Nat) (m : Nat → Nat → T) (hnd : cu.keys.Nodup) :
    etaddCalls cv cu lfsv lfsu m = etaddCalls cv cu.withoutEmptyRows lfsv lfsu m ∧
    (∀ globalcontainer,
      etadd cv cu lfsv lfsu m globalcontainer
        = etadd cv cu.withoutEmptyRows lfsv lfsu m globalcontainer) ∧
    (∀ i j v, cv.find (lfsv.getD i 0) = none → cu.find (lfsu.getD j 0) = some [] →
      etaddEntry cv cu i j (lfsv.getD i 0) (lfsu.getD j 0) v
        = (if v ≠ 0 then [AccessorCall.add i j v] else []) ∧
      ∀ globalcontainer r c,
        (etaddEntry cv cu i j (lfsv.getD i 0) (lfsu.getD j 0) v).foldl
            (accessorApply lfsv lfsu) globalcontainer r c
          = if (lfsv.getD i 0, lfsu.getD j 0) = (r, c) then globalcontainer r c + v
            else globalcontainer r c) := by
  have hcalls : etaddCalls cv cu lfsv lfsu m = etaddCalls cv cu.withoutEmptyRows lfsv lfsu m := by
    unfold etaddCalls
    simp only [etaddEntry_withoutEmptyRows cv cu hnd]
  refine ⟨hcalls, fun globalcontainer => ?_, fun i j v hv hu => ?_⟩
  · unfold etadd
    rw [hcalls]
  · have hentry : etaddEntry cv cu i j (lfsv.getD i 0) (lfsu.getD j 0) v
        = (if v ≠ 0 then [AccessorCall.add i j v] else []) := by
      unfold etaddEntry
      rw [hv, hu]
      simp [etaddRowBody, etaddColumnLoop, etaddEmit]
    refine ⟨hentry, fun globalcontainer r c => ?_⟩
    rw [hentry]
    by_cases h0 : v = 0
    · subst h0
      simp
    · rw [if_pos h0]
      simp only [List.foldl_cons, List.foldl_nil, accessorApply, accessorTarget, accessorValue]

/-- Witness of C29: no row constraints, the pure Dirichlet column `{1: {}}` and the local
matrix `[[2,1],[1,3]]` on the dofs `0, 1`: the four local values are added at their own
positions, with and without the Dirichlet entry. -/
theorem etadd_dirichlet_column_as_unconstrained_witness :
    (ConstraintsContainer.keys ([(1, [])] : ConstraintsContainer Int)).Nodup ∧
    etaddCalls ([] : ConstraintsContainer Int) [(1, [])] [0, 1] [0, 1] scenarioMatrix
      = etaddCalls ([] : ConstraintsContainer Int)
          (ConstraintsContainer.withoutEmptyRows [(1, [])]) [0, 1] [0, 1] scenarioMatrix ∧
    etaddCalls ([] : ConstraintsContainer Int) [(1, [])] [0, 1] [0, 1] scenarioMatrix
      = [AccessorCall.add 0 0 2, AccessorCall.add 0 1 1, AccessorCall.add 1 0 1,
         AccessorCall.add 1 1 3] :=
  ⟨by decide,
   (etadd_dirichlet_column_as_unconstrained ([] : ConstraintsContainer Int) [(1, [])]
      [0, 1] [0, 1] scenarioMatrix (by decide)).1,
   by decide⟩

end DirichletColumn

end LocalAssemblerBase

end PDELab
